import Mathlib

/-!
# Verification of the forgi cofold graph-surgery engine and sequence layer

This file gives a shallow embedding of `forgi/graph/_cofold.py` (and of the
`forgi.graph.sequence` layer, whose implementation is absent from the sources
and is therefore modelled from the specification) and proves the frozen
claims about it.

Modelling conventions:
* Element names (`s0`, `i1`, `t2`, ...) are modelled as pairs of a one-letter
  type tag and a numeric index (`EName := Char × Nat`), mirroring the naming
  scheme "one-letter type tag + sequential index" of the data model.
* Python dicts (`bg.defines`, `bg.edges`) are modelled as association lists
  with insertion-order semantics: assignment replaces an existing entry in
  place or appends a fresh one at the end, exactly like an (ordered) dict.
  `bg.edges` is a `defaultdict(set)`: looking up an absent key yields the
  empty set.
* Python sets are modelled as lists used up to membership; `set.add` inserts
  when absent, removal filters.
* Fallible operations return `Except SplitError _`; every distinct raise
  site of the source gets its own error constructor.
-/

set_option maxHeartbeats 1000000
set_option linter.unusedSectionVars false
set_option linter.unnecessarySimpa false

namespace Forgi

/-- An element name: a one-letter type tag (`'s'`, `'h'`, `'i'`, `'m'`,
`'f'`, `'t'`) together with its numeric index. -/
abbrev EName := Char × Nat

section Assoc

variable {κ : Type} [DecidableEq κ] {α : Type}

/-- Dictionary lookup on an association list: the first entry with the given
key wins (keys of a dict are unique anyway). -/
def alookup (k : κ) : List (κ × α) → Option α
  | [] => none
  | (k', v) :: rest => if k' = k then some v else alookup k rest

/-- Dictionary assignment `d[k] = v`: replace the (first) entry holding `k`
in place, or append a new entry at the end, like insertion-ordered dicts. -/
def aupdate (k : κ) (v : α) : List (κ × α) → List (κ × α)
  | [] => [(k, v)]
  | (k', w) :: rest => if k' = k then (k, v) :: rest else (k', w) :: aupdate k v rest

/-- Dictionary deletion `del d[k]`: drop the (first) entry holding `k`. -/
def aerase (k : κ) : List (κ × α) → List (κ × α)
  | [] => []
  | (k', w) :: rest => if k' = k then rest else (k', w) :: aerase k rest

/-- The key list of an association list. -/
def akeys (l : List (κ × α)) : List κ := l.map Prod.fst

@[simp] theorem alookup_nil (k : κ) : alookup k ([] : List (κ × α)) = none := rfl

@[simp] theorem alookup_cons (k k' : κ) (v : α) (l : List (κ × α)) :
    alookup k ((k', v) :: l) = if k' = k then some v else alookup k l := rfl

end Assoc

/-- The bulge graph: `defines` maps element names to their boundary-position
lists (length 0, 2 or 4), `edges` maps element names to their neighbour sets
(a `defaultdict(set)`: absent keys read as the empty set), and `seq_length`
is the total number of nucleotide positions. -/
structure BulgeGraph where
  defines : List (EName × List Int)
  edges : List (EName × List EName)
  seq_length : Int
deriving DecidableEq, Repr

namespace BulgeGraph

/-- The element names of the graph (`bg.defines.keys()`). -/
def keys (g : BulgeGraph) : List EName := akeys g.defines

/-- `bg.edges[x]` under `defaultdict(set)` semantics: absent key = empty set. -/
def edgesOf (g : BulgeGraph) (x : EName) : List EName :=
  (alookup x g.edges).getD []

/-- Python `set.add`: insert the element if it is not already present. -/
def sinsert (x : EName) (l : List EName) : List EName :=
  if x ∈ l then l else x :: l

/-- Set removal: drop every occurrence (a set holds at most one). -/
def serase (x : EName) (l : List EName) : List EName :=
  l.filter (· ≠ x)

/-- Python `a & b` on sets: the members of `a` that are also in `b`. -/
def sinter (a b : List EName) : List EName :=
  a.filter (· ∈ b)

/-- Source `_add_edge` (lines 181-183): add each endpoint to the other's
neighbour set. -/
def _add_edge (g : BulgeGraph) (a b : EName) : BulgeGraph :=
  let g1 : BulgeGraph := { g with edges := aupdate a (sinsert b (g.edgesOf a)) g.edges }
  { g1 with edges := aupdate b (sinsert a (g1.edgesOf b)) g1.edges }

/-- Source `_remove_edge` (lines 177-179): remove each endpoint from the
other's neighbour set. -/
def _remove_edge (g : BulgeGraph) (a b : EName) : BulgeGraph :=
  let g1 : BulgeGraph := { g with edges := aupdate a (serase b (g.edgesOf a)) g.edges }
  { g1 with edges := aupdate b (serase a (g1.edgesOf b)) g1.edges }

/-- The index search of `_next_available_element_name`: starting at `i`,
return the first index whose name is free.  The fuel argument makes the
recursion structural; `_next_available_element_name` supplies enough fuel
for the search to always finish (there are at most `keys.length` taken
indices), so the `0` case is never reached on its call. -/
def nextIndexFrom (g : BulgeGraph) (t : Char) : Nat → Nat → Nat
  | 0, i => i
  | fuel + 1, i => if (t, i) ∈ g.keys then nextIndexFrom g t fuel (i + 1) else i

/-- Source `_next_available_element_name` (lines 166-175): the name made of
the given type tag and the smallest index not yet a key of `defines`.  The
unbounded Python `while` loop terminates because `defines` is finite. -/
def _next_available_element_name (g : BulgeGraph) (t : Char) : EName :=
  (t, nextIndexFrom g t (g.keys.length + 1) 0)

/-- Modelled from the spec: `remove_vertex` (imported from the absent
`_graph_construction` module; spec §3 "mutated in place only by
CofoldSplitter (element removal, ...)"). Removes the element from `defines`
and every mention of it from `edges`. -/
def remove_vertex (g : BulgeGraph) (v : EName) : BulgeGraph :=
  { defines := aerase v g.defines
    edges := (aerase v g.edges).map (fun p => (p.1, serase v p.2))
    seq_length := g.seq_length }

/-- Modelled from the spec: `BulgeGraph.relabel_node` (absent from the
sources; spec §3 "relabeling"). Moves the define to the new name and
rewrites every edge mention of the old name to the new one. -/
def relabel_node (g : BulgeGraph) (old new : EName) : BulgeGraph :=
  match alookup old g.defines with
  | none => g
  | some d =>
    { defines := aerase old g.defines ++ [(new, d)]
      edges := ((aerase old g.edges).map
          (fun p => (p.1, p.2.map (fun x => if x = old then new else x))))
          ++ [(new, g.edgesOf old)]
      seq_length := g.seq_length }

/-- Does a define list (paired spans) cover the position `p`? -/
def inDefine (p : Int) : List Int → Bool
  | a :: b :: rest => (a ≤ p && p ≤ b) || inDefine p rest
  | _ => false

/-- Modelled from the spec: `BulgeGraph.get_node_from_residue_num` (absent
from the sources) — the element whose define spans contain the position. -/
def get_node_from_residue_num (g : BulgeGraph) (p : Int) : Option EName :=
  g.defines.findSome? (fun q => if inDefine p q.2 then some q.1 else none)

/-- Modelled from the spec: `BulgeGraph.pairing_partner` (absent from the
sources) — the base-pairing partner of a paired position, reconstructed from
the 4-entry define of the stem containing it (spec §3: a stem's define holds
its two paired strand spans, pairing the spans in reverse order). -/
def pairing_partner (g : BulgeGraph) (p : Int) : Option Int :=
  match g.get_node_from_residue_num p with
  | none => none
  | some n =>
    match alookup n g.defines with
    | some [a, b, c, d] =>
      if a ≤ p ∧ p ≤ b then some (d - (p - a)) else some (b - (p - c))
    | _ => none

/-- First entry of an element's define, used as its backbone sort key. -/
def defineKey (g : BulgeGraph) (n : EName) : Int :=
  ((alookup n g.defines).getD []).headD 0

def insertByKey (g : BulgeGraph) (x : EName) : List EName → List EName
  | [] => [x]
  | y :: rest =>
    if g.defineKey x ≤ g.defineKey y then x :: y :: rest
    else y :: insertByKey g x rest

def sortByKey (g : BulgeGraph) : List EName → List EName
  | [] => []
  | x :: rest => insertByKey g x (sortByKey g rest)

/-- Modelled from the spec: `BulgeGraph.connections` (absent from the
sources) — the neighbours of an element ordered along the backbone, so that
for an interior loop `c[0]` is the 5'-side stem and `c[1]` the 3'-side stem. -/
def connections (g : BulgeGraph) (n : EName) : List EName :=
  sortByKey g (g.edgesOf n)

/-- Modelled from the spec: `BulgeGraph.define_a` (absent from the sources) —
the define extended by the adjacent nucleotides.  For a zero-length connector
it is `[x, x+1]` where `x` is the boundary nucleotide at which its two
adjacent elements abut; for a non-empty define `[a, .., b]` it is
`[a-1, b+1]`. -/
def define_a (g : BulgeGraph) (n : EName) : List Int :=
  match alookup n g.defines with
  | some [] =>
    match g.connections n with
    | c0 :: c1 :: _ =>
      let d0 := (alookup c0 g.defines).getD []
      let d1 := (alookup c1 g.defines).getD []
      match d0.find? (fun x => (x + 1) ∈ d1) with
      | some x => [x, x + 1]
      | none => []
    | _ => []
  | some (a :: rest) => [a - 1, (rest.getLastD a) + 1]
  | _ => []

/-- Modelled from the spec: `BulgeGraph.flanking_nucleotides` (absent from
the sources) — the nucleotides immediately outside the element's span(s)
that exist on the backbone. -/
def flanking_nucleotides (g : BulgeGraph) (n : EName) : List Int :=
  match alookup n g.defines with
  | some [] => g.define_a n
  | some (a :: rest) =>
    (if 1 ≤ a - 1 then [a - 1] else []) ++
      (if (rest.getLastD a) + 1 ≤ g.seq_length then [(rest.getLastD a) + 1] else [])
  | _ => []

end BulgeGraph

/-- One constructor per distinct failure site of `split_at_cofold_cutpoints`
and its helpers: the two `GraphConstructionError` raise sites inside the
cutpoint loop, the final connectivity `GraphConstructionError`, the
`assert` sites, and the Python-level crashes on malformed graphs. -/
inductive SplitError
  /-- Line 27: "Found two sequences not connected by any base-pair" raised
  inside the terminal-end guard of the cutpoint loop. -/
  | guardDisconnected
  /-- Line 81: "Missing connection between {} and {}". -/
  | missingConnection
  /-- Line 91: "No suitable connection between {} and {}". -/
  | noSuitableConnection
  /-- An `assert` of the source failing. -/
  | assertionError
  /-- A Python-level IndexError/KeyError on a malformed graph. -/
  | internalError
  /-- `get_node_from_residue_num` finding no element at the position. -/
  | nodeNotFound
  /-- Line 43: the final connectivity check failing after the loop. -/
  | notConnected
  /-- `_is_connected` crashing on `list(bg.defines.keys())[0]` when
  `defines` is empty. -/
  | emptyGraph
deriving DecidableEq, Repr

namespace BulgeGraph

/-- Source `_split_between_elements` (lines 65-100). -/
def _split_between_elements (g : BulgeGraph) (sp : Int)
    (element_left element_right : EName) : Except SplitError BulgeGraph :=
  if element_left.1 = 'm' ∨ element_left.1 = 'h' then
    let next3 := g._next_available_element_name 't'
    let g1 := g.relabel_node element_left next3
    if element_left.1 ≠ 'h' then .ok (g1._remove_edge next3 element_right)
    else .ok g1
  else if element_right.1 = 'm' ∨ element_right.1 = 'h' then
    let next5 := g._next_available_element_name 'f'
    let g1 := g.relabel_node element_right next5
    if element_right.1 ≠ 'h' then .ok (g1._remove_edge next5 element_left)
    else .ok g1
  else if element_left.1 = 's' ∧ element_right.1 = 's' then
    let conns := sinter (g.edgesOf element_left) (g.edgesOf element_right)
    if conns = [] then .error .missingConnection
    else
      match conns.find? (fun c => decide (c.1 = 'i' ∨
          (alookup c g.defines = some [] ∧ (g.define_a c).headD 0 = sp))) with
      | none => .error .noSuitableConnection
      | some connection =>
        if connection.1 = 'm' then .ok (g.remove_vertex connection)
        else if connection.1 = 'i' then
          let nextML := g._next_available_element_name 'm'
          .ok (g.relabel_node connection nextML)
        else .error .assertionError
  else .error .assertionError

/-- Source `_split_inside_loop` (lines 102-116). -/
def _split_inside_loop (g : BulgeGraph) (sp : Int) (element : EName) :
    Except SplitError BulgeGraph :=
  if element.1 = 'h' ∨ element.1 = 'm' then
    match alookup element g.defines with
    | some [from_, to_] =>
      match g.get_node_from_residue_num (from_ - 1),
          g.get_node_from_residue_num (to_ + 1) with
      | some stem_left, some stem_right =>
        let next3 := g._next_available_element_name 't'
        let next5 := g._next_available_element_name 'f'
        let g1 : BulgeGraph := { g with defines := aupdate next3 [from_, sp] g.defines }
        let g2 : BulgeGraph := { g1 with defines := aupdate next5 [sp + 1, to_] g1.defines }
        let g3 := g2._add_edge stem_left next3
        let g4 := g3._add_edge next5 stem_right
        .ok (g4.remove_vertex element)
      | _, _ => .error .internalError
    | _ => .error .internalError
  else .error .assertionError

def listMax? : List Int → Option Int
  | [] => none
  | x :: rest => match listMax? rest with | none => some x | some m => some (max x m)

def listMin? : List Int → Option Int
  | [] => none
  | x :: rest => match listMin? rest with | none => some x | some m => some (min x m)

/-- The edge-redistribution loop of `_split_inside_stem` (lines 135-147):
each edge joins `edges1` if its flanking nucleotides touch `define1[0]` or
`define1[3]`, else `edges2` if they touch `define2[2]` or `define2[1]`, else
the source's `assert False` fires (`none`). -/
def classifyEdges (g : BulgeGraph) (d10 d13 d22 d21 : Int) :
    List EName → Option (List EName × List EName)
  | [] => some ([], [])
  | e :: rest =>
    if listMax? (g.flanking_nucleotides e) = some d10 ∨
        listMin? (g.flanking_nucleotides e) = some d13 then
      (classifyEdges g d10 d13 d22 d21 rest).map (fun p => (e :: p.1, p.2))
    else if listMax? (g.flanking_nucleotides e) = some d22 ∨
        listMin? (g.flanking_nucleotides e) = some d21 then
      (classifyEdges g d10 d13 d22 d21 rest).map (fun p => (p.1, e :: p.2))
    else none

/-- Source `_split_inside_stem` (lines 118-164). -/
def _split_inside_stem (g : BulgeGraph) (sp : Int) (element : EName) :
    Except SplitError BulgeGraph :=
  if element.1 = 's' then
    match alookup element g.defines with
    | some [a, b, c, d] =>
      if sp = b then .ok g
      else
        let defs? : Option (List Int × List Int) :=
          if sp < b then
            match g.pairing_partner sp, g.pairing_partner (sp + 1) with
            | some p1, some p2 => some ([a, sp, p1, d], [sp + 1, b, c, p2])
            | _, _ => none
          else
            match g.pairing_partner (sp + 1), g.pairing_partner sp with
            | some p1, some p2 => some ([a, p1, sp + 1, d], [p2, b, c, sp])
            | _, _ => none
        match defs? with
        | none => .error .internalError
        | some (define1, define2) =>
          match classifyEdges g (define1.headD 0) (define1.getD 3 0)
              (define2.getD 2 0) (define2.getD 1 0) (g.edgesOf element) with
          | none => .error .assertionError
          | some (edges1, edges2) =>
            let g1 := g.remove_vertex element
            let nextS1 := g1._next_available_element_name 's'
            let g2 : BulgeGraph := { g1 with defines := aupdate nextS1 define1 g1.defines }
            let nextM := g2._next_available_element_name 'm'
            let g3 : BulgeGraph := { g2 with defines := aupdate nextM [] g2.defines }
            let nextS2 := g3._next_available_element_name 's'
            let g4 : BulgeGraph := { g3 with defines := aupdate nextS2 define2 g3.defines }
            let g5 := edges1.foldl (fun h e1 =>
                { h with edges := aupdate e1 (sinsert nextS1 (h.edgesOf e1)) h.edges }) g4
            let g6 := edges2.foldl (fun h e2 =>
                { h with edges := aupdate e2 (sinsert nextS2 (h.edgesOf e2)) h.edges }) g5
            let g7 : BulgeGraph := { g6 with edges := aupdate nextS1 (edges1 ++ [nextM]) g6.edges }
            let g8 : BulgeGraph := { g7 with edges := aupdate nextS2 (edges2 ++ [nextM]) g7.edges }
            .ok { g8 with edges := aupdate nextM [nextS1, nextS2] g8.edges }
    | _ => .error .internalError
  else .error .assertionError

/-- Source `_split_interior_loop_at_side` (lines 185-205).  `strand` and
`other_strand` are the two-entry spans the caller computed; `st0`/`st1` are
`stems[0]`/`stems[1]`. -/
def _split_interior_loop_at_side (g : BulgeGraph) (sp : Int)
    (strand other_strand : Int × Int) (st0 st1 : EName) : BulgeGraph :=
  let nextML := g._next_available_element_name 'm'
  let nextA := g._next_available_element_name 't'
  let nextB := g._next_available_element_name 'f'
  let mlDefine : List Int :=
    if other_strand.1 > other_strand.2 then [] else [other_strand.1, other_strand.2]
  let g1 : BulgeGraph := { g with defines := aupdate nextML mlDefine g.defines }
  let g2 := g1._add_edge nextML st0
  let g3 := g2._add_edge nextML st1
  let g4 := if strand.1 ≤ sp then
      let g4a : BulgeGraph := { g3 with defines := aupdate nextA [strand.1, sp] g3.defines }
      g4a._add_edge nextA st0
    else g3
  if sp < strand.2 then
    let g5 : BulgeGraph := { g4 with defines := aupdate nextB [sp + 1, strand.2] g4.defines }
    g5._add_edge nextB st1
  else g4

/-- The outcome asserted for splitting an interior loop at a cutpoint lying
in the strand `strand` (the other strand being `other_strand`, the 5'/3'
stems of that strand `st0`/`st1`): the strand prefix up to the cutpoint
becomes a fresh `t` element wired to `st0` whenever it is non-empty, the
suffix after the cutpoint becomes a fresh `f` element wired to `st1`
whenever it is non-empty, the other strand becomes a fresh multiloop
segment (own span, or empty define for a zero-length strand) wired to both
stems, and the interior-loop element is removed. -/
def interiorSplitOutcome (g : BulgeGraph) (sp : Int) (strand other_strand : Int × Int)
    (st0 st1 iloop : EName) (g' : BulgeGraph) : Prop :=
  (alookup (g._next_available_element_name 'm') g'.defines =
      some (if other_strand.1 > other_strand.2 then []
        else [other_strand.1, other_strand.2]))
  ∧ st0 ∈ g'.edgesOf (g._next_available_element_name 'm')
  ∧ st1 ∈ g'.edgesOf (g._next_available_element_name 'm')
  ∧ g._next_available_element_name 'm' ∈ g'.edgesOf st0
  ∧ g._next_available_element_name 'm' ∈ g'.edgesOf st1
  ∧ (strand.1 ≤ sp →
      alookup (g._next_available_element_name 't') g'.defines = some [strand.1, sp]
      ∧ st0 ∈ g'.edgesOf (g._next_available_element_name 't')
      ∧ g._next_available_element_name 't' ∈ g'.edgesOf st0)
  ∧ (¬ strand.1 ≤ sp → g._next_available_element_name 't' ∉ g'.keys)
  ∧ (sp < strand.2 →
      alookup (g._next_available_element_name 'f') g'.defines = some [sp + 1, strand.2]
      ∧ st1 ∈ g'.edgesOf (g._next_available_element_name 'f')
      ∧ g._next_available_element_name 'f' ∈ g'.edgesOf st1)
  ∧ (¬ sp < strand.2 → g._next_available_element_name 'f' ∉ g'.keys)
  ∧ iloop ∉ g'.keys

/-- Source `_split_interior_loop` (lines 207-226). -/
def _split_interior_loop (g : BulgeGraph) (sp : Int)
    (element_left element_right : EName) : Except SplitError BulgeGraph :=
  let iloop? := if element_left.1 = 'i' then some element_left
    else if element_right.1 = 'i' then some element_right else none
  match iloop? with
  | none => .error .assertionError
  | some iloop =>
    match g.connections iloop with
    | c0 :: c1 :: _ =>
      match alookup c0 g.defines, alookup c1 g.defines with
      | some [_s1a, s1b, s1c, _s1d], some [s2a, _s2b, _s2c, s2d] =>
        let forward_strand : Int × Int := (s1b + 1, s2a - 1)
        let back_strand : Int × Int := (s2d + 1, s1c - 1)
        if forward_strand.1 - 1 ≤ sp ∧ sp ≤ forward_strand.2 then
          .ok ((g._split_interior_loop_at_side sp forward_strand back_strand c0 c1).remove_vertex iloop)
        else if back_strand.1 - 1 ≤ sp ∧ sp ≤ back_strand.2 then
          .ok ((g._split_interior_loop_at_side sp back_strand forward_strand c1 c0).remove_vertex iloop)
        else .error .assertionError
      | _, _ => .error .internalError
    | _ => .error .internalError

/-- The guard and four-way dispatch of the cutpoint loop (lines 20-40),
applied to the two flanking elements already looked up. -/
def processCutpointBody (g : BulgeGraph) (sp : Int)
    (element_left element_right : EName) : Except SplitError BulgeGraph :=
  if element_left.1 = 'f' ∨ element_left.1 = 't' ∨
      element_right.1 = 'f' ∨ element_right.1 = 't' then
    -- the guard of lines 20-31, with the source's self-contradictory
    -- first condition kept verbatim
    if element_left.1 = 't' ∧ element_left.1 ≠ 't' then .ok g
    else if element_right.1 = 'f' ∧ element_left.1 ≠ 'f' then .ok g
    else .error .guardDisconnected
  else if element_left.1 = 'i' ∨ element_right.1 = 'i' then
    g._split_interior_loop sp element_left element_right
  else if element_left ≠ element_right then
    g._split_between_elements sp element_left element_right
  else if element_left.1 = 's' then
    g._split_inside_stem sp element_left
  else
    g._split_inside_loop sp element_left

/-- The body of the cutpoint loop of `split_at_cofold_cutpoints`
(lines 17-40): look up the flanking elements, then guard and dispatch. -/
def processCutpoint (g : BulgeGraph) (sp : Int) : Except SplitError BulgeGraph :=
  match g.get_node_from_residue_num sp, g.get_node_from_residue_num (sp + 1) with
  | some element_left, some element_right =>
    processCutpointBody g sp element_left element_right
  | _, _ => .error .nodeNotFound


/-- The `for splitpoint in cutpoints` loop. -/
def foldCutpoints (g : BulgeGraph) : List Int → Except SplitError BulgeGraph
  | [] => .ok g
  | sp :: rest =>
    match processCutpoint g sp with
    | .ok g' => foldCutpoints g' rest
    | .error e => .error e

/-- The worklist of `_is_connected` (lines 48-55), fuelled: pop a pending
node, skip it if known, otherwise mark it known and push its neighbours.
The fuel chosen by `_is_connected` is provably never exhausted. -/
def bfsAux (g : BulgeGraph) : Nat → List EName → List EName → List EName
  | 0, known, _ => known
  | _ + 1, known, [] => known
  | fuel + 1, known, n :: rest =>
    if n ∈ known then bfsAux g fuel known rest
    else bfsAux g fuel (n :: known) (g.edgesOf n ++ rest)

/-- Every node that owns an adjacency entry. -/
def univKeysList (g : BulgeGraph) : List EName := (g.edges.map Prod.fst).dedup

/-- Total number of edge-endpoints still reachable from unvisited nodes:
the fuel budget for the worklist. -/
def weightOf (g : BulgeGraph) (known : List EName) : Nat :=
  (((univKeysList g).filter (fun k => k ∉ known)).map
    (fun k => (g.edgesOf k).length)).sum

/-- The traversal-and-comparison part of `_is_connected`, from a given
start node. -/
def connectedFrom (g : BulgeGraph) (start : EName) : Bool :=
  let pending := g.edgesOf start
  let fuel := pending.length + weightOf g [start] + 1
  let known := bfsAux g fuel [start] pending
  known.all (fun x => decide (x ∈ g.keys)) &&
    g.keys.all (fun x => decide (x ∈ known))

/-- Source `_is_connected` (lines 46-57): traverse from the first element of
`defines` and compare the visited set with the full key set.  `none` models
the Python `IndexError` of `list(bg.defines.keys())[0]` on an empty graph. -/
def _is_connected (g : BulgeGraph) : Option Bool :=
  match g.defines with
  | [] => none
  | (start, _) :: _ => some (connectedFrom g start)

/-- One step of element adjacency: `v` lies in the neighbour set of `u`. -/
abbrev adjb (g : BulgeGraph) (u v : EName) : Prop := v ∈ g.edgesOf u

/-- Reachability along `edges`: the reflexive-transitive closure of
one-step adjacency.  This is the mathematical notion the worklist of
`_is_connected` is supposed to compute. -/
abbrev Reach (g : BulgeGraph) : EName → EName → Prop :=
  Relation.ReflTransGen (adjb g)

/-- Source `split_at_cofold_cutpoints` (lines 9-44): process every cutpoint
in order, then run the connectivity check and raise if it fails. -/
def split_at_cofold_cutpoints (g : BulgeGraph) (cutpoints : List Int) :
    Except SplitError BulgeGraph :=
  match foldCutpoints g cutpoints with
  | .error e => .error e
  | .ok g' =>
    match _is_connected g' with
    | none => .error .emptyGraph
    | some true => .ok g'
    | some false => .error .notConnected

end BulgeGraph

open BulgeGraph

/-! ## Concrete example graphs -/

/-- A graph whose cutpoint 5 has a 3' dangling end (`t0`) on its left and a
stem (`s0`) on its right: the split at 5 is already represented. -/
def gLeftT : BulgeGraph :=
  { defines := [(('t', 0), [4, 5]), (('s', 0), [6, 8, 12, 14])]
    edges := [(('t', 0), [(('s' : Char), 0)]), (('s', 0), [(('t' : Char), 0)])]
    seq_length := 14 }

/-- Two stems `s0`, `s1` joined by the interior loop `i0` (forward strand
`[3,4]`, back strand `[12,12]`), with hairpin `h0` closing `s1`. -/
def gILoop : BulgeGraph :=
  { defines := [(('s', 0), [1, 2, 13, 14]), (('i', 0), [3, 4, 12, 12]),
                (('s', 1), [5, 7, 9, 11]), (('h', 0), [8, 8])]
    edges := [(('s', 0), [(('i' : Char), 0)]),
              (('i', 0), [(('s' : Char), 0), (('s' : Char), 1)]),
              (('s', 1), [(('i' : Char), 0), (('h' : Char), 0)]),
              (('h', 0), [(('s' : Char), 1)])]
    seq_length := 14 }

/-- Two stems `s0`, `s1` abutting at positions 3/4 through the zero-length
multiloop connector `m0`, closed by hairpin `h0` and re-joined on the back
side by the interior-loop remnant `i0`. -/
def gTwoStems : BulgeGraph :=
  { defines := [(('s', 0), [1, 3, 12, 14]), (('s', 1), [4, 6, 8, 10]),
                (('h', 0), [7, 7]), (('m', 0), []), (('i', 0), [11, 11])]
    edges := [(('s', 0), [(('m' : Char), 0), (('i' : Char), 0)]),
              (('s', 1), [(('m' : Char), 0), (('h' : Char), 0), (('i' : Char), 0)]),
              (('h', 0), [(('s' : Char), 1)]),
              (('m', 0), [(('s' : Char), 0), (('s' : Char), 1)]),
              (('i', 0), [(('s' : Char), 1), (('s' : Char), 0)])]
    seq_length := 14 }

/-- A single stem `s0` `[1,3,8,10]` closed by the hairpin `h0` `[4,7]`. -/
def gStem : BulgeGraph :=
  { defines := [(('s', 0), [1, 3, 8, 10]), (('h', 0), [4, 7])]
    edges := [(('s', 0), [(('h' : Char), 0)]), (('h', 0), [(('s' : Char), 0)])]
    seq_length := 10 }

namespace BulgeGraph

/-- The symmetry of the `edges` relation (spec §3: `edges` is symmetric). -/
def symmE (g : BulgeGraph) : Prop :=
  ∀ x y : EName, y ∈ g.edgesOf x ↔ x ∈ g.edgesOf y

/-- The data-model invariant of a bulge graph (spec §3: `defines` and
`edges` are dicts keyed by element names, `edges` values are sets of
defined element names, an element is never adjacent to itself): symmetric
edges, duplicate-free dict keys, adjacency entries keyed by defined
elements, every mentioned neighbour defined, no self-adjacency, and
set-like (duplicate-free) neighbour lists. -/
def Invariant (g : BulgeGraph) : Prop :=
  symmE g
  ∧ (akeys g.defines).Nodup
  ∧ (akeys g.edges).Nodup
  ∧ (∀ p ∈ g.edges, p.1 ∈ g.keys)
  ∧ (∀ x y : EName, y ∈ g.edgesOf x → y ∈ g.keys)
  ∧ (∀ x : EName, x ∉ g.edgesOf x)
  ∧ (∀ x : EName, (g.edgesOf x).Nodup)

/-- The decidable per-entry check whose truth implies `Invariant`. -/
def invariantCheck (g : BulgeGraph) : Bool :=
  (akeys g.defines).Nodup
  && (akeys g.edges).Nodup
  && g.edges.all (fun p => decide (p.1 ∈ g.keys))
  && g.edges.all (fun p => p.2.all (fun z => decide (z ∈ g.keys)))
  && g.edges.all (fun p => p.2.all (fun z => decide (p.1 ∈ g.edgesOf z)))
  && g.edges.all (fun p => decide (p.1 ∉ p.2))
  && g.edges.all (fun p => decide (p.2.Nodup))

end BulgeGraph

/-- The graph obtained by splitting `gILoop`'s interior loop at cutpoint 3
(falling back to `gILoop` itself on failure; the split in fact succeeds). -/
def gILoopAfter : BulgeGraph :=
  match gILoop._split_interior_loop 3 ('i', 0) ('i', 0) with
  | .ok gr => gr
  | .error _ => gILoop

/-! ## The sequence layer

The implementation of `forgi.graph.sequence` is not among the sources (only
its test suite is), so this entire section is modelled from the spec (§3
Sequence, §4.5 SequenceIndex), with the behaviour pinned where the tests in
`sequence_test.py` constrain it. -/

/-- Modelled from the spec: a `ResidueId` — chain label, sequence number,
optional insertion code. -/
structure ResId where
  chain : Char
  num : Int
  ins : Option Char
deriving DecidableEq, Repr

/-- Modelled from the spec: a `Sequence` — observed one-letter codes, the
parallel list of ResidueIds, chain-break markers, missing-residue records
(ResidueId and residue name), and the modified-residue overlay. -/
structure Sequence where
  codes : List String
  resids : List ResId
  breaksAfter : List Nat
  missing : List (ResId × String)
  modifications : List (ResId × String)
deriving DecidableEq, Repr

/-- Python's exception kinds relevant here.  In Python both `KeyError` and
`IndexError` are subclasses of `LookupError`. -/
inductive PyErr
  | keyError
  | indexError
deriving DecidableEq, Repr

/-- Both kinds are `LookupError`s in Python's exception hierarchy. -/
def PyErr.isLookupError : PyErr → Bool
  | _ => true

def PyErr.isIndexError : PyErr → Bool
  | .indexError => true
  | .keyError => false

/-- Numeric-then-insertion ordering of ResidueIds within one chain: no
insertion code sorts before any insertion code at the same number. -/
def insLtB : Option Char → Option Char → Bool
  | none, some _ => true
  | some a, some b => a < b
  | _, _ => false

def resLt (x y : ResId) : Bool :=
  x.num < y.num || (x.num = y.num && insLtB x.ins y.ins)

/-- Modelled from the spec: merge the missing-residue records of one chain
into that chain's observed run, by ResidueId order ("interleaving
missing-residue records into the correct numeric gaps"). -/
def mergeChain : List (ResId × String) → List (ResId × String) → List (ResId × String)
  | [], ms => ms
  | o :: obs, ms =>
      ms.takeWhile (fun m => resLt m.1 o.1) ++
        o :: mergeChain obs (ms.dropWhile (fun m => resLt m.1 o.1))

/-- Process the entry list chain-run by chain-run, merging each run with the
missing residues of its chain.  The fuel (list length) makes the recursion
structural; each step consumes at least the head, so the fuel suffices. -/
def chainRunsGo (miss : List (ResId × String)) : Nat → List (ResId × String) →
    List (ResId × String)
  | _, [] => []
  | 0, l => l
  | fuel + 1, e :: rest =>
      mergeChain ((e :: rest).takeWhile (fun x => x.1.chain = e.1.chain))
          (miss.filter (fun m => m.1.chain = e.1.chain))
        ++ chainRunsGo miss fuel ((e :: rest).dropWhile (fun x => x.1.chain = e.1.chain))

/-- The per-entry substitution of the `with_modifications` view: replace the
entry's display code by its recorded substitution when one exists. -/
def modFn (mods : List (ResId × String)) (e : ResId × String) : ResId × String :=
  (e.1, (alookup e.1 mods).getD e.2)

/-- The value overlay of the `with_modifications` view: replace each
entry's display code by its substitution when one is recorded. -/
def applyMods (mods : List (ResId × String)) (entries : List (ResId × String)) :
    List (ResId × String) :=
  entries.map (modFn mods)

/-- Modelled from the spec: a view over a `Sequence` — the addressable
entries plus whether the modification overlay is active. -/
structure SeqView where
  base : Sequence
  entries : List (ResId × String)
  modsActive : Bool
deriving DecidableEq, Repr

/-- The base view: the observed residues only, no overlay. -/
def Sequence.baseView (s : Sequence) : SeqView :=
  ⟨s, s.resids.zip s.codes, false⟩

/-- Modelled from the spec: the `with_modifications` view — overlays the
resid → display-code substitution. -/
def SeqView.with_modifications (v : SeqView) : SeqView :=
  ⟨v.base, applyMods v.base.modifications v.entries, true⟩

/-- Modelled from the spec: the `with_missing` view — reconstructs the full
biologically-numbered sequence by interleaving the missing-residue records
into the numeric gaps of each chain; when the modification overlay is
active it applies to the reconstructed entries as well (the views are
behaviorally commutative, and the overlay is keyed by ResidueId). -/
def SeqView.with_missing (v : SeqView) : SeqView :=
  let e := chainRunsGo v.base.missing v.entries.length v.entries
  ⟨v.base, if v.modsActive then applyMods v.base.modifications e else e, v.modsActive⟩

/-- Modelled from the spec: resid-based indexing.  A resid present in the
view resolves to its code; an absent resid that is a known missing residue
fails with `IndexError` (pinned by
`TestIndexingWithMissing.test_indexing_with_resid_without_missing`, which
asserts `IndexError` for exactly this case); any other absent resid fails
with a `LookupError` (`KeyError`). -/
def SeqView.getRes (v : SeqView) (r : ResId) : Except PyErr String :=
  match alookup r v.entries with
  | some val => .ok val
  | none =>
    if r ∈ v.base.missing.map Prod.fst then .error .indexError
    else .error .keyError

/-- Modelled from the spec: 1-based positive and negative (from-the-end)
integer indexing over the view's entries; any integer outside the valid
closed range fails with `IndexError`. -/
def SeqView.getInt (v : SeqView) (i : Int) : Except PyErr String :=
  if 1 ≤ i ∧ i ≤ v.entries.length then
    match v.entries.get? (i - 1).toNat with
    | some e => .ok e.2
    | none => .error .indexError
  else if -(v.entries.length : Int) ≤ i ∧ i ≤ -1 then
    match v.entries.get? ((v.entries.length : Int) + i).toNat with
    | some e => .ok e.2
    | none => .error .indexError
  else .error .indexError

/-- The 1-based inclusive positions visited by a slice. -/
def slicePositions (step : Int) : Nat → Int → Int → List Int
  | 0, _, _ => []
  | fuel + 1, pos, stop =>
    if (0 < step ∧ pos ≤ stop) ∨ (step < 0 ∧ stop ≤ pos) then
      pos :: slicePositions step fuel (pos + step) stop
    else []

/-- Modelled from the spec: integer slicing with forward or backward step;
a step of zero fails with `IndexError`, and a start index more negative
than the sequence bounds is rejected with `IndexError`. -/
def SeqView.getSlice (v : SeqView) (start stop step : Int) :
    Except PyErr (List String) :=
  if step = 0 then .error .indexError
  else if start < -(v.entries.length : Int) then .error .indexError
  else
    let start' := if start < 0 then (v.entries.length : Int) + start + 1 else start
    let stop' := if stop < 0 then (v.entries.length : Int) + stop + 1 else stop
    .ok ((slicePositions step (v.entries.length + 1) start' stop').filterMap
      (fun p => (v.entries.get? (p - 1).toNat).map Prod.snd))

/-- Source-derived (`NonIndexingTests.test_define_length` together with spec
§4.5): the base-view `define_length` — the sum of `end − start + 1` over
the boundary pairs. -/
def define_length : List Int → Int
  | [] => 0
  | a :: b :: rest => (b - a + 1) + define_length rest
  | [_] => 0

/-- The position of the base-observed residue number `p` inside this view's
entry list (1-based). -/
def SeqView.posOf (v : SeqView) (p : Int) : Int :=
  match v.base.resids.get? (p - 1).toNat with
  | some r => (v.entries.findIdx (fun e => e.1 = r) : Int) + 1
  | none => 0

/-- Modelled from the spec: `define_length` measured through a view — the
span between the view positions of the two boundary residues, so that
through `with_missing` interleaved gap residues are counted as well. -/
def SeqView.define_length (v : SeqView) : List Int → Int
  | [] => 0
  | a :: b :: rest => (v.posOf b - v.posOf a + 1) + v.define_length rest
  | [_] => 0

/-- The sequence `"CA"` at resids `A:14`, `A:16`, with the residue `A:15`
recorded as missing. -/
def sGapSeq : Sequence :=
  { codes := ["C", "A"]
    resids := [⟨'A', 14, none⟩, ⟨'A', 16, none⟩]
    breaksAfter := []
    missing := [(⟨'A', 15, none⟩, "G")]
    modifications := [] }

/-! ## Lemmas about the dictionary model -/

section AssocLemmas

variable {κ : Type} [DecidableEq κ] {α : Type}

theorem alookup_aupdate (k k' : κ) (v : α) (l : List (κ × α)) :
    alookup k (aupdate k' v l) = if k' = k then some v else alookup k l := by
  induction l with
  | nil => simp [aupdate]
  | cons p rest ih =>
    obtain ⟨a, b⟩ := p
    by_cases hak : a = k'
    · subst hak
      by_cases h : a = k <;> simp [aupdate, h]
    · by_cases h : a = k
      · subst h
        simp only [aupdate, if_neg hak, alookup_cons, if_pos rfl]
        have : ¬ (k' = a) := fun hc => hak hc.symm
        simp [this]
      · simp [aupdate, hak, h, ih]

theorem alookup_aerase_ne (k k' : κ) (l : List (κ × α)) (h : k' ≠ k) :
    alookup k (aerase k' l) = alookup k l := by
  induction l with
  | nil => simp [aerase]
  | cons p rest ih =>
    obtain ⟨a, b⟩ := p
    by_cases hak : a = k'
    · subst hak
      have hne : ¬ (a = k) := fun hc => h hc
      simp [aerase, hne]
    · simp only [aerase, if_neg hak, alookup_cons]
      by_cases hK : a = k
      · simp [hK]
      · simp [hK, ih]

theorem mem_akeys_iff (k : κ) (l : List (κ × α)) :
    k ∈ akeys l ↔ ∃ v, (k, v) ∈ l := by
  induction l with
  | nil => simp [akeys]
  | cons p rest ih =>
    obtain ⟨a, b⟩ := p
    simp only [akeys, List.map_cons, List.mem_cons] at *
    constructor
    · rintro (h | h)
      · exact ⟨b, Or.inl (by simp [h.symm])⟩
      · obtain ⟨v, hv⟩ := ih.1 h
        exact ⟨v, Or.inr hv⟩
    · rintro ⟨v, (hv | hv)⟩
      · left; exact congrArg Prod.fst hv
      · right; exact ih.2 ⟨v, hv⟩

theorem alookup_eq_none_iff (k : κ) (l : List (κ × α)) :
    alookup k l = none ↔ k ∉ akeys l := by
  induction l with
  | nil => simp [akeys]
  | cons p rest ih =>
    obtain ⟨a, b⟩ := p
    by_cases h : a = k
    · subst h
      simp [akeys]
    · simp only [alookup_cons, if_neg h, akeys, List.map_cons, List.mem_cons]
      rw [show (List.map Prod.fst rest : List κ) = akeys rest from rfl, ih]
      constructor
      · intro hk hc
        rcases hc with rfl | hm
        · exact h rfl
        · exact hk hm
      · intro hk hm
        exact hk (Or.inr hm)

theorem alookup_isSome_iff (k : κ) (l : List (κ × α)) :
    (alookup k l).isSome ↔ k ∈ akeys l := by
  rcases h : alookup k l with _ | v
  · simpa [h] using (alookup_eq_none_iff k l).1 h
  · simp only [Option.isSome_some, true_iff]
    by_contra hc
    rw [(alookup_eq_none_iff k l).2 hc] at h
    cases h

theorem akeys_aupdate (k : κ) (v : α) (l : List (κ × α)) (x : κ) :
    x ∈ akeys (aupdate k v l) ↔ x ∈ akeys l ∨ x = k := by
  induction l with
  | nil => simp [aupdate, akeys]
  | cons p rest ih =>
    obtain ⟨a, b⟩ := p
    by_cases h : a = k
    · subst h
      simp [aupdate, akeys]
      tauto
    · simp [aupdate, h, akeys] at *
      tauto

theorem akeys_aerase (k : κ) (l : List (κ × α)) (hnd : (akeys l).Nodup) (x : κ) :
    x ∈ akeys (aerase k l) ↔ x ∈ akeys l ∧ x ≠ k := by
  induction l with
  | nil => simp [aerase, akeys]
  | cons p rest ih =>
    obtain ⟨a, b⟩ := p
    simp only [akeys, List.map_cons, List.nodup_cons] at hnd
    by_cases h : a = k
    · subst h
      simp only [aerase, if_pos rfl, akeys, List.map_cons, List.mem_cons]
      constructor
      · intro hx
        refine ⟨Or.inr hx, ?_⟩
        rintro rfl
        exact hnd.1 hx
      · rintro ⟨(rfl | hx), hne⟩
        · exact (hne rfl).elim
        · exact hx
    · simp only [aerase, if_neg h, akeys, List.map_cons, List.mem_cons]
      rw [show (List.map Prod.fst (aerase k rest) : List κ) = akeys (aerase k rest) from rfl,
        ih hnd.2]
      constructor
      · rintro (rfl | ⟨hx, hne⟩)
        · exact ⟨Or.inl rfl, h⟩
        · exact ⟨Or.inr hx, hne⟩
      · rintro ⟨(rfl | hx), hne⟩
        · exact Or.inl rfl
        · exact Or.inr ⟨hx, hne⟩

theorem alookup_aerase_self (k : κ) (l : List (κ × α)) (hnd : (akeys l).Nodup) :
    alookup k (aerase k l) = none := by
  rw [alookup_eq_none_iff]
  intro hc
  exact ((akeys_aerase k l hnd k).1 hc).2 rfl

theorem akeys_nodup_aupdate (k : κ) (v : α) (l : List (κ × α))
    (hnd : (akeys l).Nodup) : (akeys (aupdate k v l)).Nodup := by
  induction l with
  | nil => simp [aupdate, akeys]
  | cons p rest ih =>
    obtain ⟨a, b⟩ := p
    simp only [akeys, List.map_cons, List.nodup_cons] at hnd
    by_cases h : a = k
    · subst h
      simpa [aupdate, akeys] using hnd
    · simp only [aupdate, if_neg h, akeys, List.map_cons, List.nodup_cons]
      refine ⟨?_, ih hnd.2⟩
      intro hc
      rw [show (List.map Prod.fst (aupdate k v rest) : List κ) = akeys (aupdate k v rest)
        from rfl, akeys_aupdate] at hc
      rcases hc with hc | hc
      · exact hnd.1 hc
      · exact h hc

theorem akeys_nodup_aerase (k : κ) (l : List (κ × α))
    (hnd : (akeys l).Nodup) : (akeys (aerase k l)).Nodup := by
  induction l with
  | nil => simp [aerase, akeys]
  | cons p rest ih =>
    obtain ⟨a, b⟩ := p
    simp only [akeys, List.map_cons, List.nodup_cons] at hnd
    by_cases h : a = k
    · subst h
      simp only [aerase, if_pos rfl]
      exact hnd.2
    · simp only [aerase, if_neg h, akeys, List.map_cons, List.nodup_cons]
      refine ⟨?_, ih hnd.2⟩
      intro hc
      rw [show (List.map Prod.fst (aerase k rest) : List κ) = akeys (aerase k rest)
        from rfl, akeys_aerase k rest hnd.2] at hc
      exact hnd.1 hc.1

theorem alookup_mapval (k : κ) (f : κ → α → α) (l : List (κ × α)) :
    alookup k (l.map (fun p => (p.1, f p.1 p.2))) = (alookup k l).map (f k) := by
  induction l with
  | nil => simp
  | cons p rest ih =>
    obtain ⟨a, b⟩ := p
    by_cases h : a = k
    · subst h; simp
    · simp [h, ih]

theorem akeys_mapval (f : κ → α → α) (l : List (κ × α)) :
    akeys (l.map (fun p => (p.1, f p.1 p.2))) = akeys l := by
  induction l with
  | nil => rfl
  | cons p rest ih =>
    obtain ⟨a, b⟩ := p
    simp only [akeys, List.map_cons]
    exact congrArg (List.cons a) ih

end AssocLemmas

namespace BulgeGraph

theorem processCutpoint_nodes {g : BulgeGraph} {sp : Int} {l r : EName}
    (hl : g.get_node_from_residue_num sp = some l)
    (hr : g.get_node_from_residue_num (sp + 1) = some r) :
    processCutpoint g sp = processCutpointBody g sp l r := by
  unfold processCutpoint
  rw [hl, hr]

end BulgeGraph

/-! ## Characterization lemmas for the graph primitives -/

section AssocAppend

variable {κ : Type} [DecidableEq κ] {α : Type}

theorem alookup_append (k : κ) (l1 l2 : List (κ × α)) :
    alookup k (l1 ++ l2) =
      match alookup k l1 with
      | some v => some v
      | none => alookup k l2 := by
  induction l1 with
  | nil => simp
  | cons p rest ih =>
    obtain ⟨a, b⟩ := p
    by_cases h : a = k
    · simp [h]
    · simp [h, ih]

end AssocAppend

namespace BulgeGraph

theorem mem_sinsert (y x : EName) (l : List EName) :
    y ∈ sinsert x l ↔ y = x ∨ y ∈ l := by
  unfold sinsert
  by_cases h : x ∈ l
  · simp only [if_pos h]
    constructor
    · exact Or.inr
    · rintro (rfl | hy)
      · exact h
      · exact hy
  · simp [if_neg h]

theorem mem_serase (y x : EName) (l : List EName) :
    y ∈ serase x l ↔ y ∈ l ∧ y ≠ x := by
  simp [serase, List.mem_filter]

theorem name_tag (g : BulgeGraph) (t : Char) :
    (g._next_available_element_name t).1 = t := rfl

theorem filter_length_mono {α : Type} (p q : α → Bool) (l : List α)
    (hpq : ∀ x, q x = true → p x = true) :
    (l.filter q).length ≤ (l.filter p).length := by
  induction l with
  | nil => simp
  | cons a rest ih =>
    by_cases hq : q a = true
    · have hp := hpq a hq
      have h1 : (a :: rest).filter q = a :: rest.filter q := by
        simp [List.filter_cons, hq]
      have h2 : (a :: rest).filter p = a :: rest.filter p := by
        simp [List.filter_cons, hp]
      rw [h1, h2, List.length_cons, List.length_cons]
      omega
    · have hqf : q a = false := by simpa using hq
      have h1 : (a :: rest).filter q = rest.filter q := by
        simp [List.filter_cons, hqf]
      by_cases hp : p a = true
      · have h2 : (a :: rest).filter p = a :: rest.filter p := by
          simp [List.filter_cons, hp]
        rw [h1, h2, List.length_cons]
        omega
      · have hpf : p a = false := by simpa using hp
        have h2 : (a :: rest).filter p = rest.filter p := by
          simp [List.filter_cons, hpf]
        rw [h1, h2]
        exact ih

theorem filter_length_strict {α : Type} (p q : α → Bool) (l : List α)
    (hpq : ∀ x, q x = true → p x = true) (x0 : α) (hx0 : x0 ∈ l)
    (hp0 : p x0 = true) (hq0 : q x0 = false) :
    (l.filter q).length < (l.filter p).length := by
  induction l with
  | nil => cases hx0
  | cons a rest ih =>
    rcases List.mem_cons.1 hx0 with rfl | hx0'
    · have hmono := filter_length_mono p q rest hpq
      have h1 : (x0 :: rest).filter q = rest.filter q := by
        simp [List.filter_cons, hq0]
      have h2 : (x0 :: rest).filter p = x0 :: rest.filter p := by
        simp [List.filter_cons, hp0]
      rw [h1, h2, List.length_cons]
      omega
    · by_cases hq : q a = true
      · have hp := hpq a hq
        have h1 : (a :: rest).filter q = a :: rest.filter q := by
          simp [List.filter_cons, hq]
        have h2 : (a :: rest).filter p = a :: rest.filter p := by
          simp [List.filter_cons, hp]
        have := ih hx0'
        rw [h1, h2, List.length_cons, List.length_cons]
        omega
      · have hqf : q a = false := by simpa using hq
        have h1 : (a :: rest).filter q = rest.filter q := by
          simp [List.filter_cons, hqf]
        by_cases hp : p a = true
        · have h2 : (a :: rest).filter p = a :: rest.filter p := by
            simp [List.filter_cons, hp]
          have := ih hx0'
          rw [h1, h2, List.length_cons]
          omega
        · have hpf : p a = false := by simpa using hp
          have h2 : (a :: rest).filter p = rest.filter p := by
            simp [List.filter_cons, hpf]
          rw [h1, h2]
          exact ih hx0'

theorem nextIndexFrom_spec (g : BulgeGraph) (t : Char) :
    ∀ (fuel i : Nat),
      (g.keys.filter (fun p => p.1 = t ∧ i ≤ p.2)).length < fuel →
      i ≤ nextIndexFrom g t fuel i
      ∧ (t, nextIndexFrom g t fuel i) ∉ g.keys
      ∧ ∀ j, i ≤ j → j < nextIndexFrom g t fuel i → (t, j) ∈ g.keys := by
  intro fuel
  induction fuel with
  | zero => intro i h; omega
  | succ fuel ih =>
    intro i hlen
    by_cases hmem : (t, i) ∈ g.keys
    · have hdec : (g.keys.filter (fun p => p.1 = t ∧ i + 1 ≤ p.2)).length <
          (g.keys.filter (fun p => p.1 = t ∧ i ≤ p.2)).length := by
        apply filter_length_strict _ _ _ ?_ (t, i) hmem ?_ ?_
        · intro x hx
          rw [decide_eq_true_eq] at hx
          rw [decide_eq_true_eq]
          exact ⟨hx.1, by omega⟩
        · simp
        · simp
      have ih' := ih (i + 1) (by omega)
      rw [show nextIndexFrom g t (fuel + 1) i = nextIndexFrom g t fuel (i + 1) from by
        simp [nextIndexFrom, hmem]]
      refine ⟨by omega, ih'.2.1, ?_⟩
      intro j hij hjlt
      rcases Nat.eq_or_lt_of_le hij with rfl | hij'
      · exact hmem
      · exact ih'.2.2 j hij' hjlt
    · rw [show nextIndexFrom g t (fuel + 1) i = i from by simp [nextIndexFrom, hmem]]
      exact ⟨le_refl i, hmem, fun j hij hji => absurd (lt_of_le_of_lt hij hji)
        (lt_irrefl i)⟩

theorem fresh_not_mem (g : BulgeGraph) (t : Char) :
    g._next_available_element_name t ∉ g.keys := by
  have h := nextIndexFrom_spec g t (g.keys.length + 1) 0
    (by have := List.length_filter_le (fun p : EName => decide (p.1 = t ∧ 0 ≤ p.2)) g.keys; omega)
  exact h.2.1

theorem fresh_minimal (g : BulgeGraph) (t : Char) :
    ∀ j < (g._next_available_element_name t).2, (t, j) ∈ g.keys := by
  have h := nextIndexFrom_spec g t (g.keys.length + 1) 0
    (by have := List.length_filter_le (fun p : EName => decide (p.1 = t ∧ 0 ≤ p.2)) g.keys; omega)
  intro j hj
  exact h.2.2 j (Nat.zero_le j) hj

theorem edgesOf_def (g : BulgeGraph) (y : EName) :
    g.edgesOf y = (alookup y g.edges).getD [] := rfl

theorem edgesOf_aupdate (g : BulgeGraph) (x : EName) (s : List EName) (y : EName) :
    edgesOf { g with edges := aupdate x s g.edges } y =
      if x = y then s else g.edgesOf y := by
  simp only [edgesOf_def, alookup_aupdate]
  by_cases h : x = y <;> simp [h]

theorem defines_add_edge (g : BulgeGraph) (a b : EName) :
    (g._add_edge a b).defines = g.defines := rfl

theorem edgesOf_add_edge (g : BulgeGraph) (a b : EName) (hab : a ≠ b) (x : EName) :
    (g._add_edge a b).edgesOf x =
      if x = a then sinsert b (g.edgesOf a)
      else if x = b then sinsert a (g.edgesOf b)
      else g.edgesOf x := by
  unfold _add_edge
  simp only [edgesOf_def, alookup_aupdate]
  by_cases hxa : x = a <;> by_cases hxb : x = b
  · exact absurd (hxa.symm.trans hxb) hab
  · subst hxa
    simp [Ne.symm hab, hab]
  · subst hxb
    simp [Ne.symm hab, hab]
  · have h1 : ¬ (a = x) := fun hc => hxa hc.symm
    have h2 : ¬ (b = x) := fun hc => hxb hc.symm
    simp [h1, h2, hxa, hxb]

theorem defines_remove_vertex (g : BulgeGraph) (v : EName) :
    (g.remove_vertex v).defines = aerase v g.defines := rfl

theorem alookup_defines_remove_vertex_ne (g : BulgeGraph) (v x : EName) (h : v ≠ x) :
    alookup x (g.remove_vertex v).defines = alookup x g.defines :=
  alookup_aerase_ne x v g.defines h

theorem edgesOf_remove_vertex (g : BulgeGraph) (v : EName)
    (hnd : (akeys g.edges).Nodup) (x : EName) :
    (g.remove_vertex v).edgesOf x =
      if x = v then [] else serase v (g.edgesOf x) := by
  unfold remove_vertex edgesOf
  simp only
  rw [alookup_mapval x (fun _ s => serase v s) (aerase v g.edges)]
  by_cases h : x = v
  · subst h
    rw [alookup_aerase_self x g.edges hnd]
    simp
  · rw [alookup_aerase_ne x v g.edges (fun hc => h hc.symm)]
    rcases halt : alookup x g.edges with _ | s
    · simp [serase, h]
    · simp [h]

theorem edgesOf_remove_vertex_ne (g : BulgeGraph) (v x : EName)
    (h : x ≠ v) :
    (g.remove_vertex v).edgesOf x = serase v (g.edgesOf x) := by
  unfold remove_vertex edgesOf
  simp only
  rw [alookup_mapval x (fun _ s => serase v s) (aerase v g.edges)]
  rw [alookup_aerase_ne x v g.edges (fun hc => h hc.symm)]
  rcases halt : alookup x g.edges with _ | s
  · simp [serase]
  · simp

theorem mem_keys_remove_vertex (g : BulgeGraph) (v x : EName)
    (hnd : (akeys g.defines).Nodup) :
    x ∈ (g.remove_vertex v).keys ↔ x ∈ g.keys ∧ x ≠ v :=
  akeys_aerase v g.defines hnd x

theorem alookup_mem {κ : Type} [DecidableEq κ] {α : Type}
    (k : κ) (v : α) (l : List (κ × α)) (h : alookup k l = some v) : (k, v) ∈ l := by
  induction l with
  | nil => cases h
  | cons p rest ih =>
    obtain ⟨a, b⟩ := p
    by_cases hak : a = k
    · subst hak
      rw [alookup_cons, if_pos rfl] at h
      cases h
      exact List.mem_cons_self _ _
    · rw [alookup_cons, if_neg hak] at h
      exact List.mem_cons_of_mem _ (ih h)

/-- Closedness of `edges` (every mentioned neighbour is a defined element)
follows from the decidable check over the concrete association list. -/
theorem closed_of_check (g : BulgeGraph)
    (h : g.edges.all (fun p => p.2.all (fun y => decide (y ∈ g.keys))) = true) :
    ∀ x y, y ∈ g.edgesOf x → y ∈ g.keys := by
  intro x y hy
  unfold edgesOf at hy
  rcases halt : alookup x g.edges with _ | s
  · rw [halt] at hy
    cases hy
  · rw [halt] at hy
    simp only [Option.getD_some] at hy
    have hmem : (x, s) ∈ g.edges := alookup_mem x s g.edges halt
    rw [List.all_eq_true] at h
    have h2 := h _ hmem
    rw [List.all_eq_true] at h2
    have := h2 y hy
    rwa [decide_eq_true_eq] at this

theorem edgesOf_set_defines (g : BulgeGraph) (D : List (EName × List Int)) (y : EName) :
    edgesOf { g with defines := D } y = g.edgesOf y := rfl

theorem akeys_append {κ : Type} [DecidableEq κ] {α : Type} (l1 l2 : List (κ × α)) :
    akeys (l1 ++ l2) = akeys l1 ++ akeys l2 :=
  List.map_append _ _ _

theorem akeys_aerase_subset {κ : Type} [DecidableEq κ] {α : Type}
    (k : κ) (l : List (κ × α)) (x : κ) (h : x ∈ akeys (aerase k l)) :
    x ∈ akeys l := by
  induction l with
  | nil => simpa [aerase, akeys] using h
  | cons p rest ih =>
    obtain ⟨a, b⟩ := p
    by_cases hak : a = k
    · subst hak
      have hh : aerase a ((a, b) :: rest) = rest := by simp [aerase]
      rw [hh] at h
      simp only [akeys, List.map_cons, List.mem_cons]
      exact Or.inr h
    · simp only [aerase, if_neg hak, akeys, List.map_cons, List.mem_cons] at h ⊢
      rcases h with rfl | h'
      · exact Or.inl rfl
      · exact Or.inr (ih h')

theorem relabel_defines (g : BulgeGraph) (old new : EName) (d : List Int)
    (hold : alookup old g.defines = some d) :
    (g.relabel_node old new).defines = aerase old g.defines ++ [(new, d)] := by
  unfold relabel_node
  rw [hold]

theorem relabel_moves_define (g : BulgeGraph) (old new : EName) (d : List Int)
    (hold : alookup old g.defines = some d) (hnew : new ∉ g.keys) :
    alookup new (g.relabel_node old new).defines = some d := by
  rw [relabel_defines g old new d hold, alookup_append]
  have hnone : alookup new (aerase old g.defines) = none := by
    rw [alookup_eq_none_iff]
    intro hc
    exact hnew (akeys_aerase_subset old g.defines new hc)
  rw [hnone]
  simp

theorem relabel_removes_old (g : BulgeGraph) (old new : EName) (d : List Int)
    (hold : alookup old g.defines = some d) (hnew : new ∉ g.keys)
    (hnd : (akeys g.defines).Nodup) :
    old ∉ (g.relabel_node old new).keys := by
  intro hc
  rw [show (g.relabel_node old new).keys = akeys (g.relabel_node old new).defines
    from rfl, relabel_defines g old new d hold, akeys_append] at hc
  rcases List.mem_append.1 hc with h | h
  · exact ((akeys_aerase old g.defines hnd old).1 h).2 rfl
  · have hmem : old ∈ g.keys :=
      (alookup_isSome_iff old g.defines).1 (by rw [hold]; rfl)
    have : old = new := by simpa [akeys] using h
    subst this
    exact hnew hmem

theorem at_side_defines (g : BulgeGraph) (sp : Int) (strand other : Int × Int)
    (st0 st1 : EName) :
    (g._split_interior_loop_at_side sp strand other st0 st1).defines =
      (let d1 := aupdate (g._next_available_element_name 'm')
          (if other.1 > other.2 then [] else [other.1, other.2]) g.defines
       let d2 := if strand.1 ≤ sp then
          aupdate (g._next_available_element_name 't') [strand.1, sp] d1 else d1
       if sp < strand.2 then
          aupdate (g._next_available_element_name 'f') [sp + 1, strand.2] d2 else d2) := by
  unfold _split_interior_loop_at_side
  by_cases h1 : strand.1 ≤ sp <;> by_cases h2 : sp < strand.2 <;>
    simp [h1, h2, defines_add_edge]

theorem at_side_edges_mem (g : BulgeGraph) (sp : Int) (strand other : Int × Int)
    (st0 st1 : EName) (hst0 : st0.1 = 's') (hst1 : st1.1 = 's')
    (hst01 : st0 ≠ st1) (x y : EName) :
    (y ∈ (g._split_interior_loop_at_side sp strand other st0 st1).edgesOf x ↔
      y ∈ g.edgesOf x
      ∨ (x = g._next_available_element_name 'm' ∧ (y = st0 ∨ y = st1))
      ∨ ((x = st0 ∨ x = st1) ∧ y = g._next_available_element_name 'm')
      ∨ (strand.1 ≤ sp ∧
          ((x = g._next_available_element_name 't' ∧ y = st0)
            ∨ (x = st0 ∧ y = g._next_available_element_name 't')))
      ∨ (sp < strand.2 ∧
          ((x = g._next_available_element_name 'f' ∧ y = st1)
            ∨ (x = st1 ∧ y = g._next_available_element_name 'f')))) := by
  have hmt : g._next_available_element_name 'm' ≠ g._next_available_element_name 't' := by
    intro hc
    have := congrArg Prod.fst hc
    simp [name_tag] at this
  have hmf : g._next_available_element_name 'm' ≠ g._next_available_element_name 'f' := by
    intro hc
    have := congrArg Prod.fst hc
    simp [name_tag] at this
  have htf : g._next_available_element_name 't' ≠ g._next_available_element_name 'f' := by
    intro hc
    have := congrArg Prod.fst hc
    simp [name_tag] at this
  have hms0 : g._next_available_element_name 'm' ≠ st0 := by
    intro hc
    have := congrArg Prod.fst hc
    rw [name_tag, hst0] at this
    cases this
  have hms1 : g._next_available_element_name 'm' ≠ st1 := by
    intro hc
    have := congrArg Prod.fst hc
    rw [name_tag, hst1] at this
    cases this
  have hts0 : g._next_available_element_name 't' ≠ st0 := by
    intro hc
    have := congrArg Prod.fst hc
    rw [name_tag, hst0] at this
    cases this
  have hts1 : g._next_available_element_name 't' ≠ st1 := by
    intro hc
    have := congrArg Prod.fst hc
    rw [name_tag, hst1] at this
    cases this
  have hfs0 : g._next_available_element_name 'f' ≠ st0 := by
    intro hc
    have := congrArg Prod.fst hc
    rw [name_tag, hst0] at this
    cases this
  have hfs1 : g._next_available_element_name 'f' ≠ st1 := by
    intro hc
    have := congrArg Prod.fst hc
    rw [name_tag, hst1] at this
    cases this
  unfold _split_interior_loop_at_side
  by_cases h1 : strand.1 ≤ sp <;> by_cases h2 : sp < strand.2 <;>
    simp only [h1, h2, ite_true, ite_false, if_true, if_false] <;>
    simp only [edgesOf_set_defines, edgesOf_add_edge _ _ _ hmt, edgesOf_add_edge _ _ _ hmf,
      edgesOf_add_edge _ _ _ hms0, edgesOf_add_edge _ _ _ hms1,
      edgesOf_add_edge _ _ _ hts0, edgesOf_add_edge _ _ _ hts1,
      edgesOf_add_edge _ _ _ hfs0, edgesOf_add_edge _ _ _ hfs1] <;>
    split_ifs <;>
    simp_all [mem_sinsert] <;>
    tauto

theorem sinsert_idem (x : EName) (l : List EName) :
    sinsert x (sinsert x l) = sinsert x l := by
  unfold sinsert
  by_cases h : x ∈ l
  · simp [h]
  · simp [h]

theorem defines_foldl_addone (g0 : BulgeGraph) (target : EName) (L : List EName) :
    (L.foldl (fun h e =>
      { h with edges := aupdate e (sinsert target (h.edgesOf e)) h.edges }) g0).defines
    = g0.defines := by
  induction L generalizing g0 with
  | nil => rfl
  | cons e L' ih => exact ih _

theorem edgesOf_foldl_addone (g0 : BulgeGraph) (target : EName) (L : List EName)
    (x : EName) :
    (L.foldl (fun h e =>
      { h with edges := aupdate e (sinsert target (h.edgesOf e)) h.edges }) g0).edgesOf x
    = if x ∈ L then sinsert target (g0.edgesOf x) else g0.edgesOf x := by
  induction L generalizing g0 with
  | nil => simp
  | cons e L' ih =>
    rw [List.foldl_cons, ih]
    have hstep : ∀ y, edgesOf { g0 with
        edges := aupdate e (sinsert target (g0.edgesOf e)) g0.edges } y =
        if e = y then sinsert target (g0.edgesOf e) else g0.edgesOf y :=
      fun y => edgesOf_aupdate g0 e _ y
    by_cases hxl : x ∈ L'
    · rw [if_pos hxl, if_pos (List.mem_cons_of_mem _ hxl), hstep]
      by_cases hex : e = x
      · subst hex
        rw [if_pos rfl, sinsert_idem]
      · rw [if_neg hex]
    · rw [if_neg hxl, hstep]
      by_cases hex : e = x
      · subst hex
        rw [if_pos rfl, if_pos (List.mem_cons_self _ _)]
      · rw [if_neg hex, if_neg (by
          intro hc
          rcases List.mem_cons.1 hc with rfl | hc'
          · exact hex rfl
          · exact hxl hc')]

theorem classifyEdges_eq_filters (g : BulgeGraph) (A D C B : Int) (L : List EName)
    (hcov : ∀ e ∈ L,
      (listMax? (g.flanking_nucleotides e) = some A ∨
        listMin? (g.flanking_nucleotides e) = some D)
      ∨ (listMax? (g.flanking_nucleotides e) = some C ∨
        listMin? (g.flanking_nucleotides e) = some B)) :
    classifyEdges g A D C B L = some
      (L.filter (fun e => decide (listMax? (g.flanking_nucleotides e) = some A ∨
          listMin? (g.flanking_nucleotides e) = some D)),
       L.filter (fun e => decide (¬ (listMax? (g.flanking_nucleotides e) = some A ∨
          listMin? (g.flanking_nucleotides e) = some D)
        ∧ (listMax? (g.flanking_nucleotides e) = some C ∨
          listMin? (g.flanking_nucleotides e) = some B)))) := by
  induction L with
  | nil => rfl
  | cons e L' ih =>
    have hcov' : ∀ x ∈ L', _ := fun x hx => hcov x (List.mem_cons_of_mem _ hx)
    have ihe := ih hcov'
    by_cases h1 : listMax? (g.flanking_nucleotides e) = some A ∨
        listMin? (g.flanking_nucleotides e) = some D
    · rw [show classifyEdges g A D C B (e :: L') =
          (classifyEdges g A D C B L').map (fun p => (e :: p.1, p.2)) from by
        unfold classifyEdges
        rw [if_pos h1]
        congr 1
        cases L' with
        | nil => rfl
        | cons f rest => rfl]
      rw [ihe]
      rw [List.filter_cons, List.filter_cons]
      simp [h1]
    · rcases hcov e (List.mem_cons_self _ _) with hc | hc
      · exact absurd hc h1
      · rw [show classifyEdges g A D C B (e :: L') =
            (classifyEdges g A D C B L').map (fun p => (p.1, e :: p.2)) from by
          unfold classifyEdges
          rw [if_neg h1, if_pos hc]
          congr 1
          cases L' with
          | nil => rfl
          | cons f rest => rfl]
        rw [ihe]
        rw [List.filter_cons, List.filter_cons]
        simp [h1, hc]

/-- Core characterization of `_split_inside_stem` on a stem `[a,b,c,d]`,
with the two recomputed defines supplied abstractly. -/
theorem inside_stem_outcome (g : BulgeGraph) (sp : Int) (element : EName)
    (a b c d : Int) (define1 define2 : List Int)
    (heltag : element.1 = 's')
    (hdef : alookup element g.defines = some [a, b, c, d])
    (hspb : ¬ sp = b)
    (hdefs : (if sp < b then
        match g.pairing_partner sp, g.pairing_partner (sp + 1) with
        | some p1, some p2 => some ([a, sp, p1, d], [sp + 1, b, c, p2])
        | _, _ => none
      else
        match g.pairing_partner (sp + 1), g.pairing_partner sp with
        | some p1, some p2 => some ([a, p1, sp + 1, d], [p2, b, c, sp])
        | _, _ => none) = some (define1, define2))
    (hd10 : define1.headD 0 = a) (hd13 : define1.getD 3 0 = d)
    (hd22 : define2.getD 2 0 = c) (hd21 : define2.getD 1 0 = b)
    (hcov : ∀ e ∈ g.edgesOf element,
      (listMax? (g.flanking_nucleotides e) = some a ∨
        listMin? (g.flanking_nucleotides e) = some d)
      ∨ (listMax? (g.flanking_nucleotides e) = some c ∨
        listMin? (g.flanking_nucleotides e) = some b))
    (hndd : (akeys g.defines).Nodup)
    (hclosed : ∀ x y, y ∈ g.edgesOf x → y ∈ g.keys)
    (hnoself : element ∉ g.edgesOf element) :
    ∃ g' nS1 nM nS2,
      g._split_inside_stem sp element = .ok g'
      ∧ nS1.1 = 's' ∧ nM.1 = 'm' ∧ nS2.1 = 's'
      ∧ nS1 ≠ nS2 ∧ nS1 ≠ nM ∧ nS2 ≠ nM
      ∧ alookup nS1 g'.defines = some define1
      ∧ alookup nS2 g'.defines = some define2
      ∧ alookup nM g'.defines = some []
      ∧ g'.edgesOf nM = [nS1, nS2]
      ∧ (∀ x, x ∈ g'.keys ↔ (x ∈ g.keys ∧ x ≠ element) ∨ x = nS1 ∨ x = nM ∨ x = nS2)
      ∧ (∀ e ∈ g.edgesOf element,
          ((listMax? (g.flanking_nucleotides e) = some a ∨
              listMin? (g.flanking_nucleotides e) = some d) →
            nS1 ∈ g'.edgesOf e ∧ nS2 ∉ g'.edgesOf e)
          ∧ (¬ (listMax? (g.flanking_nucleotides e) = some a ∨
              listMin? (g.flanking_nucleotides e) = some d) →
            nS2 ∈ g'.edgesOf e ∧ nS1 ∉ g'.edgesOf e)) := by
  have tag_ne : ∀ x y : EName, x.1 ≠ y.1 → x ≠ y := by
    intro x y hxy hc
    exact hxy (congrArg Prod.fst hc)
  -- the intermediate graphs of the mutation chain
  set g1 := g.remove_vertex element with hg1
  set nS1 := g1._next_available_element_name 's' with hnS1
  set g2 : BulgeGraph := { g1 with defines := aupdate nS1 define1 g1.defines } with hg2
  set nM := g2._next_available_element_name 'm' with hnM
  set g3 : BulgeGraph := { g2 with defines := aupdate nM [] g2.defines } with hg3
  set nS2 := g3._next_available_element_name 's' with hnS2
  set g4 : BulgeGraph := { g3 with defines := aupdate nS2 define2 g3.defines } with hg4
  set edges1 := (g.edgesOf element).filter
    (fun e => decide (listMax? (g.flanking_nucleotides e) = some a ∨
      listMin? (g.flanking_nucleotides e) = some d)) with hedges1
  set edges2 := (g.edgesOf element).filter
    (fun e => decide (¬ (listMax? (g.flanking_nucleotides e) = some a ∨
        listMin? (g.flanking_nucleotides e) = some d)
      ∧ (listMax? (g.flanking_nucleotides e) = some c ∨
        listMin? (g.flanking_nucleotides e) = some b))) with hedges2
  set g5 := edges1.foldl (fun h e1 =>
    { h with edges := aupdate e1 (sinsert nS1 (h.edgesOf e1)) h.edges }) g4 with hg5
  set g6 := edges2.foldl (fun h e2 =>
    { h with edges := aupdate e2 (sinsert nS2 (h.edgesOf e2)) h.edges }) g5 with hg6
  set g7 : BulgeGraph := { g6 with edges := aupdate nS1 (edges1 ++ [nM]) g6.edges } with hg7
  set g8 : BulgeGraph := { g7 with edges := aupdate nS2 (edges2 ++ [nM]) g7.edges } with hg8
  set g9 : BulgeGraph := { g8 with edges := aupdate nM [nS1, nS2] g8.edges } with hg9
  -- tags and distinctness
  have htag1 : nS1.1 = 's' := name_tag g1 's'
  have htagM : nM.1 = 'm' := name_tag g2 'm'
  have htag2 : nS2.1 = 's' := name_tag g3 's'
  have h1M : nS1 ≠ nM := tag_ne _ _ (by rw [htag1, htagM]; decide)
  have h2M : nS2 ≠ nM := tag_ne _ _ (by rw [htag2, htagM]; decide)
  have hMel : nM ≠ element := tag_ne _ _ (by rw [htagM, heltag]; decide)
  -- key-set bookkeeping
  have hkeys1 : ∀ x, x ∈ g1.keys ↔ x ∈ g.keys ∧ x ≠ element :=
    fun x => mem_keys_remove_vertex g element x hndd
  have hkeys2 : ∀ x, x ∈ g2.keys ↔ x ∈ g1.keys ∨ x = nS1 := by
    intro x
    exact akeys_aupdate nS1 define1 g1.defines x
  have hkeys3 : ∀ x, x ∈ g3.keys ↔ x ∈ g2.keys ∨ x = nM := by
    intro x
    exact akeys_aupdate nM [] g2.defines x
  have hkeys4 : ∀ x, x ∈ g4.keys ↔ x ∈ g3.keys ∨ x = nS2 := by
    intro x
    exact akeys_aupdate nS2 define2 g3.defines x
  have hfresh1 : nS1 ∉ g1.keys := fresh_not_mem g1 's'
  have hfreshM : nM ∉ g2.keys := fresh_not_mem g2 'm'
  have hfresh2 : nS2 ∉ g3.keys := fresh_not_mem g3 's'
  have h12 : nS1 ≠ nS2 := by
    intro hc
    exact hfresh2 ((hkeys3 nS1).2 (Or.inl ((hkeys2 nS1).2 (Or.inr rfl))) |> (hc ▸ ·))
  -- element-membership facts for edges of the removed stem
  have hemem : ∀ e ∈ g.edgesOf element, e ≠ element ∧ e ∈ g1.keys ∧
      e ≠ nS1 ∧ e ≠ nM ∧ e ≠ nS2 := by
    intro e he
    have hene : e ≠ element := fun hc => hnoself (hc ▸ he)
    have hek : e ∈ g1.keys := (hkeys1 e).2 ⟨hclosed element e he, hene⟩
    refine ⟨hene, hek, ?_, ?_, ?_⟩
    · intro hc
      exact hfresh1 (hc ▸ hek)
    · intro hc
      exact hfreshM (hc ▸ (hkeys2 e).2 (Or.inl hek))
    · intro hc
      exact hfresh2 (hc ▸ (hkeys3 e).2 (Or.inl ((hkeys2 e).2 (Or.inl hek))))
  -- the defines of the final graph
  have hdef9 : g9.defines = g4.defines := by
    rw [hg9, hg8, hg7]
    show g6.defines = g4.defines
    rw [hg6, defines_foldl_addone, hg5, defines_foldl_addone]
  -- the run equation
  have hrun : g._split_inside_stem sp element = .ok g9 := by
    unfold _split_inside_stem
    rw [if_pos heltag, hdef]
    dsimp only
    rw [if_neg hspb, hdefs]
    dsimp only
    rw [hd10, hd13, hd22, hd21,
      classifyEdges_eq_filters g a d c b (g.edgesOf element) hcov]
  refine ⟨g9, nS1, nM, nS2, hrun, htag1, htagM, htag2, h12, h1M, h2M, ?_, ?_, ?_, ?_, ?_, ?_⟩
  · rw [hdef9, hg4]
    show alookup nS1 (aupdate nS2 define2 g3.defines) = some define1
    rw [alookup_aupdate, if_neg (Ne.symm h12 |> fun h => h)]
    · rw [hg3]
      show alookup nS1 (aupdate nM [] g2.defines) = some define1
      rw [alookup_aupdate, if_neg fun hc => h1M hc.symm, hg2]
      show alookup nS1 (aupdate nS1 define1 g1.defines) = some define1
      rw [alookup_aupdate, if_pos rfl]
  · rw [hdef9, hg4]
    show alookup nS2 (aupdate nS2 define2 g3.defines) = some define2
    rw [alookup_aupdate, if_pos rfl]
  · rw [hdef9, hg4]
    show alookup nM (aupdate nS2 define2 g3.defines) = some []
    rw [alookup_aupdate, if_neg h2M, hg3]
    show alookup nM (aupdate nM [] g2.defines) = some []
    rw [alookup_aupdate, if_pos rfl]
  · rw [hg9, edgesOf_aupdate, if_pos rfl]
  · intro x
    have : x ∈ g9.keys ↔ x ∈ g4.keys := by
      rw [show g9.keys = akeys g9.defines from rfl, hdef9]
      exact Iff.rfl
    rw [this]
    rw [hkeys4, hkeys3, hkeys2, hkeys1]
    tauto
  · intro e he
    obtain ⟨hene, hek, he1, heM, he2⟩ := hemem e he
    have hedge9 : g9.edgesOf e = g6.edgesOf e := by
      rw [hg9, edgesOf_aupdate, if_neg fun hc => heM hc.symm, hg8,
        edgesOf_aupdate, if_neg fun hc => he2 hc.symm, hg7,
        edgesOf_aupdate, if_neg fun hc => he1 hc.symm]
    have hedge41 : g4.edgesOf e = serase element (g.edgesOf e) := by
      rw [hg4, edgesOf_set_defines, hg3, edgesOf_set_defines, hg2, edgesOf_set_defines,
        hg1, edgesOf_remove_vertex_ne g element e hene]
    have hnS2absent : nS2 ∉ serase element (g.edgesOf e) := by
      rw [mem_serase]
      rintro ⟨hmemS2, hneS2⟩
      exact hfresh2 ((hkeys3 nS2).2 (Or.inl ((hkeys2 nS2).2
        (Or.inl ((hkeys1 nS2).2 ⟨hclosed e nS2 hmemS2, hneS2⟩)))))
    have hnS1absent : nS1 ∉ serase element (g.edgesOf e) := by
      rw [mem_serase]
      rintro ⟨hmemS1, hneS1⟩
      exact hfresh1 ((hkeys1 nS1).2 ⟨hclosed e nS1 hmemS1, hneS1⟩)
    constructor
    · intro hcond1
      have hin1 : e ∈ edges1 := by
        rw [hedges1, List.mem_filter]
        exact ⟨he, by rw [decide_eq_true_eq]; exact hcond1⟩
      have hnotin2 : e ∉ edges2 := by
        rw [hedges2, List.mem_filter]
        rintro ⟨_, hdec⟩
        rw [decide_eq_true_eq] at hdec
        exact hdec.1 hcond1
      have h6 : g6.edgesOf e = g5.edgesOf e := by
        rw [hg6, edgesOf_foldl_addone, if_neg hnotin2]
      have h5 : g5.edgesOf e = sinsert nS1 (g4.edgesOf e) := by
        rw [hg5, edgesOf_foldl_addone, if_pos hin1]
      rw [hedge9, h6, h5, hedge41]
      constructor
      · rw [mem_sinsert]
        exact Or.inl rfl
      · rw [mem_sinsert]
        rintro (hc | hc)
        · exact h12.symm hc
        · exact hnS2absent hc
    · intro hcond1
      have hcond2 := (hcov e he).resolve_left hcond1
      have hnotin1 : e ∉ edges1 := by
        rw [hedges1, List.mem_filter]
        rintro ⟨_, hdec⟩
        rw [decide_eq_true_eq] at hdec
        exact hcond1 hdec
      have hin2 : e ∈ edges2 := by
        rw [hedges2, List.mem_filter]
        exact ⟨he, by rw [decide_eq_true_eq]; exact ⟨hcond1, hcond2⟩⟩
      have h6 : g6.edgesOf e = sinsert nS2 (g5.edgesOf e) := by
        rw [hg6, edgesOf_foldl_addone, if_pos hin2]
      have h5 : g5.edgesOf e = g4.edgesOf e := by
        rw [hg5, edgesOf_foldl_addone, if_neg hnotin1]
      rw [hedge9, h6, h5, hedge41]
      constructor
      · rw [mem_sinsert]
        exact Or.inl rfl
      · rw [mem_sinsert]
        rintro (hc | hc)
        · exact h12 hc
        · exact hnS1absent hc

theorem interior_side_outcome (g : BulgeGraph) (sp : Int) (strand other : Int × Int)
    (st0 st1 iloop : EName) (hst0 : st0.1 = 's') (hst1 : st1.1 = 's')
    (hst01 : st0 ≠ st1) (hiltag : iloop.1 = 'i')
    (hnd : (akeys g.defines).Nodup) :
    interiorSplitOutcome g sp strand other st0 st1 iloop
      ((g._split_interior_loop_at_side sp strand other st0 st1).remove_vertex iloop) := by
  set mN := g._next_available_element_name 'm' with hmN
  set tN := g._next_available_element_name 't' with htN
  set fN := g._next_available_element_name 'f' with hfN
  have tag_ne : ∀ a b : EName, a.1 ≠ b.1 → a ≠ b := by
    intro a b hab hc
    exact hab (congrArg Prod.fst hc)
  have hmt : mN ≠ tN := tag_ne _ _ (by rw [hmN, htN, name_tag, name_tag]; decide)
  have hmf : mN ≠ fN := tag_ne _ _ (by rw [hmN, hfN, name_tag, name_tag]; decide)
  have htf : tN ≠ fN := tag_ne _ _ (by rw [htN, hfN, name_tag, name_tag]; decide)
  have him : iloop ≠ mN := tag_ne _ _ (by rw [hiltag, hmN, name_tag]; decide)
  have hit : iloop ≠ tN := tag_ne _ _ (by rw [hiltag, htN, name_tag]; decide)
  have hif : iloop ≠ fN := tag_ne _ _ (by rw [hiltag, hfN, name_tag]; decide)
  have his0 : st0 ≠ iloop := tag_ne _ _ (by rw [hst0, hiltag]; decide)
  have his1 : st1 ≠ iloop := tag_ne _ _ (by rw [hst1, hiltag]; decide)
  have hms0 : mN ≠ st0 := tag_ne _ _ (by rw [hmN, name_tag, hst0]; decide)
  have hms1 : mN ≠ st1 := tag_ne _ _ (by rw [hmN, name_tag, hst1]; decide)
  have hts0 : tN ≠ st0 := tag_ne _ _ (by rw [htN, name_tag, hst0]; decide)
  have hfs1 : fN ≠ st1 := tag_ne _ _ (by rw [hfN, name_tag, hst1]; decide)
  have hmem := at_side_edges_mem g sp strand other st0 st1 hst0 hst1 hst01
  have hndside : (akeys (g._split_interior_loop_at_side sp strand other st0 st1).defines).Nodup := by
    rw [at_side_defines]
    dsimp only
    split_ifs <;>
      first
        | exact akeys_nodup_aupdate _ _ _
            (akeys_nodup_aupdate _ _ _ (akeys_nodup_aupdate _ _ _ hnd))
        | exact akeys_nodup_aupdate _ _ _ (akeys_nodup_aupdate _ _ _ hnd)
        | exact akeys_nodup_aupdate _ _ _ hnd
  have hdef : ∀ z : EName, iloop ≠ z →
      alookup z ((g._split_interior_loop_at_side sp strand other st0 st1).remove_vertex iloop).defines =
      alookup z (g._split_interior_loop_at_side sp strand other st0 st1).defines := by
    intro z hz
    rw [defines_remove_vertex]
    exact alookup_aerase_ne z iloop _ hz
  have hedge : ∀ z : EName, z ≠ iloop → ∀ y : EName,
      (y ∈ ((g._split_interior_loop_at_side sp strand other st0 st1).remove_vertex iloop).edgesOf z ↔
        y ∈ (g._split_interior_loop_at_side sp strand other st0 st1).edgesOf z ∧ y ≠ iloop) := by
    intro z hz y
    rw [edgesOf_remove_vertex_ne _ _ _ hz, mem_serase]
  refine ⟨?_, ?_, ?_, ?_, ?_, ?_, ?_, ?_, ?_, ?_⟩
  · rw [hdef mN him, at_side_defines]
    dsimp only
    split_ifs <;>
      simp [alookup_aupdate, Ne.symm hmt, Ne.symm hmf]
  · rw [hedge mN (Ne.symm him), hmem]
    exact ⟨Or.inr (Or.inl ⟨rfl, Or.inl rfl⟩), his0⟩
  · rw [hedge mN (Ne.symm him), hmem]
    exact ⟨Or.inr (Or.inl ⟨rfl, Or.inr rfl⟩), his1⟩
  · rw [hedge st0 his0, hmem]
    exact ⟨Or.inr (Or.inr (Or.inl ⟨Or.inl rfl, rfl⟩)), Ne.symm him⟩
  · rw [hedge st1 his1, hmem]
    exact ⟨Or.inr (Or.inr (Or.inl ⟨Or.inr rfl, rfl⟩)), Ne.symm him⟩
  · intro hsp
    refine ⟨?_, ?_, ?_⟩
    · rw [hdef tN hit, at_side_defines]
      dsimp only
      rw [if_pos hsp]
      split_ifs <;>
        simp [alookup_aupdate, Ne.symm htf, hmt]
    · rw [hedge tN (Ne.symm hit), hmem]
      exact ⟨Or.inr (Or.inr (Or.inr (Or.inl ⟨hsp, Or.inl ⟨rfl, rfl⟩⟩))), his0⟩
    · rw [hedge st0 his0, hmem]
      exact ⟨Or.inr (Or.inr (Or.inr (Or.inl ⟨hsp, Or.inr ⟨rfl, rfl⟩⟩))), Ne.symm hit⟩
  · intro hsp
    have : alookup tN ((g._split_interior_loop_at_side sp strand other st0 st1).remove_vertex iloop).defines = none := by
      rw [hdef tN hit, at_side_defines]
      dsimp only
      rw [if_neg hsp]
      have hfresh : alookup tN g.defines = none :=
        (alookup_eq_none_iff tN g.defines).2 (fresh_not_mem g 't')
      split_ifs <;>
        simp [alookup_aupdate, Ne.symm htf, hmt, hfresh]
    intro hc
    exact ((alookup_eq_none_iff _ _).1 this) hc
  · intro hsp
    refine ⟨?_, ?_, ?_⟩
    · rw [hdef fN hif, at_side_defines]
      dsimp only
      rw [if_pos hsp]
      simp [alookup_aupdate]
    · rw [hedge fN (Ne.symm hif), hmem]
      exact ⟨Or.inr (Or.inr (Or.inr (Or.inr ⟨hsp, Or.inl ⟨rfl, rfl⟩⟩))), his1⟩
    · rw [hedge st1 his1, hmem]
      exact ⟨Or.inr (Or.inr (Or.inr (Or.inr ⟨hsp, Or.inr ⟨rfl, rfl⟩⟩))), Ne.symm hif⟩
  · intro hsp
    have : alookup fN ((g._split_interior_loop_at_side sp strand other st0 st1).remove_vertex iloop).defines = none := by
      rw [hdef fN hif, at_side_defines]
      dsimp only
      rw [if_neg hsp]
      have hfresh : alookup fN g.defines = none :=
        (alookup_eq_none_iff fN g.defines).2 (fresh_not_mem g 'f')
      split_ifs <;>
        simp [alookup_aupdate, htf, hmf, hfresh]
    intro hc
    exact ((alookup_eq_none_iff _ _).1 this) hc
  · intro hc
    rw [show ((g._split_interior_loop_at_side sp strand other st0 st1).remove_vertex iloop).keys
      = akeys ((g._split_interior_loop_at_side sp strand other st0 st1).remove_vertex iloop).defines
      from rfl, defines_remove_vertex] at hc
    exact ((akeys_aerase iloop _ hndside iloop).1 hc).2 rfl

end BulgeGraph

/-! ## Correctness of the `_is_connected` worklist -/

namespace BulgeGraph

theorem edgesOf_eq_nil_of_not_mem_univ (g : BulgeGraph) (n : EName)
    (h : n ∉ univKeysList g) : g.edgesOf n = [] := by
  unfold univKeysList at h
  rw [List.mem_dedup] at h
  have : alookup n g.edges = none := by
    rw [alookup_eq_none_iff]
    exact h
  simp [edgesOf, this]

theorem filter_notmem_cons (l known : List EName) (n : EName) (hn : n ∉ l) :
    l.filter (fun k => k ∉ n :: known) = l.filter (fun k => k ∉ known) := by
  apply List.filter_congr
  intro x hx
  have hxn : x ≠ n := fun h => hn (h ▸ hx)
  simp [List.mem_cons, hxn]

theorem sum_filter_cons_mem (w : EName → Nat) (l known : List EName) (n : EName)
    (hnd : l.Nodup) (hnl : n ∈ l) (hkn : n ∉ known) :
    ((l.filter (fun k => k ∉ known)).map w).sum =
      w n + ((l.filter (fun k => k ∉ n :: known)).map w).sum := by
  induction l with
  | nil => cases hnl
  | cons a l' ih =>
    rw [List.nodup_cons] at hnd
    obtain ⟨ha, hnd'⟩ := hnd
    by_cases han : a = n
    · subst han
      have h1 : (a :: l').filter (fun k => k ∉ known) =
          a :: l'.filter (fun k => k ∉ known) := by
        simp [List.filter_cons, hkn]
      have h2 : (a :: l').filter (fun k => k ∉ a :: known) =
          l'.filter (fun k => k ∉ a :: known) := by
        simp [List.filter_cons]
      rw [h1, h2, filter_notmem_cons l' known a ha]
      simp
    · have hnl' : n ∈ l' := by
        rcases List.mem_cons.1 hnl with h | h
        · exact absurd h.symm han
        · exact h
      by_cases hak : a ∈ known
      · have h1 : (a :: l').filter (fun k => k ∉ known) =
            l'.filter (fun k => k ∉ known) := by
          simp [List.filter_cons, hak]
        have h2 : (a :: l').filter (fun k => k ∉ n :: known) =
            l'.filter (fun k => k ∉ n :: known) := by
          simp [List.filter_cons, List.mem_cons, hak]
        rw [h1, h2, ih hnd' hnl']
      · have hank : a ∉ n :: known := by
          simp [List.mem_cons, han, hak]
        have h1 : (a :: l').filter (fun k => k ∉ known) =
            a :: l'.filter (fun k => k ∉ known) := by
          simp [List.filter_cons, hak]
        have h2 : (a :: l').filter (fun k => k ∉ n :: known) =
            a :: l'.filter (fun k => k ∉ n :: known) := by
          simp [List.filter_cons, List.mem_cons, han, hak]
        rw [h1, h2, List.map_cons, List.map_cons, List.sum_cons, List.sum_cons,
          ih hnd' hnl']
        omega

theorem reach_escape (g : BulgeGraph) (known pending : List EName)
    (hCI : ∀ k ∈ known, ∀ m ∈ g.edgesOf k, m ∈ known ∨ m ∈ pending)
    (n x : EName) (hr : Reach g n x) (hn : n ∈ known) :
    x ∈ known ∨ ∃ p ∈ pending, Reach g p x := by
  revert hn
  induction hr using Relation.ReflTransGen.head_induction_on with
  | refl => intro hx; exact Or.inl hx
  | head hadj htail ihstep =>
    intro ha
    rcases hCI _ ha _ hadj with hk | hp
    · exact ihstep hk
    · exact Or.inr ⟨_, hp, htail⟩

theorem reach_iff_head (g : BulgeGraph) (s x : EName) :
    Reach g s x ↔ x = s ∨ ∃ p ∈ g.edgesOf s, Reach g p x := by
  constructor
  · intro h
    rcases Relation.ReflTransGen.cases_head h with h' | ⟨c, hc, hr⟩
    · exact Or.inl h'.symm
    · exact Or.inr ⟨c, hc, hr⟩
  · rintro (rfl | ⟨p, hp, hr⟩)
    · exact Relation.ReflTransGen.refl
    · exact Relation.ReflTransGen.head hp hr

theorem bfsAux_mem (g : BulgeGraph) :
    ∀ (fuel : Nat) (known pending : List EName),
      pending.length + weightOf g known < fuel →
      (∀ k ∈ known, ∀ m ∈ g.edgesOf k, m ∈ known ∨ m ∈ pending) →
      ∀ x, x ∈ bfsAux g fuel known pending ↔
        (x ∈ known ∨ ∃ p ∈ pending, Reach g p x) := by
  intro fuel
  induction fuel with
  | zero => intro known pending hfuel _ x; omega
  | succ fuel ih =>
    intro known pending hfuel hCI x
    cases pending with
    | nil => simp [bfsAux]
    | cons n rest =>
      by_cases hn : n ∈ known
      · rw [show bfsAux g (fuel + 1) known (n :: rest) = bfsAux g fuel known rest from by
          simp [bfsAux, hn]]
        have hCI' : ∀ k ∈ known, ∀ m ∈ g.edgesOf k, m ∈ known ∨ m ∈ rest := by
          intro k hk m hm
          rcases hCI k hk m hm with h | h
          · exact Or.inl h
          · rcases List.mem_cons.1 h with rfl | h'
            · exact Or.inl hn
            · exact Or.inr h'
        have hfuel' : rest.length + weightOf g known < fuel := by
          simp only [List.length_cons] at hfuel; omega
        rw [ih known rest hfuel' hCI' x]
        constructor
        · rintro (h | ⟨p, hp, hr⟩)
          · exact Or.inl h
          · exact Or.inr ⟨p, List.mem_cons_of_mem _ hp, hr⟩
        · rintro (h | ⟨p, hp, hr⟩)
          · exact Or.inl h
          · rcases List.mem_cons.1 hp with rfl | hp'
            · exact reach_escape g known rest hCI' p x hr hn
            · exact Or.inr ⟨p, hp', hr⟩
      · rw [show bfsAux g (fuel + 1) known (n :: rest) =
            bfsAux g fuel (n :: known) (g.edgesOf n ++ rest) from by
          simp [bfsAux, hn]]
        have hfuel' : (g.edgesOf n ++ rest).length + weightOf g (n :: known) < fuel := by
          by_cases hu : n ∈ univKeysList g
          · have hw := sum_filter_cons_mem (fun k => (g.edgesOf k).length)
              (univKeysList g) known n (List.nodup_dedup _) hu hn
            unfold weightOf at hfuel ⊢
            rw [hw] at hfuel
            simp only [List.length_cons, List.length_append] at hfuel ⊢
            omega
          · have hnil := edgesOf_eq_nil_of_not_mem_univ g n hu
            have hw : weightOf g known = weightOf g (n :: known) := by
              unfold weightOf
              rw [filter_notmem_cons (univKeysList g) known n hu]
            simp only [List.length_cons] at hfuel
            simp only [hnil, List.nil_append, ← hw]
            omega
        have hCI' : ∀ k ∈ n :: known, ∀ m ∈ g.edgesOf k,
            m ∈ n :: known ∨ m ∈ g.edgesOf n ++ rest := by
          intro k hk m hm
          rcases List.mem_cons.1 hk with rfl | hk'
          · exact Or.inr (List.mem_append_left _ hm)
          · rcases hCI k hk' m hm with h | h
            · exact Or.inl (List.mem_cons_of_mem _ h)
            · rcases List.mem_cons.1 h with rfl | h'
              · exact Or.inl (List.mem_cons_self _ _)
              · exact Or.inr (List.mem_append_right _ h')
        rw [ih (n :: known) (g.edgesOf n ++ rest) hfuel' hCI' x]
        constructor
        · rintro (hx | ⟨p, hp, hr⟩)
          · rcases List.mem_cons.1 hx with rfl | hx'
            · exact Or.inr ⟨x, List.mem_cons_self _ _, Relation.ReflTransGen.refl⟩
            · exact Or.inl hx'
          · rcases List.mem_append.1 hp with hp' | hp'
            · exact Or.inr ⟨n, List.mem_cons_self _ _, Relation.ReflTransGen.head hp' hr⟩
            · exact Or.inr ⟨p, List.mem_cons_of_mem _ hp', hr⟩
        · rintro (hx | ⟨p, hp, hr⟩)
          · exact Or.inl (List.mem_cons_of_mem _ hx)
          · rcases List.mem_cons.1 hp with rfl | hp'
            · rcases Relation.ReflTransGen.cases_head hr with rfl | ⟨c, hc, hcr⟩
              · exact Or.inl (List.mem_cons_self _ _)
              · exact Or.inr ⟨c, List.mem_append_left _ hc, hcr⟩
            · exact Or.inr ⟨p, List.mem_append_right _ hp', hr⟩

theorem connectedFrom_spec (g : BulgeGraph) (start : EName) :
    connectedFrom g start = true ↔ (∀ x, Reach g start x ↔ x ∈ g.keys) := by
  have hmem := bfsAux_mem g (((g.edgesOf start).length + weightOf g [start]) + 1)
    [start] (g.edgesOf start) (by omega)
    (by
      intro k hk m hm
      rcases List.mem_cons.1 hk with rfl | hk'
      · exact Or.inr hm
      · cases hk')
  have hknown : ∀ x, x ∈ bfsAux g (((g.edgesOf start).length + weightOf g [start]) + 1)
      [start] (g.edgesOf start) ↔ Reach g start x := by
    intro x
    rw [hmem x, reach_iff_head]
    simp [List.mem_singleton]
  unfold connectedFrom
  rw [Bool.and_eq_true, List.all_eq_true, List.all_eq_true]
  constructor
  · rintro ⟨h1, h2⟩ x
    constructor
    · intro hr
      have := h1 x ((hknown x).2 hr)
      simpa using this
    · intro hk
      have := h2 x hk
      rw [decide_eq_true_eq] at this
      exact (hknown x).1 this
  · intro h
    constructor
    · intro x hx
      rw [decide_eq_true_eq]
      exact (h x).1 ((hknown x).1 hx)
    · intro x hx
      rw [decide_eq_true_eq]
      exact (hknown x).2 ((h x).2 hx)

theorem _is_connected_eq (g : BulgeGraph) (start : EName) (d : List Int)
    (rest : List (EName × List Int)) (hdef : g.defines = (start, d) :: rest) :
    _is_connected g = some (connectedFrom g start) := by
  unfold _is_connected
  rw [hdef]

theorem _split_between_elements_error (g : BulgeGraph) (sp : Int) (l r : EName) :
    g._split_between_elements sp l r ≠ .error .notConnected ∧
    g._split_between_elements sp l r ≠ .error .emptyGraph := by
  unfold _split_between_elements
  dsimp only
  constructor <;> (repeat' split) <;> simp

theorem _split_inside_loop_error (g : BulgeGraph) (sp : Int) (el : EName) :
    g._split_inside_loop sp el ≠ .error .notConnected ∧
    g._split_inside_loop sp el ≠ .error .emptyGraph := by
  unfold _split_inside_loop
  try dsimp only
  constructor <;> (repeat' split) <;> simp

theorem _split_inside_stem_error (g : BulgeGraph) (sp : Int) (el : EName) :
    g._split_inside_stem sp el ≠ .error .notConnected ∧
    g._split_inside_stem sp el ≠ .error .emptyGraph := by
  unfold _split_inside_stem
  dsimp only
  constructor <;> (repeat' split) <;> simp

theorem _split_interior_loop_error (g : BulgeGraph) (sp : Int) (l r : EName) :
    g._split_interior_loop sp l r ≠ .error .notConnected ∧
    g._split_interior_loop sp l r ≠ .error .emptyGraph := by
  unfold _split_interior_loop
  try dsimp only
  constructor <;> (repeat' split) <;> simp

theorem processCutpoint_error (g : BulgeGraph) (sp : Int) :
    processCutpoint g sp ≠ .error .notConnected ∧
    processCutpoint g sp ≠ .error .emptyGraph := by
  unfold processCutpoint processCutpointBody
  try dsimp only
  constructor <;> (repeat' split) <;>
    first
      | (simp; done)
      | exact (_split_interior_loop_error _ _ _ _).1
      | exact (_split_interior_loop_error _ _ _ _).2
      | exact (_split_between_elements_error _ _ _ _).1
      | exact (_split_between_elements_error _ _ _ _).2
      | exact (_split_inside_stem_error _ _ _).1
      | exact (_split_inside_stem_error _ _ _).2
      | exact (_split_inside_loop_error _ _ _).1
      | exact (_split_inside_loop_error _ _ _).2

theorem foldCutpoints_error (bg : BulgeGraph) (cuts : List Int)
    (e : SplitError) (h : foldCutpoints bg cuts = .error e) :
    e ≠ .notConnected ∧ e ≠ .emptyGraph := by
  induction cuts generalizing bg with
  | nil => cases h
  | cons sp rest ih =>
    unfold foldCutpoints at h
    split at h
    · exact ih _ h
    · rename_i e' heq
      cases h
      constructor
      · intro hc; subst hc; exact (processCutpoint_error bg sp).1 heq
      · intro hc; subst hc; exact (processCutpoint_error bg sp).2 heq

end BulgeGraph

/-! ## Claim C1 -/

/-- Claim C1: the spec says a cutpoint whose left flank is a `t` dangling
end is a no-op, but in the source the corresponding guard branch reads
`element_left[0]=="t" and element_left[0]!="t"` — an unsatisfiable
condition — so the fatal "no base pair connects the two molecules" error is
raised whenever the left flank is a `t`-end and the right flank is not an
`f`-end, contradicting the claim.  First conjunct: in full generality the
code raises on such cutpoints; second conjunct: the concrete failing input. -/
theorem claim_C1_left_t_end_raises :
    (∀ (g : BulgeGraph) (sp : Int) (l r : EName),
        g.get_node_from_residue_num sp = some l →
        g.get_node_from_residue_num (sp + 1) = some r →
        l.1 = 't' → r.1 ≠ 'f' →
        processCutpoint g sp = .error .guardDisconnected)
    ∧ processCutpoint gLeftT 5 = .error .guardDisconnected := by
  constructor
  · intro g sp l r hl hr hlt hrf
    rw [processCutpoint_nodes hl hr]
    unfold processCutpointBody
    have h1 : l.1 = 'f' ∨ l.1 = 't' ∨ r.1 = 'f' ∨ r.1 = 't' := Or.inr (Or.inl hlt)
    rw [if_pos h1, if_neg (by simp), if_neg (by simp [hrf])]
  · rfl

/-- Witness for Claim C1's theorem: its hypotheses are satisfiable — at the
concrete graph `gLeftT` the left flank of cutpoint 5 is `t0`, the right
flank the stem `s0`, and the split raises. -/
theorem claim_C1_witness :
    processCutpoint gLeftT 5 = .error .guardDisconnected :=
  claim_C1_left_t_end_raises.1 gLeftT 5 ('t', 0) ('s', 0)
    (by rfl) (by rfl) rfl (by decide)

/-! ## Claim C2 -/

/-- Claim C2: `split_at_cofold_cutpoints` raises the fatal connectivity
`StructureError` if and only if, after processing every cutpoint, the
element graph is not a single connected component — and only at that point:
no iteration of the cutpoint loop can raise it (second conjunct).  The
connectivity check itself is the pure function `_is_connected`, whose
`true` answer is equivalent to the set of elements reachable from the
arbitrarily chosen start element (the first `defines` key) being exactly
the element-name set (third conjunct). -/
theorem claim_C2_connectivity_check (bg : BulgeGraph) (cuts : List Int) :
    (∀ g', foldCutpoints bg cuts = .ok g' →
      ((split_at_cofold_cutpoints bg cuts = .error .notConnected ↔
          _is_connected g' = some false)
        ∧ (split_at_cofold_cutpoints bg cuts = .ok g' ↔
          _is_connected g' = some true)))
    ∧ (∀ e, foldCutpoints bg cuts = .error e →
        split_at_cofold_cutpoints bg cuts = .error e ∧
          e ≠ .notConnected ∧ e ≠ .emptyGraph)
    ∧ (∀ (g : BulgeGraph) (start : EName) (d : List Int)
          (rest : List (EName × List Int)), g.defines = (start, d) :: rest →
        (_is_connected g = some true ↔ ∀ x, Reach g start x ↔ x ∈ g.keys)) := by
  refine ⟨?_, ?_, ?_⟩
  · intro g' hfold
    have hsplit : split_at_cofold_cutpoints bg cuts =
        (match _is_connected g' with
          | none => .error .emptyGraph
          | some true => .ok g'
          | some false => .error .notConnected) := by
      unfold split_at_cofold_cutpoints
      rw [hfold]
    rcases hconn : _is_connected g' with _ | b
    · rw [hconn] at hsplit
      constructor
      · rw [hsplit]; simp
      · rw [hsplit]; simp
    · cases b
      · rw [hconn] at hsplit
        constructor
        · rw [hsplit]; simp
        · rw [hsplit]; simp
      · rw [hconn] at hsplit
        constructor
        · rw [hsplit]; simp
        · rw [hsplit]; simp
  · intro e hfold
    have hsplit : split_at_cofold_cutpoints bg cuts = .error e := by
      unfold split_at_cofold_cutpoints
      rw [hfold]
    exact ⟨hsplit, foldCutpoints_error bg cuts e hfold⟩
  · intro g start d rest hdef
    rw [_is_connected_eq g start d rest hdef]
    rw [show (some (connectedFrom g start) = some true) ↔
      (connectedFrom g start = true) from by simp]
    exact connectedFrom_spec g start

/-- Witness for Claim C2's theorem: at the concrete graph `gILoop` with no
cutpoints, the loop succeeds immediately and both equivalences are
obtained by applying the theorem. -/
theorem claim_C2_witness :
    (split_at_cofold_cutpoints gILoop [] = .ok gILoop ↔
      _is_connected gILoop = some true)
    ∧ (_is_connected gILoop = some true ↔
      ∀ x, Reach gILoop ('s', 0) x ↔ x ∈ gILoop.keys) := by
  refine ⟨((claim_C2_connectivity_check gILoop []).1 gILoop rfl).2, ?_⟩
  exact (claim_C2_connectivity_check gILoop []).2.2 gILoop ('s', 0) [1, 2, 13, 14] _ rfl

/-! ## Claim C3 -/

/-- Claim C3, counterexample to the claim as stated: in `gILoop` the
cutpoint 4 is flanked by the interior loop `i0` (which owns position 4, the
last position of its forward strand `[3,4]`) and the stem `s1`.  The claim
asserts that the strand containing the cutpoint becomes *two* dangling
ends, a `t` element `[3,4]` and an `f` element spanning cutpoint+1 to the
strand end; but the split creates only the `t` element `[3,4]` and no `f`
element at all. -/
theorem claim_C3_counterexample :
    (gILoop._split_interior_loop 4 ('i', 0) ('s', 1)).map
        (fun g' => (g'.keys.all (fun n => n.1 ≠ 'f'), alookup ('t', 0) g'.defines))
      = .ok (true, some [3, 4])
    ∧ gILoop.get_node_from_residue_num 4 = some ('i', 0)
    ∧ gILoop.get_node_from_residue_num 5 = some ('s', 1) := by
  exact ⟨rfl, rfl, rfl⟩

/-- Claim C3 (amended): for a cutpoint flanked by an interior loop, with the
loop's two stems `c0` (5' side) and `c1` (3' side), the split removes the
interior-loop element; the strand containing the cutpoint is divided into a
fresh `t` element from the strand start to the cutpoint — created only when
that span is non-empty (cutpoint ≥ strand start) — wired to the strand's 5'
stem, and a fresh `f` element from cutpoint+1 to the strand end — created
only when that span is non-empty (cutpoint < strand end) — wired to the
strand's 3' stem; the loop's other strand becomes a fresh multiloop segment
(its own span as define, or an empty define when it has zero length) wired
to both stems.  First conjunct: cutpoint in the forward strand; second:
cutpoint in the backward strand. -/
theorem claim_C3_interior_loop_split (g : BulgeGraph) (sp : Int)
    (l r iloop c0 c1 : EName) (tail : List EName)
    (s1a s1b s1c s1d s2a s2b s2c s2d : Int)
    (hil : (if l.1 = 'i' then some l else if r.1 = 'i' then some r else none) =
      some iloop)
    (hconn : g.connections iloop = c0 :: c1 :: tail)
    (hc0 : alookup c0 g.defines = some [s1a, s1b, s1c, s1d])
    (hc1 : alookup c1 g.defines = some [s2a, s2b, s2c, s2d])
    (hc0tag : c0.1 = 's') (hc1tag : c1.1 = 's') (hc01 : c0 ≠ c1)
    (hnd : (akeys g.defines).Nodup) :
    (s1b + 1 - 1 ≤ sp ∧ sp ≤ s2a - 1 →
      g._split_interior_loop sp l r = .ok
        ((g._split_interior_loop_at_side sp (s1b + 1, s2a - 1) (s2d + 1, s1c - 1)
          c0 c1).remove_vertex iloop)
      ∧ interiorSplitOutcome g sp (s1b + 1, s2a - 1) (s2d + 1, s1c - 1) c0 c1 iloop
        ((g._split_interior_loop_at_side sp (s1b + 1, s2a - 1) (s2d + 1, s1c - 1)
          c0 c1).remove_vertex iloop))
    ∧ (¬ (s1b + 1 - 1 ≤ sp ∧ sp ≤ s2a - 1) → s2d + 1 - 1 ≤ sp ∧ sp ≤ s1c - 1 →
      g._split_interior_loop sp l r = .ok
        ((g._split_interior_loop_at_side sp (s2d + 1, s1c - 1) (s1b + 1, s2a - 1)
          c1 c0).remove_vertex iloop)
      ∧ interiorSplitOutcome g sp (s2d + 1, s1c - 1) (s1b + 1, s2a - 1) c1 c0 iloop
        ((g._split_interior_loop_at_side sp (s2d + 1, s1c - 1) (s1b + 1, s2a - 1)
          c1 c0).remove_vertex iloop)) := by
  have hiltag : iloop.1 = 'i' := by
    by_cases hli : l.1 = 'i'
    · rw [if_pos hli] at hil
      cases hil
      exact hli
    · rw [if_neg hli] at hil
      by_cases hri : r.1 = 'i'
      · rw [if_pos hri] at hil
        cases hil
        exact hri
      · rw [if_neg hri] at hil
        cases hil
  have hrun : ∀ P : Except SplitError BulgeGraph → Prop,
      P (if (s1b + 1, s2a - 1).1 - 1 ≤ sp ∧ sp ≤ (s1b + 1, s2a - 1).2 then
          .ok ((g._split_interior_loop_at_side sp (s1b + 1, s2a - 1)
            (s2d + 1, s1c - 1) c0 c1).remove_vertex iloop)
        else if (s2d + 1, s1c - 1).1 - 1 ≤ sp ∧ sp ≤ (s2d + 1, s1c - 1).2 then
          .ok ((g._split_interior_loop_at_side sp (s2d + 1, s1c - 1)
            (s1b + 1, s2a - 1) c1 c0).remove_vertex iloop)
        else .error .assertionError) →
      P (g._split_interior_loop sp l r) := by
    intro P hP
    unfold _split_interior_loop
    rw [hil]
    dsimp only
    rw [hconn]
    dsimp only
    rw [hc0, hc1]
    exact hP
  constructor
  · intro hfwd
    refine ⟨?_, interior_side_outcome g sp _ _ c0 c1 iloop hc0tag hc1tag hc01 hiltag hnd⟩
    apply hrun (fun z => z = _)
    rw [if_pos hfwd]
  · intro hnfwd hbck
    refine ⟨?_, interior_side_outcome g sp _ _ c1 c0 iloop hc1tag hc0tag
      (Ne.symm hc01) hiltag hnd⟩
    apply hrun (fun z => z = _)
    rw [if_neg hnfwd, if_pos hbck]

/-- Witness for the amended Claim C3 theorem: the concrete graph `gILoop`
with cutpoint 3 strictly inside the forward strand `[3,4]` of its interior
loop. -/
theorem claim_C3_witness :
    gILoop._split_interior_loop 3 ('i', 0) ('i', 0) = .ok
      ((gILoop._split_interior_loop_at_side 3 (2 + 1, 5 - 1) (11 + 1, 13 - 1)
        ('s', 0) ('s', 1)).remove_vertex ('i', 0))
    ∧ interiorSplitOutcome gILoop 3 (2 + 1, 5 - 1) (11 + 1, 13 - 1)
      ('s', 0) ('s', 1) ('i', 0)
      ((gILoop._split_interior_loop_at_side 3 (2 + 1, 5 - 1) (11 + 1, 13 - 1)
        ('s', 0) ('s', 1)).remove_vertex ('i', 0)) :=
  (claim_C3_interior_loop_split gILoop 3 ('i', 0) ('i', 0) ('i', 0) ('s', 0) ('s', 1)
    [] 1 2 13 14 5 7 9 11 (by rfl) (by rfl) (by rfl) (by rfl) rfl rfl
    (by decide) (by decide)).1 (by decide)

/-! ## Claim C5 -/

/-- Claim C5: when a cutpoint's two distinct flanking elements are both
stems, `_split_between_elements` works on a connection shared by the two
stems: with no shared connection it raises (first conjunct); when no shared
connection qualifies — is an `i` remnant, or a zero-length connector whose
adjacent define starts at the cutpoint — it raises (second conjunct); a
selected interior-loop remnant is relabelled to a fresh `m` name carrying
its define, the old name disappearing (third conjunct); a selected
zero-length `m` connector anchored at the cutpoint is removed entirely,
with no replacement element and no surviving edge mention (fourth
conjunct). -/
theorem claim_C5_between_two_stems (g : BulgeGraph) (sp : Int) (l r : EName)
    (hl : l.1 = 's') (hr : r.1 = 's')
    (hndd : (akeys g.defines).Nodup) (hnde : (akeys g.edges).Nodup) :
    (sinter (g.edgesOf l) (g.edgesOf r) = [] →
      g._split_between_elements sp l r = .error .missingConnection)
    ∧ (sinter (g.edgesOf l) (g.edgesOf r) ≠ [] →
        (sinter (g.edgesOf l) (g.edgesOf r)).find? (fun c => decide (c.1 = 'i' ∨
          (alookup c g.defines = some [] ∧ (g.define_a c).headD 0 = sp))) = none →
      g._split_between_elements sp l r = .error .noSuitableConnection)
    ∧ (∀ c d, (sinter (g.edgesOf l) (g.edgesOf r)).find? (fun c => decide (c.1 = 'i' ∨
          (alookup c g.defines = some [] ∧ (g.define_a c).headD 0 = sp))) = some c →
        c.1 = 'i' → alookup c g.defines = some d →
      ∃ g', g._split_between_elements sp l r = .ok g'
        ∧ g._next_available_element_name 'm' ∉ g.keys
        ∧ (g._next_available_element_name 'm').1 = 'm'
        ∧ alookup (g._next_available_element_name 'm') g'.defines = some d
        ∧ c ∉ g'.keys)
    ∧ (∀ c, (sinter (g.edgesOf l) (g.edgesOf r)).find? (fun c => decide (c.1 = 'i' ∨
          (alookup c g.defines = some [] ∧ (g.define_a c).headD 0 = sp))) = some c →
        c.1 = 'm' →
      alookup c g.defines = some [] ∧ (g.define_a c).headD 0 = sp
        ∧ ∃ g', g._split_between_elements sp l r = .ok g'
          ∧ c ∉ g'.keys
          ∧ (∀ x, x ∈ g'.keys ↔ x ∈ g.keys ∧ x ≠ c)
          ∧ (∀ x, c ∉ g'.edgesOf x)) := by
  have hlmh : ¬ (l.1 = 'm' ∨ l.1 = 'h') := by rw [hl]; decide
  have hrmh : ¬ (r.1 = 'm' ∨ r.1 = 'h') := by rw [hr]; decide
  have hrun : g._split_between_elements sp l r =
      (if sinter (g.edgesOf l) (g.edgesOf r) = [] then .error .missingConnection
       else
        match (sinter (g.edgesOf l) (g.edgesOf r)).find? (fun c => decide (c.1 = 'i' ∨
            (alookup c g.defines = some [] ∧ (g.define_a c).headD 0 = sp))) with
        | none => .error .noSuitableConnection
        | some connection =>
          if connection.1 = 'm' then .ok (g.remove_vertex connection)
          else if connection.1 = 'i' then
            .ok (g.relabel_node connection (g._next_available_element_name 'm'))
          else .error .assertionError) := by
    unfold _split_between_elements
    rw [if_neg hlmh, if_neg hrmh, if_pos ⟨hl, hr⟩]
  refine ⟨?_, ?_, ?_, ?_⟩
  · intro hempty
    rw [hrun, if_pos hempty]
  · intro hne hfind
    rw [hrun, if_neg hne, hfind]
  · intro c d hfind hctag hcdef
    have hne : sinter (g.edgesOf l) (g.edgesOf r) ≠ [] := by
      intro hc
      rw [hc] at hfind
      cases hfind
    have hcm : ¬ (c.1 = 'm') := by rw [hctag]; decide
    refine ⟨g.relabel_node c (g._next_available_element_name 'm'), ?_, fresh_not_mem g 'm',
      name_tag g 'm', ?_, ?_⟩
    · rw [hrun, if_neg hne, hfind]
      dsimp only
      rw [if_neg hcm, if_pos hctag]
    · exact relabel_moves_define g c _ d hcdef (fresh_not_mem g 'm')
    · exact relabel_removes_old g c _ d hcdef (fresh_not_mem g 'm') hndd
  · intro c hfind hctag
    have hne : sinter (g.edgesOf l) (g.edgesOf r) ≠ [] := by
      intro hc
      rw [hc] at hfind
      cases hfind
    have hpred := List.find?_some hfind
    rw [decide_eq_true_eq] at hpred
    have hci : ¬ (c.1 = 'i') := by rw [hctag]; decide
    rcases hpred with hpi | ⟨hpd, hpa⟩
    · exact absurd hpi hci
    refine ⟨hpd, hpa, g.remove_vertex c, ?_, ?_, ?_, ?_⟩
    · rw [hrun, if_neg hne, hfind]
      dsimp only
      rw [if_pos hctag]
    · intro hc
      exact ((mem_keys_remove_vertex g c c hndd).1 hc).2 rfl
    · intro x
      exact mem_keys_remove_vertex g c x hndd
    · intro x
      rw [edgesOf_remove_vertex g c hnde x]
      by_cases hx : x = c
      · simp [hx]
      · rw [if_neg hx, mem_serase]
        rintro ⟨_, hcc⟩
        exact hcc rfl

/-- Witness for Claim C5's theorem: `gTwoStems` has its stems `s0`, `s1`
doubly flanking the cutpoint 3, sharing the zero-length connector `m0`
anchored there, which the split removes. -/
theorem claim_C5_witness :
    alookup (('m', 0) : EName) gTwoStems.defines = some []
    ∧ (gTwoStems.define_a ('m', 0)).headD 0 = 3
    ∧ ∃ g', gTwoStems._split_between_elements 3 ('s', 0) ('s', 1) = .ok g'
      ∧ (('m', 0) : EName) ∉ g'.keys
      ∧ (∀ x, x ∈ g'.keys ↔ x ∈ gTwoStems.keys ∧ x ≠ ('m', 0))
      ∧ (∀ x, (('m', 0) : EName) ∉ g'.edgesOf x) :=
  (claim_C5_between_two_stems gTwoStems 3 ('s', 0) ('s', 1) rfl rfl
    (by decide) (by decide)).2.2.2 ('m', 0) (by rfl) rfl

/-! ## Claim C4 -/

/-- Claim C4: a cutpoint lying strictly inside one strand of a stem
`[a,b,c,d]` removes the stem and replaces it by exactly two sub-stems, each
with a 4-entry define recomputed through `pairing_partner` at the positions
adjacent to the cut, plus one fresh zero-length multiloop connector (empty
define) whose edge set is exactly the two sub-stems; every edge of the
original stem is reattached to exactly one of the two sub-stems, chosen by
which stem boundary the neighbouring element's flanking nucleotides touch. -/
theorem claim_C4_split_inside_stem (g : BulgeGraph) (sp : Int) (element : EName)
    (a b c d : Int)
    (heltag : element.1 = 's')
    (hdef : alookup element g.defines = some [a, b, c, d])
    (hnode1 : g.get_node_from_residue_num sp = some element)
    (hnode2 : g.get_node_from_residue_num (sp + 1) = some element)
    (horder : a ≤ b ∧ b < c ∧ c ≤ d)
    (hcase : (a ≤ sp ∧ sp < b) ∨ (c ≤ sp ∧ sp < d))
    (hcov : ∀ e ∈ g.edgesOf element,
      (listMax? (g.flanking_nucleotides e) = some a ∨
        listMin? (g.flanking_nucleotides e) = some d)
      ∨ (listMax? (g.flanking_nucleotides e) = some c ∨
        listMin? (g.flanking_nucleotides e) = some b))
    (hndd : (akeys g.defines).Nodup)
    (hclosed : ∀ x y, y ∈ g.edgesOf x → y ∈ g.keys)
    (hnoself : element ∉ g.edgesOf element) :
    ∃ g' nS1 nM nS2,
      g._split_inside_stem sp element = .ok g'
      ∧ nS1.1 = 's' ∧ nM.1 = 'm' ∧ nS2.1 = 's'
      ∧ nS1 ≠ nS2 ∧ nS1 ≠ nM ∧ nS2 ≠ nM
      ∧ alookup nS1 g'.defines =
          some (if sp < b then [a, sp, d - (sp - a), d] else [a, b - (sp + 1 - c), sp + 1, d])
      ∧ alookup nS2 g'.defines =
          some (if sp < b then [sp + 1, b, c, d - (sp + 1 - a)] else [b - (sp - c), b, c, sp])
      ∧ alookup nM g'.defines = some []
      ∧ g'.edgesOf nM = [nS1, nS2]
      ∧ (∀ x, x ∈ g'.keys ↔ (x ∈ g.keys ∧ x ≠ element) ∨ x = nS1 ∨ x = nM ∨ x = nS2)
      ∧ (∀ e ∈ g.edgesOf element,
          ((listMax? (g.flanking_nucleotides e) = some a ∨
              listMin? (g.flanking_nucleotides e) = some d) →
            nS1 ∈ g'.edgesOf e ∧ nS2 ∉ g'.edgesOf e)
          ∧ (¬ (listMax? (g.flanking_nucleotides e) = some a ∨
              listMin? (g.flanking_nucleotides e) = some d) →
            nS2 ∈ g'.edgesOf e ∧ nS1 ∉ g'.edgesOf e)) := by
  obtain ⟨hab, hbc, hcd⟩ := horder
  have hpp : ∀ p, g.get_node_from_residue_num p = some element →
      g.pairing_partner p =
        (if a ≤ p ∧ p ≤ b then some (d - (p - a)) else some (b - (p - c))) := by
    intro p hp
    unfold pairing_partner
    rw [hp]
    dsimp only
    rw [hdef]
  rcases hcase with ⟨hasp, hsltb⟩ | ⟨hcsp, hsltd⟩
  · have hspb : ¬ sp = b := by omega
    have hpp1 : g.pairing_partner sp = some (d - (sp - a)) := by
      rw [hpp sp hnode1, if_pos ⟨hasp, by omega⟩]
    have hpp2 : g.pairing_partner (sp + 1) = some (d - (sp + 1 - a)) := by
      rw [hpp (sp + 1) hnode2, if_pos ⟨by omega, by omega⟩]
    have hdefs : (if sp < b then
        match g.pairing_partner sp, g.pairing_partner (sp + 1) with
        | some p1, some p2 => some ([a, sp, p1, d], [sp + 1, b, c, p2])
        | _, _ => none
      else
        match g.pairing_partner (sp + 1), g.pairing_partner sp with
        | some p1, some p2 => some ([a, p1, sp + 1, d], [p2, b, c, sp])
        | _, _ => none) =
        some ([a, sp, d - (sp - a), d], [sp + 1, b, c, d - (sp + 1 - a)]) := by
      rw [if_pos hsltb, hpp1, hpp2]
    have hout := inside_stem_outcome g sp element a b c d
      [a, sp, d - (sp - a), d] [sp + 1, b, c, d - (sp + 1 - a)]
      heltag hdef hspb hdefs rfl rfl rfl rfl hcov hndd hclosed hnoself
    rw [show (if sp < b then [a, sp, d - (sp - a), d]
        else [a, b - (sp + 1 - c), sp + 1, d]) = [a, sp, d - (sp - a), d] from
      if_pos hsltb]
    rw [show (if sp < b then [sp + 1, b, c, d - (sp + 1 - a)]
        else [b - (sp - c), b, c, sp]) = [sp + 1, b, c, d - (sp + 1 - a)] from
      if_pos hsltb]
    exact hout
  · have hspb : ¬ sp = b := by omega
    have hsnb : ¬ sp < b := by omega
    have hpp1 : g.pairing_partner (sp + 1) = some (b - (sp + 1 - c)) := by
      rw [hpp (sp + 1) hnode2, if_neg (by omega)]
    have hpp2 : g.pairing_partner sp = some (b - (sp - c)) := by
      rw [hpp sp hnode1, if_neg (by omega)]
    have hdefs : (if sp < b then
        match g.pairing_partner sp, g.pairing_partner (sp + 1) with
        | some p1, some p2 => some ([a, sp, p1, d], [sp + 1, b, c, p2])
        | _, _ => none
      else
        match g.pairing_partner (sp + 1), g.pairing_partner sp with
        | some p1, some p2 => some ([a, p1, sp + 1, d], [p2, b, c, sp])
        | _, _ => none) =
        some ([a, b - (sp + 1 - c), sp + 1, d], [b - (sp - c), b, c, sp]) := by
      rw [if_neg hsnb, hpp1, hpp2]
    have hout := inside_stem_outcome g sp element a b c d
      [a, b - (sp + 1 - c), sp + 1, d] [b - (sp - c), b, c, sp]
      heltag hdef hspb hdefs rfl rfl rfl rfl hcov hndd hclosed hnoself
    rw [show (if sp < b then [a, sp, d - (sp - a), d]
        else [a, b - (sp + 1 - c), sp + 1, d]) = [a, b - (sp + 1 - c), sp + 1, d] from
      if_neg hsnb]
    rw [show (if sp < b then [sp + 1, b, c, d - (sp + 1 - a)]
        else [b - (sp - c), b, c, sp]) = [b - (sp - c), b, c, sp] from
      if_neg hsnb]
    exact hout

/-- Witness for Claim C4's theorem: the single-stem graph `gStem` with the
cutpoint 2 strictly inside the forward strand of `s0` `[1,3,8,10]`. -/
theorem claim_C4_witness :
    ∃ g' nS1 nM nS2,
      gStem._split_inside_stem 2 ('s', 0) = .ok g'
      ∧ nS1.1 = 's' ∧ nM.1 = 'm' ∧ nS2.1 = 's'
      ∧ nS1 ≠ nS2 ∧ nS1 ≠ nM ∧ nS2 ≠ nM
      ∧ alookup nS1 g'.defines =
          some (if (2 : Int) < 3 then [1, 2, 10 - (2 - 1), 10]
            else [1, 3 - (2 + 1 - 8), 2 + 1, 10])
      ∧ alookup nS2 g'.defines =
          some (if (2 : Int) < 3 then [2 + 1, 3, 8, 10 - (2 + 1 - 1)]
            else [3 - (2 - 8), 3, 8, 2])
      ∧ alookup nM g'.defines = some []
      ∧ g'.edgesOf nM = [nS1, nS2]
      ∧ (∀ x, x ∈ g'.keys ↔ (x ∈ gStem.keys ∧ x ≠ ('s', 0)) ∨ x = nS1 ∨ x = nM ∨ x = nS2)
      ∧ (∀ e ∈ gStem.edgesOf ('s', 0),
          ((listMax? (gStem.flanking_nucleotides e) = some 1 ∨
              listMin? (gStem.flanking_nucleotides e) = some 10) →
            nS1 ∈ g'.edgesOf e ∧ nS2 ∉ g'.edgesOf e)
          ∧ (¬ (listMax? (gStem.flanking_nucleotides e) = some 1 ∨
              listMin? (gStem.flanking_nucleotides e) = some 10) →
            nS2 ∈ g'.edgesOf e ∧ nS1 ∉ g'.edgesOf e)) :=
  claim_C4_split_inside_stem gStem 2 ('s', 0) 1 3 8 10 rfl (by rfl) (by rfl) (by rfl)
    (by constructor <;> [decide; constructor <;> decide])
    (Or.inl (by constructor <;> decide))
    (by decide) (by decide)
    (closed_of_check gStem (by decide)) (by decide)

/-! ## Claim C10 -/

/-- Claim C10: `_next_available_element_name` returns the given type tag
paired with the smallest index whose name is not yet a key of `defines`,
and inserting an element under that name keeps the key set duplicate-free. -/
theorem claim_C10_next_available_element_name (g : BulgeGraph) (t : Char) :
    (∃ i : Nat, g._next_available_element_name t = (t, i) ∧
      (t, i) ∉ g.keys ∧ ∀ j < i, (t, j) ∈ g.keys)
    ∧ (∀ v : List Int, (akeys g.defines).Nodup →
        (akeys (aupdate (g._next_available_element_name t) v g.defines)).Nodup) := by
  constructor
  · exact ⟨(g._next_available_element_name t).2, rfl, fresh_not_mem g t,
      fresh_minimal g t⟩
  · intro v hnd
    exact akeys_nodup_aupdate _ v g.defines hnd

/-- Witness for Claim C10's theorem at a concrete graph: `gILoop` already
holds `s0` and `s1`, and the next available stem name is `s2`. -/
theorem claim_C10_witness :
    (∃ i : Nat, gILoop._next_available_element_name 's' = ('s', i) ∧
      ('s', i) ∉ gILoop.keys ∧ ∀ j < i, ('s', j) ∈ gILoop.keys)
    ∧ (∀ v : List Int, (akeys gILoop.defines).Nodup →
        (akeys (aupdate (gILoop._next_available_element_name 's') v gILoop.defines)).Nodup) :=
  claim_C10_next_available_element_name gILoop 's'

/-! ## Lemmas about the sequence views -/

theorem modFn_fst (M : List (ResId × String)) (e : ResId × String) :
    (modFn M e).1 = e.1 := rfl

theorem modFn_idem (M : List (ResId × String)) (e : ResId × String) :
    modFn M (modFn M e) = modFn M e := by
  unfold modFn
  cases h : alookup e.1 M <;> simp [h]

theorem map_modFn_idem (M : List (ResId × String)) (l : List (ResId × String)) :
    (l.map (modFn M)).map (modFn M) = l.map (modFn M) := by
  rw [List.map_map]
  exact List.map_congr_left fun e _ => modFn_idem M e

/-- Merging missing residues into a run commutes with the modification
overlay on the observed entries, once the overlay is applied to the result. -/
theorem mergeChain_map (M : List (ResId × String)) (obs : List (ResId × String)) :
    ∀ ms, (mergeChain (obs.map (modFn M)) ms).map (modFn M)
      = (mergeChain obs ms).map (modFn M) := by
  induction obs with
  | nil => intro ms; rfl
  | cons o obs ih =>
    intro ms
    simp only [List.map_cons, mergeChain, modFn_fst, List.map_append, List.map_cons]
    rw [modFn_idem, ih]

theorem chainRunsGo_nil (miss : List (ResId × String)) (fuel : Nat) :
    chainRunsGo miss fuel [] = [] := by
  cases fuel <;> rfl

theorem chainRunsGo_zero_cons (miss : List (ResId × String)) (e : ResId × String)
    (rest : List (ResId × String)) :
    chainRunsGo miss 0 (e :: rest) = e :: rest := rfl

theorem chainRunsGo_cons (miss : List (ResId × String)) (fuel : Nat)
    (e : ResId × String) (rest : List (ResId × String)) :
    chainRunsGo miss (fuel + 1) (e :: rest)
      = mergeChain ((e :: rest).takeWhile (fun x => x.1.chain = e.1.chain))
          (miss.filter (fun m => m.1.chain = e.1.chain))
        ++ chainRunsGo miss fuel
            ((e :: rest).dropWhile (fun x => x.1.chain = e.1.chain)) := rfl

/-- The chain-run interleaving commutes with the modification overlay on the
observed entries, once the overlay is applied to the result. -/
theorem chainRunsGo_map (M miss : List (ResId × String)) :
    ∀ (fuel : Nat) (l : List (ResId × String)),
    (chainRunsGo miss fuel (l.map (modFn M))).map (modFn M)
      = (chainRunsGo miss fuel l).map (modFn M) := by
  intro fuel
  induction fuel with
  | zero =>
    intro l
    cases l with
    | nil => rfl
    | cons e rest =>
      rw [List.map_cons, chainRunsGo_zero_cons, chainRunsGo_zero_cons,
        ← List.map_cons, map_modFn_idem]
  | succ fuel ih =>
    intro l
    cases l with
    | nil => rfl
    | cons e rest =>
      rw [List.map_cons, chainRunsGo_cons, chainRunsGo_cons]
      simp only [modFn_fst]
      have htw : (modFn M e :: rest.map (modFn M)).takeWhile
            (fun x => x.1.chain = e.1.chain)
          = ((e :: rest).takeWhile (fun x => x.1.chain = e.1.chain)).map (modFn M) := by
        rw [← List.map_cons, List.takeWhile_map]
        rfl
      have hdw : (modFn M e :: rest.map (modFn M)).dropWhile
            (fun x => x.1.chain = e.1.chain)
          = ((e :: rest).dropWhile (fun x => x.1.chain = e.1.chain)).map (modFn M) := by
        rw [← List.map_cons, List.dropWhile_map]
        rfl
      rw [htw, hdw, List.map_append, List.map_append, mergeChain_map, ih]

/-- The two views commute on the nose: applying `with_missing` then
`with_modifications` to the base view yields the same view as the other
order. -/
theorem views_commute (s : Sequence) :
    s.baseView.with_missing.with_modifications
      = s.baseView.with_modifications.with_missing := by
  simp only [Sequence.baseView, SeqView.with_missing, SeqView.with_modifications,
    applyMods, Bool.false_eq_true, if_false, if_true, List.length_map]
  rw [chainRunsGo_map]

/-! ## Claim C7 -/

/-- Claim C7: `define_length` of the empty boundary list is `0`; on one pair
`[a, b]` with `a ≤ b` it is `b - a + 1`; on two pairs it is the sum of the
two span lengths; and measured through the `with_missing` view the same
boundary pair can yield a strictly larger value, because interleaved gap
residues are counted as well. -/
theorem claim_C7_define_length :
    define_length [] = 0
    ∧ (∀ a b : Int, a ≤ b → define_length [a, b] = b - a + 1)
    ∧ (∀ a b c d : Int, a ≤ b → c ≤ d →
        define_length [a, b, c, d] = (b - a + 1) + (d - c + 1))
    ∧ (∃ (s : Sequence) (a b : Int), a ≤ b ∧
        define_length [a, b] < (s.baseView.with_missing).define_length [a, b]) := by
  refine ⟨rfl, ?_, ?_, ?_⟩
  · intro a b _
    simp [define_length]
  · intro a b c d _ _
    simp [define_length]
  · exact ⟨sGapSeq, 1, 2, by decide, by decide⟩

/-- Witness for Claim C7's theorem: the boundary formulas evaluated on the
concrete pairs `[2, 5]` and `[2, 5, 7, 9]`. -/
theorem claim_C7_witness :
    define_length [(2 : Int), 5] = 4 ∧ define_length [(2 : Int), 5, 7, 9] = 7 :=
  ⟨(claim_C7_define_length.2.1 2 5 (by decide)).trans (by decide),
   (claim_C7_define_length.2.2.1 2 5 7 9 (by decide) (by decide)).trans (by decide)⟩

/-! ## Claim C8 -/

/-- Claim C8: the `with_missing` and `with_modifications` views commute —
both composition orders are constructible and produce the same view, so
resid indexing agrees on every ResidueId. -/
theorem claim_C8_views_commute (s : Sequence) (r : ResId) :
    s.baseView.with_missing.with_modifications
        = s.baseView.with_modifications.with_missing
    ∧ (s.baseView.with_missing.with_modifications).getRes r
        = (s.baseView.with_modifications.with_missing).getRes r :=
  ⟨views_commute s, by rw [views_commute s]⟩

/-! ## Claim C9 -/

/-- Claim C9, counterexample to the claim as stated: in `sGapSeq` the
residue `A:15` is a missing residue addressed without the `with_missing`
view; the claim says such an access raises `LookupError` and not the
out-of-range `IndexError`, but the test suite
(`test_indexing_with_resid_without_missing`) pins exactly this access to
`IndexError`. -/
theorem claim_C9_counterexample :
    sGapSeq.baseView.getRes ⟨'A', 15, none⟩ = .error .indexError
    ∧ PyErr.indexError.isIndexError = true := ⟨rfl, rfl⟩

/-- Claim C9 (amended): resid indexing of a ResidueId absent from the view
raises the `LookupError` `KeyError` when the resid is not a recorded missing
residue (wrong chain, wrong insertion code, unknown), but raises
`IndexError` when it is a missing residue addressed without the
`with_missing` view; an integer position outside both the positive and the
negative closed valid range of the active view raises `IndexError`, as does
a slice step of zero. -/
theorem claim_C9_error_kinds (v : SeqView) (r : ResId) (i start stop : Int) :
    (alookup r v.entries = none → r ∉ v.base.missing.map Prod.fst →
      v.getRes r = .error PyErr.keyError
      ∧ PyErr.keyError.isLookupError = true ∧ PyErr.keyError.isIndexError = false)
    ∧ (alookup r v.entries = none → r ∈ v.base.missing.map Prod.fst →
      v.getRes r = .error PyErr.indexError)
    ∧ (¬ (1 ≤ i ∧ i ≤ (v.entries.length : Int)) →
      ¬ (-(v.entries.length : Int) ≤ i ∧ i ≤ -1) →
      v.getInt i = .error PyErr.indexError)
    ∧ v.getSlice start stop 0 = .error PyErr.indexError := by
  refine ⟨?_, ?_, ?_, ?_⟩
  · intro h1 h2
    refine ⟨?_, rfl, rfl⟩
    unfold SeqView.getRes
    rw [h1]
    exact if_neg h2
  · intro h1 h2
    unfold SeqView.getRes
    rw [h1]
    exact if_pos h2
  · intro h1 h2
    unfold SeqView.getInt
    rw [if_neg h1, if_neg h2]
  · unfold SeqView.getSlice
    exact if_pos rfl

/-- Witness for Claim C9's amended theorem at the concrete sequence
`sGapSeq`: the wrong-chain resid `B:14` gives `KeyError`, position `5` is
out of range, and a zero-step slice gives `IndexError`. -/
theorem claim_C9_witness :
    sGapSeq.baseView.getRes ⟨'B', 14, none⟩ = .error PyErr.keyError
    ∧ sGapSeq.baseView.getInt 5 = .error PyErr.indexError
    ∧ sGapSeq.baseView.getSlice 1 2 0 = .error PyErr.indexError := by
  have H := claim_C9_error_kinds sGapSeq.baseView ⟨'B', 14, none⟩ 5 1 2
  exact ⟨(H.1 (by decide) (by decide)).1, H.2.2.1 (by decide) (by decide), H.2.2.2⟩

/-! ## Preservation of the data-model invariant by the splitting operations -/

namespace BulgeGraph

theorem mem_aupdate {κ : Type} [DecidableEq κ] {α : Type}
    (p : κ × α) (k : κ) (v : α) (l : List (κ × α))
    (h : p ∈ aupdate k v l) : p = (k, v) ∨ p ∈ l := by
  induction l with
  | nil => simpa [aupdate] using h
  | cons q rest ih =>
    obtain ⟨a, b⟩ := q
    by_cases hak : a = k
    · subst hak
      simp only [aupdate, if_pos rfl] at h
      rcases List.mem_cons.1 h with rfl | h'
      · exact Or.inl rfl
      · exact Or.inr (List.mem_cons_of_mem _ h')
    · simp only [aupdate, if_neg hak] at h
      rcases List.mem_cons.1 h with rfl | h'
      · exact Or.inr (List.mem_cons_self _ _)
      · rcases ih h' with h'' | h''
        · exact Or.inl h''
        · exact Or.inr (List.mem_cons_of_mem _ h'')

theorem mem_aerase_nodup {κ : Type} [DecidableEq κ] {α : Type}
    (p : κ × α) (k : κ) (l : List (κ × α)) (hnd : (akeys l).Nodup)
    (h : p ∈ aerase k l) : p ∈ l ∧ p.1 ≠ k := by
  induction l with
  | nil => simp [aerase] at h
  | cons q rest ih =>
    obtain ⟨a, b⟩ := q
    rw [show akeys ((a, b) :: rest) = a :: akeys rest from rfl] at hnd
    obtain ⟨hha, hnd'⟩ := List.nodup_cons.1 hnd
    by_cases hak : a = k
    · subst hak
      simp only [aerase, if_pos rfl] at h
      refine ⟨List.mem_cons_of_mem _ h, ?_⟩
      intro hc
      apply hha
      rw [← hc]
      exact List.mem_map_of_mem Prod.fst h
    · simp only [aerase, if_neg hak] at h
      rcases List.mem_cons.1 h with rfl | h'
      · exact ⟨List.mem_cons_self _ _, hak⟩
      · obtain ⟨hm, hne⟩ := ih hnd' h'
        exact ⟨List.mem_cons_of_mem _ hm, hne⟩

theorem sinsert_nodup (x : EName) (l : List EName) (h : l.Nodup) :
    (sinsert x l).Nodup := by
  unfold sinsert
  by_cases hm : x ∈ l
  · simpa [hm]
  · simp [hm, h]

theorem serase_nodup (x : EName) (l : List EName) (h : l.Nodup) :
    (serase x l).Nodup :=
  h.filter _

theorem mem_map_relabel (old new y : EName) (l : List EName) :
    y ∈ l.map (fun z => if z = old then new else z) ↔
      (y = new ∧ old ∈ l) ∨ (y ∈ l ∧ y ≠ old) := by
  rw [List.mem_map]
  constructor
  · rintro ⟨z, hz, hfz⟩
    by_cases hzo : z = old
    · subst hzo
      rw [if_pos rfl] at hfz
      exact Or.inl ⟨hfz.symm, hz⟩
    · rw [if_neg hzo] at hfz
      subst hfz
      exact Or.inr ⟨hz, hzo⟩
  · rintro (⟨rfl, ho⟩ | ⟨hm, hne⟩)
    · exact ⟨old, ho, if_pos rfl⟩
    · exact ⟨y, hm, if_neg hne⟩

theorem relabel_map_nodup (old new : EName) (l : List EName)
    (hnd : l.Nodup) (hnl : new ∉ l) :
    (l.map (fun z => if z = old then new else z)).Nodup := by
  induction l with
  | nil => simp
  | cons a rest ih =>
    obtain ⟨hna, hndr⟩ := List.nodup_cons.1 hnd
    have hnlr : new ∉ rest := fun hc => hnl (List.mem_cons_of_mem _ hc)
    have hanew : a ≠ new := fun hc => hnl (hc ▸ List.mem_cons_self _ _)
    rw [List.map_cons, List.nodup_cons]
    refine ⟨?_, ih hndr hnlr⟩
    intro hc
    rw [mem_map_relabel] at hc
    by_cases hao : a = old
    · subst hao
      rw [if_pos rfl] at hc
      rcases hc with ⟨_, ho⟩ | ⟨hm, _⟩
      · exact hna ho
      · exact hnlr hm
    · rw [if_neg hao] at hc
      rcases hc with ⟨hc1, _⟩ | ⟨hm, _⟩
      · exact hanew hc1
      · exact hna hm

theorem insertByKey_perm (g : BulgeGraph) (x : EName) (l : List EName) :
    List.Perm (insertByKey g x l) (x :: l) := by
  induction l with
  | nil => exact List.Perm.refl _
  | cons y rest ih =>
    unfold insertByKey
    by_cases hk : g.defineKey x ≤ g.defineKey y
    · rw [if_pos hk]
    · rw [if_neg hk]
      exact (ih.cons y).trans (List.Perm.swap x y rest)

theorem sortByKey_perm (g : BulgeGraph) (l : List EName) :
    List.Perm (sortByKey g l) l := by
  induction l with
  | nil => exact List.Perm.refl _
  | cons x rest ih =>
    unfold sortByKey
    exact (insertByKey_perm g x (sortByKey g rest)).trans (ih.cons x)

theorem mem_connections (g : BulgeGraph) (n x : EName)
    (h : x ∈ g.connections n) : x ∈ g.edgesOf n :=
  (sortByKey_perm g (g.edgesOf n)).mem_iff.1 h

theorem connections_nodup (g : BulgeGraph) (n : EName)
    (h : (g.edgesOf n).Nodup) : (g.connections n).Nodup :=
  ((sortByKey_perm g (g.edgesOf n)).nodup_iff).2 h

theorem get_node_mem (g : BulgeGraph) (p : Int) (n : EName)
    (h : g.get_node_from_residue_num p = some n) : n ∈ g.keys := by
  unfold get_node_from_residue_num at h
  obtain ⟨q, hq, hfq⟩ := List.exists_of_findSome?_eq_some h
  by_cases hc : inDefine p q.2
  · rw [if_pos hc] at hfq
    cases hfq
    exact List.mem_map_of_mem Prod.fst hq
  · rw [if_neg hc] at hfq
    cases hfq

theorem edgesOf_remove_edge (g : BulgeGraph) (a b : EName) (hab : a ≠ b) (x : EName) :
    (g._remove_edge a b).edgesOf x =
      if x = a then serase b (g.edgesOf a)
      else if x = b then serase a (g.edgesOf b)
      else g.edgesOf x := by
  unfold _remove_edge
  simp only [edgesOf_def, alookup_aupdate]
  by_cases hxa : x = a <;> by_cases hxb : x = b
  · exact absurd (hxa.symm.trans hxb) hab
  · subst hxa
    simp [Ne.symm hab, hab]
  · subst hxb
    simp [Ne.symm hab, hab]
  · have h1 : ¬ (a = x) := fun hc => hxa hc.symm
    have h2 : ¬ (b = x) := fun hc => hxb hc.symm
    simp [h1, h2, hxa, hxb]

theorem classifyEdges_sub (g : BulgeGraph) (A D C B : Int) :
    ∀ (L E1 E2 : List EName), L.Nodup →
    classifyEdges g A D C B L = some (E1, E2) →
    E1.Sublist L ∧ E2.Sublist L ∧ ∀ e ∈ E1, e ∉ E2 := by
  intro L
  induction L with
  | nil =>
    intro E1 E2 _ h
    have h' : (some (([], []) : List EName × List EName)) = some (E1, E2) := h
    injection h' with h''
    injection h'' with hE1 hE2
    subst hE1
    subst hE2
    exact ⟨List.nil_sublist _, List.nil_sublist _, by simp⟩
  | cons e rest ih =>
    intro E1 E2 hnd h
    obtain ⟨hne, hndr⟩ := List.nodup_cons.1 hnd
    rw [classifyEdges] at h
    by_cases h1 : listMax? (g.flanking_nucleotides e) = some A ∨
        listMin? (g.flanking_nucleotides e) = some D
    · rw [if_pos h1] at h
      rcases hcl : classifyEdges g A D C B rest with _ | q
      · rw [hcl] at h
        exact Option.noConfusion h
      · obtain ⟨q1, q2⟩ := q
        rw [hcl] at h
        have h' : (some ((e :: q1, q2) : List EName × List EName)) = some (E1, E2) := h
        injection h' with h''
        injection h'' with hE1 hE2
        subst hE1
        subst hE2
        obtain ⟨s1, s2, hdisj⟩ := ih q1 q2 hndr hcl
        refine ⟨s1.cons₂ e, s2.cons e, ?_⟩
        intro z hz
        rcases List.mem_cons.1 hz with rfl | hz'
        · intro hc
          exact hne (s2.subset hc)
        · exact hdisj z hz'
    · rw [if_neg h1] at h
      by_cases h2 : listMax? (g.flanking_nucleotides e) = some C ∨
          listMin? (g.flanking_nucleotides e) = some B
      · rw [if_pos h2] at h
        rcases hcl : classifyEdges g A D C B rest with _ | q
        · rw [hcl] at h
          exact Option.noConfusion h
        · obtain ⟨q1, q2⟩ := q
          rw [hcl] at h
          have h' : (some ((q1, e :: q2) : List EName × List EName)) = some (E1, E2) := h
          injection h' with h''
          injection h'' with hE1 hE2
          subst hE1
          subst hE2
          obtain ⟨s1, s2, hdisj⟩ := ih q1 q2 hndr hcl
          refine ⟨s1.cons e, s2.cons₂ e, ?_⟩
          intro z hz hc
          rcases List.mem_cons.1 hc with rfl | hc'
          · exact hne (s1.subset hz)
          · exact hdisj z hz hc'
      · rw [if_neg h2] at h
        exact Option.noConfusion h

theorem invariant_of_check (g : BulgeGraph) (h : invariantCheck g = true) :
    Invariant g := by
  unfold invariantCheck at h
  simp only [Bool.and_eq_true, List.all_eq_true, decide_eq_true_eq] at h
  obtain ⟨⟨⟨⟨⟨⟨h1, h2⟩, h3⟩, h4⟩, h5⟩, h6⟩, h7⟩ := h
  have hof : ∀ x : EName, ∀ y ∈ g.edgesOf x, (x, g.edgesOf x) ∈ g.edges := by
    intro x y hy
    rcases halt : alookup x g.edges with _ | s
    · rw [edgesOf_def, halt] at hy
      cases hy
    · have : g.edgesOf x = s := by rw [edgesOf_def, halt]; rfl
      rw [this]
      exact alookup_mem x s g.edges halt
  have hForward : ∀ x y : EName, y ∈ g.edgesOf x → x ∈ g.edgesOf y := by
    intro x y hy
    exact h5 _ (hof x y hy) y hy
  refine ⟨fun x y => ⟨hForward x y, hForward y x⟩, h1, h2, ?_, ?_, ?_, ?_⟩
  · intro p hp
    exact h3 p hp
  · intro x y hy
    exact h4 _ (hof x y hy) y hy
  · intro x hx
    exact h6 _ (hof x x hx) hx
  · intro x
    rcases halt : alookup x g.edges with _ | s
    · rw [edgesOf_def, halt]
      simp
    · have hxs : g.edgesOf x = s := by rw [edgesOf_def, halt]; rfl
      rw [hxs]
      exact h7 _ (alookup_mem x s g.edges halt)

theorem invariant_set_defines_aupdate (g : BulgeGraph) (k : EName) (v : List Int)
    (hInv : Invariant g) :
    Invariant { g with defines := aupdate k v g.defines } := by
  obtain ⟨hs, hndd, hnde, hksub, hcl, hself, hvnd⟩ := hInv
  refine ⟨hs, akeys_nodup_aupdate k v g.defines hndd, hnde, ?_, ?_, hself, hvnd⟩
  · intro p hp
    exact (akeys_aupdate k v g.defines p.1).2 (Or.inl (hksub p hp))
  · intro x y hy
    exact (akeys_aupdate k v g.defines y).2 (Or.inl (hcl x y hy))

theorem invariant_add_edge (g : BulgeGraph) (a b : EName) (hInv : Invariant g)
    (ha : a ∈ g.keys) (hb : b ∈ g.keys) (hab : a ≠ b) :
    Invariant (g._add_edge a b) := by
  obtain ⟨hs, hndd, hnde, hksub, hcl, hself, hvnd⟩ := hInv
  have hch := edgesOf_add_edge g a b hab
  refine ⟨?_, hndd, ?_, ?_, ?_, ?_, ?_⟩
  · intro x y
    rw [hch x, hch y]
    by_cases hxa : x = a
    · rw [if_pos hxa]
      by_cases hyb : y = b
      · have hya : ¬ y = a := fun hc => hab (hc.symm.trans hyb)
        rw [if_neg hya, if_pos hyb, mem_sinsert, mem_sinsert]
        constructor
        · intro _
          exact Or.inl hxa
        · intro _
          exact Or.inl hyb
      · by_cases hya : y = a
        · rw [if_pos hya, hxa, hya]
        · rw [if_neg hya, if_neg hyb, mem_sinsert]
          subst hxa
          constructor
          · rintro (h | hy)
            · exact absurd h hyb
            · exact (hs x y).1 hy
          · intro hx
            exact Or.inr ((hs x y).2 hx)
    · rw [if_neg hxa]
      by_cases hxb : x = b
      · rw [if_pos hxb]
        by_cases hya : y = a
        · rw [if_pos hya, mem_sinsert, mem_sinsert]
          constructor
          · intro _
            exact Or.inl hxb
          · intro _
            exact Or.inl hya
        · by_cases hyb : y = b
          · rw [if_neg hya, if_pos hyb, hxb, hyb]
          · rw [if_neg hya, if_neg hyb, mem_sinsert]
            subst hxb
            constructor
            · rintro (h | hy)
              · exact absurd h hya
              · exact (hs x y).1 hy
            · intro hx
              exact Or.inr ((hs x y).2 hx)
      · rw [if_neg hxb]
        by_cases hya : y = a
        · rw [if_pos hya, mem_sinsert]
          subst hya
          constructor
          · intro hy
            exact Or.inr ((hs x y).1 hy)
          · rintro (h | hx)
            · exact absurd h hxb
            · exact (hs x y).2 hx
        · rw [if_neg hya]
          by_cases hyb : y = b
          · rw [if_pos hyb, mem_sinsert]
            subst hyb
            constructor
            · intro hy
              exact Or.inr ((hs x y).1 hy)
            · rintro (h | hx)
              · exact absurd h hxa
              · exact (hs x y).2 hx
          · rw [if_neg hyb]
            exact hs x y
  · exact akeys_nodup_aupdate _ _ _ (akeys_nodup_aupdate _ _ _ hnde)
  · intro p hp
    rcases mem_aupdate p _ _ _ hp with rfl | hp1
    · exact hb
    · rcases mem_aupdate p _ _ _ hp1 with rfl | hp2
      · exact ha
      · exact hksub p hp2
  · intro x y hy
    rw [hch x] at hy
    split_ifs at hy with h1 h2
    · rcases (mem_sinsert y b _).1 hy with rfl | hy'
      · exact hb
      · exact hcl a y hy'
    · rcases (mem_sinsert y a _).1 hy with rfl | hy'
      · exact ha
      · exact hcl b y hy'
    · exact hcl x y hy
  · intro x
    rw [hch x]
    split_ifs with h1 h2
    · intro hx
      rcases (mem_sinsert x b _).1 hx with h' | h'
      · exact hab (h1.symm.trans h')
      · exact hself a (h1 ▸ h')
    · intro hx
      rcases (mem_sinsert x a _).1 hx with h' | h'
      · exact hab (h'.symm.trans h2)
      · exact hself b (h2 ▸ h')
    · exact hself x
  · intro x
    rw [hch x]
    split_ifs
    · exact sinsert_nodup _ _ (hvnd a)
    · exact sinsert_nodup _ _ (hvnd b)
    · exact hvnd x

theorem invariant_remove_edge (g : BulgeGraph) (a b : EName) (hInv : Invariant g)
    (ha : a ∈ g.keys) (hb : b ∈ g.keys) (hab : a ≠ b) :
    Invariant (g._remove_edge a b) := by
  obtain ⟨hs, hndd, hnde, hksub, hcl, hself, hvnd⟩ := hInv
  have hch := edgesOf_remove_edge g a b hab
  refine ⟨?_, hndd, ?_, ?_, ?_, ?_, ?_⟩
  · intro x y
    rw [hch x, hch y]
    by_cases hxa : x = a
    · rw [if_pos hxa]
      by_cases hyb : y = b
      · have hya : ¬ y = a := fun hc => hab (hc.symm.trans hyb)
        rw [if_neg hya, if_pos hyb, mem_serase, mem_serase]
        subst hxa
        subst hyb
        constructor
        · rintro ⟨_, hc⟩
          exact absurd rfl hc
        · rintro ⟨_, hc⟩
          exact absurd rfl hc
      · by_cases hya : y = a
        · rw [if_pos hya, hxa, hya]
        · rw [if_neg hya, if_neg hyb, mem_serase]
          subst hxa
          constructor
          · rintro ⟨hy, _⟩
            exact (hs x y).1 hy
          · intro hx
            exact ⟨(hs x y).2 hx, hyb⟩
    · rw [if_neg hxa]
      by_cases hxb : x = b
      · rw [if_pos hxb]
        by_cases hya : y = a
        · rw [if_pos hya, mem_serase, mem_serase]
          subst hxb
          subst hya
          constructor
          · rintro ⟨_, hc⟩
            exact absurd rfl hc
          · rintro ⟨_, hc⟩
            exact absurd rfl hc
        · by_cases hyb : y = b
          · rw [if_neg hya, if_pos hyb, hxb, hyb]
          · rw [if_neg hya, if_neg hyb, mem_serase]
            subst hxb
            constructor
            · rintro ⟨hy, _⟩
              exact (hs x y).1 hy
            · intro hx
              exact ⟨(hs x y).2 hx, hya⟩
      · rw [if_neg hxb]
        by_cases hya : y = a
        · rw [if_pos hya, mem_serase]
          subst hya
          constructor
          · intro hy
            exact ⟨(hs x y).1 hy, hxb⟩
          · rintro ⟨hx, _⟩
            exact (hs x y).2 hx
        · rw [if_neg hya]
          by_cases hyb : y = b
          · rw [if_pos hyb, mem_serase]
            subst hyb
            constructor
            · intro hy
              exact ⟨(hs x y).1 hy, hxa⟩
            · rintro ⟨hx, _⟩
              exact (hs x y).2 hx
          · rw [if_neg hyb]
            exact hs x y
  · exact akeys_nodup_aupdate _ _ _ (akeys_nodup_aupdate _ _ _ hnde)
  · intro p hp
    rcases mem_aupdate p _ _ _ hp with rfl | hp1
    · exact hb
    · rcases mem_aupdate p _ _ _ hp1 with rfl | hp2
      · exact ha
      · exact hksub p hp2
  · intro x y hy
    rw [hch x] at hy
    split_ifs at hy with h1 h2
    · exact hcl a y ((mem_serase y b _).1 hy).1
    · exact hcl b y ((mem_serase y a _).1 hy).1
    · exact hcl x y hy
  · intro x
    rw [hch x]
    split_ifs with h1 h2
    · intro hx
      exact hself a (h1 ▸ ((mem_serase x b _).1 hx).1)
    · intro hx
      exact hself b (h2 ▸ ((mem_serase x a _).1 hx).1)
    · exact hself x
  · intro x
    rw [hch x]
    split_ifs
    · exact serase_nodup _ _ (hvnd a)
    · exact serase_nodup _ _ (hvnd b)
    · exact hvnd x

theorem invariant_remove_vertex (g : BulgeGraph) (v : EName) (hInv : Invariant g) :
    Invariant (g.remove_vertex v) := by
  obtain ⟨hs, hndd, hnde, hksub, hcl, hself, hvnd⟩ := hInv
  have hch := edgesOf_remove_vertex g v hnde
  refine ⟨?_, ?_, ?_, ?_, ?_, ?_, ?_⟩
  · intro x y
    rw [hch x, hch y]
    by_cases hxv : x = v
    · rw [if_pos hxv]
      by_cases hyv : y = v
      · rw [if_pos hyv]
        simp
      · rw [if_neg hyv, mem_serase]
        subst hxv
        simp
    · rw [if_neg hxv]
      by_cases hyv : y = v
      · rw [if_pos hyv, mem_serase]
        subst hyv
        simp
      · rw [if_neg hyv, mem_serase, mem_serase]
        constructor
        · rintro ⟨h1, _⟩
          exact ⟨(hs x y).1 h1, hxv⟩
        · rintro ⟨h1, _⟩
          exact ⟨(hs x y).2 h1, hyv⟩
  · exact akeys_nodup_aerase v g.defines hndd
  · rw [show akeys (g.remove_vertex v).edges =
      akeys (aerase v g.edges) from akeys_mapval (fun _ s => serase v s) (aerase v g.edges)]
    exact akeys_nodup_aerase v g.edges hnde
  · intro p hp
    obtain ⟨q, hq, hpq⟩ := List.mem_map.1 hp
    obtain ⟨hql, hq1⟩ := mem_aerase_nodup q v g.edges hnde hq
    rw [← hpq]
    exact (mem_keys_remove_vertex g v q.1 hndd).2 ⟨hksub q hql, hq1⟩
  · intro x y hy
    rw [hch x] at hy
    split_ifs at hy with h1
    · cases hy
    · obtain ⟨h2, h3⟩ := (mem_serase y v _).1 hy
      exact (mem_keys_remove_vertex g v y hndd).2 ⟨hcl x y h2, h3⟩
  · intro x
    rw [hch x]
    split_ifs
    · simp
    · intro hx
      exact hself x ((mem_serase x v _).1 hx).1
  · intro x
    rw [hch x]
    split_ifs
    · simp
    · exact serase_nodup v _ (hvnd x)

theorem relabel_keys_mem (g : BulgeGraph) (old new : EName) (d : List Int)
    (hold : alookup old g.defines = some d) (hndd : (akeys g.defines).Nodup)
    (x : EName) :
    x ∈ (g.relabel_node old new).keys ↔ (x ∈ g.keys ∧ x ≠ old) ∨ x = new := by
  rw [show (g.relabel_node old new).keys = akeys (g.relabel_node old new).defines from rfl,
    relabel_defines g old new d hold, akeys_append, List.mem_append]
  constructor
  · rintro (h | h)
    · exact Or.inl ((akeys_aerase old g.defines hndd x).1 h)
    · right
      simpa [akeys] using h
  · rintro (⟨h1, h2⟩ | rfl)
    · exact Or.inl ((akeys_aerase old g.defines hndd x).2 ⟨h1, h2⟩)
    · right
      simp [akeys]

theorem relabel_edgesOf (g : BulgeGraph) (old new : EName) (d : List Int)
    (hold : alookup old g.defines = some d)
    (hnew : new ∉ g.keys)
    (hnde : (akeys g.edges).Nodup)
    (hksub : ∀ p ∈ g.edges, p.1 ∈ g.keys)
    (x : EName) :
    (g.relabel_node old new).edgesOf x =
      if x = new then g.edgesOf old
      else if x = old then []
      else (g.edgesOf x).map (fun z => if z = old then new else z) := by
  have holdk : old ∈ g.keys := (alookup_isSome_iff old g.defines).1 (by rw [hold]; rfl)
  have honk : old ≠ new := fun hc => hnew (hc ▸ holdk)
  have hedgeeq : (g.relabel_node old new).edges =
      ((aerase old g.edges).map
        (fun p => (p.1, p.2.map (fun z => if z = old then new else z))))
      ++ [(new, g.edgesOf old)] := by
    unfold relabel_node
    rw [hold]
  have hmapkeys : ∀ z : EName, alookup z ((aerase old g.edges).map
      (fun p => (p.1, p.2.map (fun w => if w = old then new else w)))) =
      (alookup z (aerase old g.edges)).map
        (fun s => s.map (fun w => if w = old then new else w)) := fun z =>
    alookup_mapval z (fun _ s => s.map (fun w => if w = old then new else w))
      (aerase old g.edges)
  rw [edgesOf_def, hedgeeq, alookup_append, hmapkeys]
  by_cases hxn : x = new
  · subst hxn
    rw [if_pos rfl]
    have hnone : alookup x (aerase old g.edges) = none := by
      rw [alookup_eq_none_iff]
      intro hc
      have h2 : x ∈ akeys g.edges := akeys_aerase_subset old g.edges x hc
      obtain ⟨v, hv⟩ := (mem_akeys_iff x g.edges).1 h2
      exact hnew (hksub (x, v) hv)
    rw [hnone]
    simp [alookup_cons]
  · rw [if_neg hxn]
    by_cases hxo : x = old
    · subst hxo
      rw [if_pos rfl, alookup_aerase_self x g.edges hnde]
      have hno : ¬ (new = x) := fun hc => hxn hc.symm
      simp [alookup_cons, hno]
    · rw [if_neg hxo, alookup_aerase_ne x old g.edges (fun hc => hxo hc.symm)]
      have hno : ¬ (new = x) := fun hc => hxn hc.symm
      rcases halt : alookup x g.edges with _ | s
      · simp [edgesOf_def, halt, alookup_cons, hno]
      · simp [edgesOf_def, halt]

theorem invariant_relabel (g : BulgeGraph) (old new : EName)
    (hInv : Invariant g) (hnew : new ∉ g.keys) :
    Invariant (g.relabel_node old new) := by
  obtain ⟨hs, hndd, hnde, hksub, hcl, hself, hvnd⟩ := hInv
  rcases hold : alookup old g.defines with _ | d
  · have hid : g.relabel_node old new = g := by
      unfold relabel_node
      rw [hold]
    rw [hid]
    exact ⟨hs, hndd, hnde, hksub, hcl, hself, hvnd⟩
  · have holdk : old ∈ g.keys := (alookup_isSome_iff old g.defines).1 (by rw [hold]; rfl)
    have honk : old ≠ new := fun hc => hnew (hc ▸ holdk)
    have hch := relabel_edgesOf g old new d hold hnew hnde hksub
    have hkm := relabel_keys_mem g old new d hold hndd
    have hedgeeq : (g.relabel_node old new).edges =
        ((aerase old g.edges).map
          (fun p => (p.1, p.2.map (fun z => if z = old then new else z))))
        ++ [(new, g.edgesOf old)] := by
      unfold relabel_node
      rw [hold]
    have hnewedge : ∀ z y : EName, y ∈ g.edgesOf z → y ≠ new :=
      fun z y hy hc => hnew (hc ▸ hcl z y hy)
    refine ⟨?_, ?_, ?_, ?_, ?_, ?_, ?_⟩
    · have hone : ∀ x y : EName,
          y ∈ (g.relabel_node old new).edgesOf x → x ∈ (g.relabel_node old new).edgesOf y := by
        intro x y hy
        rw [hch x] at hy
        rw [hch y]
        by_cases hxn : x = new
        · rw [if_pos hxn] at hy
          have hyne : y ≠ new := hnewedge old y hy
          have hynotold : y ≠ old := fun hc => hself old (hc ▸ hy)
          rw [if_neg hyne, if_neg hynotold, mem_map_relabel]
          exact Or.inl ⟨hxn, (hs old y).1 hy⟩
        · rw [if_neg hxn] at hy
          by_cases hxo : x = old
          · rw [if_pos hxo] at hy
            cases hy
          · rw [if_neg hxo, mem_map_relabel] at hy
            rcases hy with ⟨hyn, ho⟩ | ⟨hm, hyo⟩
            · rw [if_pos hyn]
              exact (hs x old).1 ho
            · have hyn : y ≠ new := hnewedge x y hm
              rw [if_neg hyn, if_neg hyo, mem_map_relabel]
              exact Or.inr ⟨(hs x y).1 hm, hxo⟩
      intro x y
      exact ⟨hone x y, hone y x⟩
    · rw [show akeys (g.relabel_node old new).defines =
        akeys (aerase old g.defines ++ [(new, d)]) from by
          rw [relabel_defines g old new d hold], akeys_append, List.nodup_append]
      refine ⟨akeys_nodup_aerase old g.defines hndd, List.nodup_singleton _, ?_⟩
      intro z hz hc
      have hzn : z = new := by simpa [akeys] using hc
      subst hzn
      exact hnew (akeys_aerase_subset old g.defines z hz)
    · rw [show akeys (g.relabel_node old new).edges =
        akeys ((aerase old g.edges).map
          (fun p => (p.1, p.2.map (fun z => if z = old then new else z)))) ++ [new] from by
          rw [hedgeeq, akeys_append]; rfl,
        akeys_mapval (fun _ s => s.map (fun w => if w = old then new else w))
          (aerase old g.edges), List.nodup_append]
      refine ⟨akeys_nodup_aerase old g.edges hnde, List.nodup_singleton _, ?_⟩
      intro z hz hc
      have hzn : z = new := by simpa using hc
      subst hzn
      have h2 : z ∈ akeys g.edges := akeys_aerase_subset old g.edges z hz
      obtain ⟨v, hv⟩ := (mem_akeys_iff z g.edges).1 h2
      exact hnew (hksub (z, v) hv)
    · intro p hp
      rw [hedgeeq] at hp
      rcases List.mem_append.1 hp with hp1 | hp1
      · obtain ⟨q, hq, hpq⟩ := List.mem_map.1 hp1
        obtain ⟨hql, hq1⟩ := mem_aerase_nodup q old g.edges hnde hq
        rw [← hpq]
        exact (hkm q.1).2 (Or.inl ⟨hksub q hql, hq1⟩)
      · have hp2 : p = (new, g.edgesOf old) := by simpa using hp1
        rw [hp2]
        exact (hkm new).2 (Or.inr rfl)
    · intro x y hy
      rw [hch x] at hy
      split_ifs at hy with hxn hxo
      · have h1 := hcl old y hy
        have h2 : y ≠ old := fun hc => hself old (hc ▸ hy)
        exact (hkm y).2 (Or.inl ⟨h1, h2⟩)
      · cases hy
      · rw [mem_map_relabel] at hy
        rcases hy with ⟨rfl, _⟩ | ⟨hm, hyo⟩
        · exact (hkm y).2 (Or.inr rfl)
        · exact (hkm y).2 (Or.inl ⟨hcl x y hm, hyo⟩)
    · intro x
      rw [hch x]
      split_ifs with hxn hxo
      · subst hxn
        intro hc
        exact hnew (hcl old x hc)
      · simp
      · rw [mem_map_relabel]
        rintro (⟨rfl, _⟩ | ⟨hm, _⟩)
        · exact hxn rfl
        · exact hself x hm
    · intro x
      rw [hch x]
      split_ifs
      · exact hvnd old
      · simp
      · exact relabel_map_nodup old new _ (hvnd x) (fun hc => hnew (hcl x new hc))

theorem at_side_invariant (g : BulgeGraph) (sp : Int) (strand other : Int × Int)
    (st0 st1 : EName) (hInv : Invariant g)
    (h0 : st0 ∈ g.keys) (h1 : st1 ∈ g.keys) :
    Invariant (g._split_interior_loop_at_side sp strand other st0 st1) := by
  have hmK : g._next_available_element_name 'm' ∉ g.keys := fresh_not_mem g 'm'
  have htK : g._next_available_element_name 't' ∉ g.keys := fresh_not_mem g 't'
  have hfK : g._next_available_element_name 'f' ∉ g.keys := fresh_not_mem g 'f'
  have hms0 : g._next_available_element_name 'm' ≠ st0 := fun hc => hmK (hc ▸ h0)
  have hms1 : g._next_available_element_name 'm' ≠ st1 := fun hc => hmK (hc ▸ h1)
  have hts0 : g._next_available_element_name 't' ≠ st0 := fun hc => htK (hc ▸ h0)
  have hfs1 : g._next_available_element_name 'f' ≠ st1 := fun hc => hfK (hc ▸ h1)
  unfold _split_interior_loop_at_side
  dsimp only
  by_cases hc1 : strand.1 ≤ sp <;> by_cases hc2 : sp < strand.2 <;>
    simp only [hc1, hc2, if_true, if_false, ite_true, ite_false]
  · refine invariant_add_edge _ _ _ ?_ ?_ ?_ hfs1
    · refine invariant_set_defines_aupdate _ _ _ ?_
      refine invariant_add_edge _ _ _ ?_ ?_ ?_ hts0
      · refine invariant_set_defines_aupdate _ _ _ ?_
        refine invariant_add_edge _ _ _ ?_ ?_ ?_ hms1
        · exact invariant_add_edge _ _ _ (invariant_set_defines_aupdate _ _ _ hInv)
            ((akeys_aupdate _ _ _ _).2 (Or.inr rfl))
            ((akeys_aupdate _ _ _ _).2 (Or.inl h0)) hms0
        · exact (akeys_aupdate _ _ _ _).2 (Or.inr rfl)
        · exact (akeys_aupdate _ _ _ _).2 (Or.inl h1)
      · exact (akeys_aupdate _ _ _ _).2 (Or.inr rfl)
      · exact (akeys_aupdate _ _ _ _).2 (Or.inl ((akeys_aupdate _ _ _ _).2 (Or.inl h0)))
    · exact (akeys_aupdate _ _ _ _).2 (Or.inr rfl)
    · exact (akeys_aupdate _ _ _ _).2 (Or.inl ((akeys_aupdate _ _ _ _).2
        (Or.inl ((akeys_aupdate _ _ _ _).2 (Or.inl h1)))))
  · refine invariant_add_edge _ _ _ ?_ ?_ ?_ hts0
    · refine invariant_set_defines_aupdate _ _ _ ?_
      refine invariant_add_edge _ _ _ ?_ ?_ ?_ hms1
      · exact invariant_add_edge _ _ _ (invariant_set_defines_aupdate _ _ _ hInv)
          ((akeys_aupdate _ _ _ _).2 (Or.inr rfl))
          ((akeys_aupdate _ _ _ _).2 (Or.inl h0)) hms0
      · exact (akeys_aupdate _ _ _ _).2 (Or.inr rfl)
      · exact (akeys_aupdate _ _ _ _).2 (Or.inl h1)
    · exact (akeys_aupdate _ _ _ _).2 (Or.inr rfl)
    · exact (akeys_aupdate _ _ _ _).2 (Or.inl ((akeys_aupdate _ _ _ _).2 (Or.inl h0)))
  · refine invariant_add_edge _ _ _ ?_ ?_ ?_ hfs1
    · refine invariant_set_defines_aupdate _ _ _ ?_
      refine invariant_add_edge _ _ _ ?_ ?_ ?_ hms1
      · exact invariant_add_edge _ _ _ (invariant_set_defines_aupdate _ _ _ hInv)
          ((akeys_aupdate _ _ _ _).2 (Or.inr rfl))
          ((akeys_aupdate _ _ _ _).2 (Or.inl h0)) hms0
      · exact (akeys_aupdate _ _ _ _).2 (Or.inr rfl)
      · exact (akeys_aupdate _ _ _ _).2 (Or.inl h1)
    · exact (akeys_aupdate _ _ _ _).2 (Or.inr rfl)
    · exact (akeys_aupdate _ _ _ _).2 (Or.inl ((akeys_aupdate _ _ _ _).2 (Or.inl h1)))
  · refine invariant_add_edge _ _ _ ?_ ?_ ?_ hms1
    · exact invariant_add_edge _ _ _ (invariant_set_defines_aupdate _ _ _ hInv)
        ((akeys_aupdate _ _ _ _).2 (Or.inr rfl))
        ((akeys_aupdate _ _ _ _).2 (Or.inl h0)) hms0
    · exact (akeys_aupdate _ _ _ _).2 (Or.inr rfl)
    · exact (akeys_aupdate _ _ _ _).2 (Or.inl h1)

theorem interior_case_invariant (g : BulgeGraph) (sp : Int) (iloop stA stB : EName)
    (hInv : Invariant g) (hA : stA ∈ g.keys) (hB : stB ∈ g.keys)
    (strand other : Int × Int) :
    Invariant ((g._split_interior_loop_at_side sp strand other stA stB).remove_vertex iloop) :=
  invariant_remove_vertex _ _ (at_side_invariant g sp strand other stA stB hInv hA hB)

theorem interior_invariant (g : BulgeGraph) (sp : Int) (el er : EName)
    (hInv : Invariant g) (g' : BulgeGraph)
    (h : g._split_interior_loop sp el er = .ok g') : Invariant g' := by
  unfold _split_interior_loop at h
  dsimp only at h
  by_cases hel : el.1 = 'i'
  · rw [if_pos hel] at h
    dsimp only at h
    rcases hconn : g.connections el with _ | ⟨c0, rest1⟩
    · rw [hconn] at h
      exact Except.noConfusion h
    rcases rest1 with _ | ⟨c1, rest2⟩
    · rw [hconn] at h
      exact Except.noConfusion h
    have hc0k : c0 ∈ g.keys := hInv.2.2.2.2.1 el c0
      (mem_connections g el c0 (hconn ▸ List.mem_cons_self _ _))
    have hc1k : c1 ∈ g.keys := hInv.2.2.2.2.1 el c1
      (mem_connections g el c1 (hconn ▸ List.mem_cons_of_mem _ (List.mem_cons_self _ _)))
    rw [hconn] at h
    dsimp only at h
    rcases hd0 : alookup c0 g.defines with _ | d0
    · rw [hd0] at h
      exact Except.noConfusion h
    rcases d0 with _ | ⟨s1a, d01⟩
    · rw [hd0] at h
      exact Except.noConfusion h
    rcases d01 with _ | ⟨s1b, d02⟩
    · rw [hd0] at h
      exact Except.noConfusion h
    rcases d02 with _ | ⟨s1c, d03⟩
    · rw [hd0] at h
      exact Except.noConfusion h
    rcases d03 with _ | ⟨s1d, d04⟩
    · rw [hd0] at h
      exact Except.noConfusion h
    rcases d04 with _ | ⟨s1e, d05⟩
    swap
    · rw [hd0] at h
      exact Except.noConfusion h
    rcases hd1 : alookup c1 g.defines with _ | d1
    · rw [hd0, hd1] at h
      exact Except.noConfusion h
    rcases d1 with _ | ⟨s2a, d11⟩
    · rw [hd0, hd1] at h
      exact Except.noConfusion h
    rcases d11 with _ | ⟨s2b, d12⟩
    · rw [hd0, hd1] at h
      exact Except.noConfusion h
    rcases d12 with _ | ⟨s2c, d13⟩
    · rw [hd0, hd1] at h
      exact Except.noConfusion h
    rcases d13 with _ | ⟨s2d, d14⟩
    · rw [hd0, hd1] at h
      exact Except.noConfusion h
    rcases d14 with _ | ⟨s2e, d15⟩
    swap
    · rw [hd0, hd1] at h
      exact Except.noConfusion h
    rw [hd0, hd1] at h
    dsimp only at h
    by_cases hb1 : s1b + 1 - 1 ≤ sp ∧ sp ≤ s2a - 1
    · rw [if_pos hb1] at h
      injection h with h'
      subst h'
      exact interior_case_invariant g sp el c0 c1 hInv hc0k hc1k _ _
    · rw [if_neg hb1] at h
      by_cases hb2 : s2d + 1 - 1 ≤ sp ∧ sp ≤ s1c - 1
      · rw [if_pos hb2] at h
        injection h with h'
        subst h'
        exact interior_case_invariant g sp el c1 c0 hInv hc1k hc0k _ _
      · rw [if_neg hb2] at h
        exact Except.noConfusion h
  · rw [if_neg hel] at h
    by_cases her : er.1 = 'i'
    · rw [if_pos her] at h
      dsimp only at h
      rcases hconn : g.connections er with _ | ⟨c0, rest1⟩
      · rw [hconn] at h
        exact Except.noConfusion h
      rcases rest1 with _ | ⟨c1, rest2⟩
      · rw [hconn] at h
        exact Except.noConfusion h
      have hc0k : c0 ∈ g.keys := hInv.2.2.2.2.1 er c0
        (mem_connections g er c0 (hconn ▸ List.mem_cons_self _ _))
      have hc1k : c1 ∈ g.keys := hInv.2.2.2.2.1 er c1
        (mem_connections g er c1 (hconn ▸ List.mem_cons_of_mem _ (List.mem_cons_self _ _)))
      rw [hconn] at h
      dsimp only at h
      rcases hd0 : alookup c0 g.defines with _ | d0
      · rw [hd0] at h
        exact Except.noConfusion h
      rcases d0 with _ | ⟨s1a, d01⟩
      · rw [hd0] at h
        exact Except.noConfusion h
      rcases d01 with _ | ⟨s1b, d02⟩
      · rw [hd0] at h
        exact Except.noConfusion h
      rcases d02 with _ | ⟨s1c, d03⟩
      · rw [hd0] at h
        exact Except.noConfusion h
      rcases d03 with _ | ⟨s1d, d04⟩
      · rw [hd0] at h
        exact Except.noConfusion h
      rcases d04 with _ | ⟨s1e, d05⟩
      swap
      · rw [hd0] at h
        exact Except.noConfusion h
      rcases hd1 : alookup c1 g.defines with _ | d1
      · rw [hd0, hd1] at h
        exact Except.noConfusion h
      rcases d1 with _ | ⟨s2a, d11⟩
      · rw [hd0, hd1] at h
        exact Except.noConfusion h
      rcases d11 with _ | ⟨s2b, d12⟩
      · rw [hd0, hd1] at h
        exact Except.noConfusion h
      rcases d12 with _ | ⟨s2c, d13⟩
      · rw [hd0, hd1] at h
        exact Except.noConfusion h
      rcases d13 with _ | ⟨s2d, d14⟩
      · rw [hd0, hd1] at h
        exact Except.noConfusion h
      rcases d14 with _ | ⟨s2e, d15⟩
      swap
      · rw [hd0, hd1] at h
        exact Except.noConfusion h
      rw [hd0, hd1] at h
      dsimp only at h
      by_cases hb1 : s1b + 1 - 1 ≤ sp ∧ sp ≤ s2a - 1
      · rw [if_pos hb1] at h
        injection h with h'
        subst h'
        exact interior_case_invariant g sp er c0 c1 hInv hc0k hc1k _ _
      · rw [if_neg hb1] at h
        by_cases hb2 : s2d + 1 - 1 ≤ sp ∧ sp ≤ s1c - 1
        · rw [if_pos hb2] at h
          injection h with h'
          subst h'
          exact interior_case_invariant g sp er c1 c0 hInv hc1k hc0k _ _
        · rw [if_neg hb2] at h
          exact Except.noConfusion h
    · rw [if_neg her] at h
      exact Except.noConfusion h

theorem inside_loop_invariant (g : BulgeGraph) (sp : Int) (element : EName)
    (hInv : Invariant g) (g' : BulgeGraph)
    (h : g._split_inside_loop sp element = .ok g') : Invariant g' := by
  unfold _split_inside_loop at h
  by_cases htag : element.1 = 'h' ∨ element.1 = 'm'
  case neg =>
    rw [if_neg htag] at h
    exact Except.noConfusion h
  rw [if_pos htag] at h
  rcases hdef : alookup element g.defines with _ | dl
  · rw [hdef] at h
    exact Except.noConfusion h
  rcases dl with _ | ⟨from_, dl2⟩
  · rw [hdef] at h
    exact Except.noConfusion h
  rcases dl2 with _ | ⟨to_, dl3⟩
  · rw [hdef] at h
    exact Except.noConfusion h
  rcases dl3 with _ | ⟨z0, dl4⟩
  swap
  · rw [hdef] at h
    exact Except.noConfusion h
  rw [hdef] at h
  dsimp only at h
  rcases hL : g.get_node_from_residue_num (from_ - 1) with _ | stem_left
  · rw [hL] at h
    exact Except.noConfusion h
  rcases hR : g.get_node_from_residue_num (to_ + 1) with _ | stem_right
  · rw [hL, hR] at h
    exact Except.noConfusion h
  rw [hL, hR] at h
  try dsimp only at h
  injection h with h'
  subst h'
  have hsl : stem_left ∈ g.keys := get_node_mem g _ _ hL
  have hsr : stem_right ∈ g.keys := get_node_mem g _ _ hR
  have ht3 : g._next_available_element_name 't' ∉ g.keys := fresh_not_mem g 't'
  have ht5 : g._next_available_element_name 'f' ∉ g.keys := fresh_not_mem g 'f'
  refine invariant_remove_vertex _ _ ?_
  refine invariant_add_edge _ _ _ ?_ ?_ ?_ ?_
  · refine invariant_add_edge _ _ _ ?_ ?_ ?_ ?_
    · exact invariant_set_defines_aupdate _ _ _ (invariant_set_defines_aupdate _ _ _ hInv)
    · exact (akeys_aupdate _ _ _ _).2 (Or.inl ((akeys_aupdate _ _ _ _).2 (Or.inl hsl)))
    · exact (akeys_aupdate _ _ _ _).2 (Or.inl ((akeys_aupdate _ _ _ _).2 (Or.inr rfl)))
    · exact fun hc => ht3 (hc ▸ hsl)
  · exact (akeys_aupdate _ _ _ _).2 (Or.inr rfl)
  · exact (akeys_aupdate _ _ _ _).2 (Or.inl ((akeys_aupdate _ _ _ _).2 (Or.inl hsr)))
  · exact fun hc => ht5 (hc ▸ hsr)

theorem between_invariant (g : BulgeGraph) (sp : Int) (l r : EName)
    (hInv : Invariant g) (hl : l ∈ g.keys) (hr : r ∈ g.keys) (hlr : l ≠ r)
    (g' : BulgeGraph) (h : g._split_between_elements sp l r = .ok g') :
    Invariant g' := by
  unfold _split_between_elements at h
  by_cases h1 : l.1 = 'm' ∨ l.1 = 'h'
  · rw [if_pos h1] at h
    dsimp only at h
    obtain ⟨d, hd⟩ : ∃ d, alookup l g.defines = some d := by
      rcases hld : alookup l g.defines with _ | d
      · exact absurd ((alookup_eq_none_iff l g.defines).1 hld) (by simpa using hl)
      · exact ⟨d, rfl⟩
    have hIrel : Invariant (g.relabel_node l (g._next_available_element_name 't')) :=
      invariant_relabel g l _ hInv (fresh_not_mem g 't')
    have hkm := relabel_keys_mem g l (g._next_available_element_name 't') d hd hInv.2.1
    by_cases h2 : l.1 ≠ 'h'
    · rw [if_pos h2] at h
      injection h with h'
      subst h'
      refine invariant_remove_edge _ _ _ hIrel ?_ ?_ ?_
      · exact (hkm _).2 (Or.inr rfl)
      · exact (hkm r).2 (Or.inl ⟨hr, fun hc => hlr hc.symm⟩)
      · exact fun hc => fresh_not_mem g 't' (hc ▸ hr)
    · rw [if_neg h2] at h
      injection h with h'
      subst h'
      exact hIrel
  · rw [if_neg h1] at h
    by_cases h3 : r.1 = 'm' ∨ r.1 = 'h'
    · rw [if_pos h3] at h
      dsimp only at h
      obtain ⟨d, hd⟩ : ∃ d, alookup r g.defines = some d := by
        rcases hrd : alookup r g.defines with _ | d
        · exact absurd ((alookup_eq_none_iff r g.defines).1 hrd) (by simpa using hr)
        · exact ⟨d, rfl⟩
      have hIrel : Invariant (g.relabel_node r (g._next_available_element_name 'f')) :=
        invariant_relabel g r _ hInv (fresh_not_mem g 'f')
      have hkm := relabel_keys_mem g r (g._next_available_element_name 'f') d hd hInv.2.1
      by_cases h4 : r.1 ≠ 'h'
      · rw [if_pos h4] at h
        injection h with h'
        subst h'
        refine invariant_remove_edge _ _ _ hIrel ?_ ?_ ?_
        · exact (hkm _).2 (Or.inr rfl)
        · exact (hkm l).2 (Or.inl ⟨hl, hlr⟩)
        · exact fun hc => fresh_not_mem g 'f' (hc ▸ hl)
      · rw [if_neg h4] at h
        injection h with h'
        subst h'
        exact hIrel
    · rw [if_neg h3] at h
      by_cases h5 : l.1 = 's' ∧ r.1 = 's'
      · rw [if_pos h5] at h
        dsimp only at h
        by_cases h6 : sinter (g.edgesOf l) (g.edgesOf r) = []
        · rw [if_pos h6] at h
          exact Except.noConfusion h
        · rw [if_neg h6] at h
          rcases hfind : (sinter (g.edgesOf l) (g.edgesOf r)).find?
              (fun c => decide (c.1 = 'i' ∨
                (alookup c g.defines = some [] ∧ (g.define_a c).headD 0 = sp)))
            with _ | c
          · rw [hfind] at h
            exact Except.noConfusion h
          · rw [hfind] at h
            dsimp only at h
            by_cases h7 : c.1 = 'm'
            · rw [if_pos h7] at h
              injection h with h'
              subst h'
              exact invariant_remove_vertex _ _ hInv
            · rw [if_neg h7] at h
              by_cases h8 : c.1 = 'i'
              · rw [if_pos h8] at h
                try dsimp only at h
                injection h with h'
                subst h'
                exact invariant_relabel g c _ hInv (fresh_not_mem g 'm')
              · rw [if_neg h8] at h
                exact Except.noConfusion h
      · rw [if_neg h5] at h
        exact Except.noConfusion h

theorem foldl_addone_keys_nodup (target : EName) (L : List EName) :
    ∀ g0 : BulgeGraph, (akeys g0.edges).Nodup →
    (akeys ((L.foldl (fun h e =>
      { h with edges := aupdate e (sinsert target (h.edgesOf e)) h.edges }) g0)).edges).Nodup := by
  induction L with
  | nil => exact fun g0 h0 => h0
  | cons e L' ih =>
    intro g0 h0
    exact ih _ (akeys_nodup_aupdate _ _ _ h0)

theorem mem_foldl_addone (target : EName) (L : List EName) :
    ∀ (g0 : BulgeGraph) (p : EName × List EName),
    p ∈ ((L.foldl (fun h e =>
      { h with edges := aupdate e (sinsert target (h.edgesOf e)) h.edges }) g0)).edges →
    p.1 ∈ L ∨ p ∈ g0.edges := by
  induction L with
  | nil => exact fun g0 p hp => Or.inr hp
  | cons e L' ih =>
    intro g0 p hp
    rcases ih _ p hp with h' | h'
    · exact Or.inl (List.mem_cons_of_mem _ h')
    · rcases mem_aupdate _ _ _ _ h' with h'' | h''
      · refine Or.inl ?_
        rw [h'']
        exact List.mem_cons_self _ _
      · exact Or.inr h''

/-- The mutation chain of `_split_inside_stem` preserves the data-model
invariant, for any defines pair the source computed and any successful
edge classification. -/
theorem inside_stem_run_invariant (g : BulgeGraph) (sp : Int) (element : EName)
    (a b c d : Int) (define1 define2 : List Int) (edges1 edges2 : List EName)
    (hInv : Invariant g)
    (heltag : element.1 = 's')
    (hdef : alookup element g.defines = some [a, b, c, d])
    (hspb : ¬ sp = b)
    (hdefs : (if sp < b then
        match g.pairing_partner sp, g.pairing_partner (sp + 1) with
        | some p1, some p2 => some ([a, sp, p1, d], [sp + 1, b, c, p2])
        | _, _ => none
      else
        match g.pairing_partner (sp + 1), g.pairing_partner sp with
        | some p1, some p2 => some ([a, p1, sp + 1, d], [p2, b, c, sp])
        | _, _ => none) = some (define1, define2))
    (hcls : classifyEdges g (define1.headD 0) (define1.getD 3 0)
        (define2.getD 2 0) (define2.getD 1 0) (g.edgesOf element)
      = some (edges1, edges2)) :
    ∃ g9, g._split_inside_stem sp element = .ok g9 ∧ Invariant g9 := by
  obtain ⟨hs, hndd, hnde, hksub, hcl, hself, hvnd⟩ := hInv
  have tag_ne : ∀ x y : EName, x.1 ≠ y.1 → x ≠ y := by
    intro x y hxy hc
    exact hxy (congrArg Prod.fst hc)
  set g1 := g.remove_vertex element with hg1
  set nS1 := g1._next_available_element_name 's' with hnS1
  set g2 : BulgeGraph := { g1 with defines := aupdate nS1 define1 g1.defines } with hg2
  set nM := g2._next_available_element_name 'm' with hnM
  set g3 : BulgeGraph := { g2 with defines := aupdate nM [] g2.defines } with hg3
  set nS2 := g3._next_available_element_name 's' with hnS2
  set g4 : BulgeGraph := { g3 with defines := aupdate nS2 define2 g3.defines } with hg4
  set g5 := edges1.foldl (fun h e1 =>
    { h with edges := aupdate e1 (sinsert nS1 (h.edgesOf e1)) h.edges }) g4 with hg5
  set g6 := edges2.foldl (fun h e2 =>
    { h with edges := aupdate e2 (sinsert nS2 (h.edgesOf e2)) h.edges }) g5 with hg6
  set g7 : BulgeGraph := { g6 with edges := aupdate nS1 (edges1 ++ [nM]) g6.edges } with hg7
  set g8 : BulgeGraph := { g7 with edges := aupdate nS2 (edges2 ++ [nM]) g7.edges } with hg8
  set g9 : BulgeGraph := { g8 with edges := aupdate nM [nS1, nS2] g8.edges } with hg9
  have htag1 : nS1.1 = 's' := name_tag g1 's'
  have htagM : nM.1 = 'm' := name_tag g2 'm'
  have htag2 : nS2.1 = 's' := name_tag g3 's'
  have h1M : nS1 ≠ nM := tag_ne _ _ (by rw [htag1, htagM]; decide)
  have h2M : nS2 ≠ nM := tag_ne _ _ (by rw [htag2, htagM]; decide)
  have hMel : nM ≠ element := tag_ne _ _ (by rw [htagM, heltag]; decide)
  have hkeys1 : ∀ x, x ∈ g1.keys ↔ x ∈ g.keys ∧ x ≠ element :=
    fun x => mem_keys_remove_vertex g element x hndd
  have hkeys2 : ∀ x, x ∈ g2.keys ↔ x ∈ g1.keys ∨ x = nS1 :=
    fun x => akeys_aupdate nS1 define1 g1.defines x
  have hkeys3 : ∀ x, x ∈ g3.keys ↔ x ∈ g2.keys ∨ x = nM :=
    fun x => akeys_aupdate nM [] g2.defines x
  have hkeys4 : ∀ x, x ∈ g4.keys ↔ x ∈ g3.keys ∨ x = nS2 :=
    fun x => akeys_aupdate nS2 define2 g3.defines x
  have hfresh1 : nS1 ∉ g1.keys := fresh_not_mem g1 's'
  have hfreshM : nM ∉ g2.keys := fresh_not_mem g2 'm'
  have hfresh2 : nS2 ∉ g3.keys := fresh_not_mem g3 's'
  have h12 : nS1 ≠ nS2 := by
    intro hc
    exact hfresh2 ((hkeys3 nS1).2 (Or.inl ((hkeys2 nS1).2 (Or.inr rfl))) |> (hc ▸ ·))
  have hemem : ∀ e ∈ g.edgesOf element, e ≠ element ∧ e ∈ g1.keys ∧
      e ≠ nS1 ∧ e ≠ nM ∧ e ≠ nS2 := by
    intro e he
    have hene : e ≠ element := fun hc => hself element (hc ▸ he)
    have hek : e ∈ g1.keys := (hkeys1 e).2 ⟨hcl element e he, hene⟩
    refine ⟨hene, hek, ?_, ?_, ?_⟩
    · intro hc
      exact hfresh1 (hc ▸ hek)
    · intro hc
      exact hfreshM (hc ▸ (hkeys2 e).2 (Or.inl hek))
    · intro hc
      exact hfresh2 (hc ▸ (hkeys3 e).2 (Or.inl ((hkeys2 e).2 (Or.inl hek))))
  obtain ⟨hsub1, hsub2, hdisj⟩ :=
    classifyEdges_sub g (define1.headD 0) (define1.getD 3 0) (define2.getD 2 0)
      (define2.getD 1 0) (g.edgesOf element) edges1 edges2 (hvnd element) hcls
  have he1 : ∀ e ∈ edges1, e ≠ element ∧ e ∈ g1.keys ∧ e ≠ nS1 ∧ e ≠ nM ∧ e ≠ nS2 :=
    fun e he => hemem e (hsub1.subset he)
  have he2 : ∀ e ∈ edges2, e ≠ element ∧ e ∈ g1.keys ∧ e ≠ nS1 ∧ e ≠ nM ∧ e ≠ nS2 :=
    fun e he => hemem e (hsub2.subset he)
  have hM1 : nM ∉ edges1 := fun hc => (he1 nM hc).2.2.2.1 rfl
  have hM2 : nM ∉ edges2 := fun hc => (he2 nM hc).2.2.2.1 rfl
  have h1in1 : nS1 ∉ edges1 := fun hc => (he1 nS1 hc).2.2.1 rfl
  have h1in2 : nS1 ∉ edges2 := fun hc => (he2 nS1 hc).2.2.1 rfl
  have h2in1 : nS2 ∉ edges1 := fun hc => (he1 nS2 hc).2.2.2.2 rfl
  have h2in2 : nS2 ∉ edges2 := fun hc => (he2 nS2 hc).2.2.2.2 rfl
  have hdef9 : g9.defines = g4.defines := by
    rw [hg9, hg8, hg7]
    show g6.defines = g4.defines
    rw [hg6, defines_foldl_addone, hg5, defines_foldl_addone]
  have hrun : g._split_inside_stem sp element = .ok g9 := by
    unfold _split_inside_stem
    rw [if_pos heltag, hdef]
    dsimp only
    rw [if_neg hspb, hdefs]
    dsimp only
    rw [hcls]
  have hkeys9 : ∀ x, x ∈ g9.keys ↔
      (x ∈ g.keys ∧ x ≠ element) ∨ x = nS1 ∨ x = nM ∨ x = nS2 := by
    intro x
    have hx9 : x ∈ g9.keys ↔ x ∈ g4.keys := by
      rw [show g9.keys = akeys g9.defines from rfl, hdef9]
      exact Iff.rfl
    rw [hx9, hkeys4, hkeys3, hkeys2, hkeys1]
    tauto
  have hE9M : g9.edgesOf nM = [nS1, nS2] := by
    rw [hg9, edgesOf_aupdate, if_pos rfl]
  have hE9S2 : g9.edgesOf nS2 = edges2 ++ [nM] := by
    rw [hg9, edgesOf_aupdate, if_neg (fun hc => h2M hc.symm), hg8,
      edgesOf_aupdate, if_pos rfl]
  have hE9S1 : g9.edgesOf nS1 = edges1 ++ [nM] := by
    rw [hg9, edgesOf_aupdate, if_neg (fun hc => h1M hc.symm), hg8,
      edgesOf_aupdate, if_neg (fun hc => h12 hc.symm), hg7,
      edgesOf_aupdate, if_pos rfl]
  have hE4 : ∀ x, g4.edgesOf x = if x = element then [] else serase element (g.edgesOf x) := by
    intro x
    rw [hg4, edgesOf_set_defines, hg3, edgesOf_set_defines, hg2, edgesOf_set_defines, hg1]
    exact edgesOf_remove_vertex g element hnde x
  have hE9old : ∀ x, x ≠ nS1 → x ≠ nM → x ≠ nS2 → g9.edgesOf x =
      (if x ∈ edges2 then
        sinsert nS2 (if x ∈ edges1 then sinsert nS1 (g4.edgesOf x) else g4.edgesOf x)
      else (if x ∈ edges1 then sinsert nS1 (g4.edgesOf x) else g4.edgesOf x)) := by
    intro x hx1 hxM hx2
    rw [hg9, edgesOf_aupdate, if_neg (fun hc => hxM hc.symm), hg8,
      edgesOf_aupdate, if_neg (fun hc => hx2 hc.symm), hg7,
      edgesOf_aupdate, if_neg (fun hc => hx1 hc.symm), hg6,
      edgesOf_foldl_addone, hg5, edgesOf_foldl_addone]
  have hnotg : ∀ w : EName, (w = nS1 ∨ w = nM ∨ w = nS2) → ∀ z,
      w ∈ g.edgesOf z → w = element := by
    intro w hw z hz
    by_contra hne
    have hk1 : w ∈ g1.keys := (hkeys1 w).2 ⟨hcl z w hz, hne⟩
    rcases hw with h' | h' | h'
    · exact hfresh1 (h' ▸ hk1)
    · exact hfreshM (h' ▸ (hkeys2 w).2 (Or.inl hk1))
    · exact hfresh2 (h' ▸ (hkeys3 w).2 (Or.inl ((hkeys2 w).2 (Or.inl hk1))))
  -- the membership characterization of the final edge relation
  have hchar : ∀ x y, y ∈ g9.edgesOf x ↔
      ((x = nM ∧ (y = nS1 ∨ y = nS2))
      ∨ (x ≠ nM ∧ x = nS2 ∧ (y ∈ edges2 ∨ y = nM))
      ∨ (x ≠ nM ∧ x ≠ nS2 ∧ x = nS1 ∧ (y ∈ edges1 ∨ y = nM))
      ∨ (x ≠ nM ∧ x ≠ nS2 ∧ x ≠ nS1 ∧
          ((x ∈ edges1 ∧ y = nS1) ∨ (x ∈ edges2 ∧ y = nS2)
            ∨ (y ∈ g.edgesOf x ∧ y ≠ element ∧ x ≠ element)))) := by
    intro x y
    by_cases hxM : x = nM
    · have hEx : g9.edgesOf x = [nS1, nS2] := by
        rw [hxM]
        exact hE9M
      rw [hEx]
      simp only [List.mem_cons, List.not_mem_nil, or_false]
      constructor
      · intro h'
        exact Or.inl ⟨hxM, h'⟩
      · rintro (⟨_, h'⟩ | ⟨hc, _⟩ | ⟨hc, _⟩ | ⟨hc, _⟩)
        · exact h'
        all_goals exact absurd hxM hc
    · by_cases hx2 : x = nS2
      · have hEx : g9.edgesOf x = edges2 ++ [nM] := by
          rw [hx2]
          exact hE9S2
        rw [hEx]
        simp only [List.mem_append, List.mem_cons, List.not_mem_nil, or_false]
        constructor
        · intro h'
          exact Or.inr (Or.inl ⟨hxM, hx2, h'⟩)
        · rintro (⟨hc, _⟩ | ⟨_, _, h'⟩ | ⟨_, hc, _⟩ | ⟨_, hc, _⟩)
          · exact absurd hc hxM
          · exact h'
          all_goals exact absurd hx2 hc
      · by_cases hx1 : x = nS1
        · have hEx : g9.edgesOf x = edges1 ++ [nM] := by
            rw [hx1]
            exact hE9S1
          rw [hEx]
          simp only [List.mem_append, List.mem_cons, List.not_mem_nil, or_false]
          constructor
          · intro h'
            exact Or.inr (Or.inr (Or.inl ⟨hxM, hx2, hx1, h'⟩))
          · rintro (⟨hc, _⟩ | ⟨_, hc, _⟩ | ⟨_, _, _, h'⟩ | ⟨_, _, hc, _⟩)
            · exact absurd hc hxM
            · exact absurd hc hx2
            · exact h'
            · exact absurd hx1 hc
        · rw [hE9old x hx1 hxM hx2]
          constructor
          · intro h'
            refine Or.inr (Or.inr (Or.inr ⟨hxM, hx2, hx1, ?_⟩))
            by_cases hm2 : x ∈ edges2
            · rw [if_pos hm2] at h'
              rcases (mem_sinsert _ _ _).1 h' with rfl | h''
              · exact Or.inr (Or.inl ⟨hm2, rfl⟩)
              · by_cases hm1 : x ∈ edges1
                · rw [if_pos hm1] at h''
                  rcases (mem_sinsert _ _ _).1 h'' with rfl | h3
                  · exact Or.inl ⟨hm1, rfl⟩
                  · rw [hE4 x, if_neg (hemem x (hsub2.subset hm2)).1] at h3
                    obtain ⟨hy1, hy2⟩ := (mem_serase _ _ _).1 h3
                    exact Or.inr (Or.inr ⟨hy1, hy2, (hemem x (hsub2.subset hm2)).1⟩)
                · rw [if_neg hm1, hE4 x,
                    if_neg (hemem x (hsub2.subset hm2)).1] at h''
                  obtain ⟨hy1, hy2⟩ := (mem_serase _ _ _).1 h''
                  exact Or.inr (Or.inr ⟨hy1, hy2, (hemem x (hsub2.subset hm2)).1⟩)
            · rw [if_neg hm2] at h'
              by_cases hm1 : x ∈ edges1
              · rw [if_pos hm1] at h'
                rcases (mem_sinsert _ _ _).1 h' with rfl | h''
                · exact Or.inl ⟨hm1, rfl⟩
                · rw [hE4 x, if_neg (hemem x (hsub1.subset hm1)).1] at h''
                  obtain ⟨hy1, hy2⟩ := (mem_serase _ _ _).1 h''
                  exact Or.inr (Or.inr ⟨hy1, hy2, (hemem x (hsub1.subset hm1)).1⟩)
              · rw [if_neg hm1, hE4 x] at h'
                by_cases hxe : x = element
                · rw [if_pos hxe] at h'
                  cases h'
                · rw [if_neg hxe] at h'
                  obtain ⟨hy1, hy2⟩ := (mem_serase _ _ _).1 h'
                  exact Or.inr (Or.inr ⟨hy1, hy2, hxe⟩)
          · rintro (⟨hc, _⟩ | ⟨_, hc, _⟩ | ⟨_, _, hc, _⟩ | ⟨_, _, _, hin⟩)
            · exact absurd hc hxM
            · exact absurd hc hx2
            · exact absurd hc hx1
            · rcases hin with ⟨hm1, hy⟩ | ⟨hm2, hy⟩ | ⟨hy1, hy2, hxe⟩
              · by_cases hm2 : x ∈ edges2
                · exact absurd hm2 (hdisj x hm1)
                · rw [if_neg hm2, if_pos hm1, hy]
                  exact (mem_sinsert _ _ _).2 (Or.inl rfl)
              · rw [if_pos hm2, hy]
                exact (mem_sinsert _ _ _).2 (Or.inl rfl)
              · have hy4 : y ∈ g4.edgesOf x := by
                  rw [hE4 x, if_neg hxe]
                  exact (mem_serase _ _ _).2 ⟨hy1, hy2⟩
                by_cases hm2 : x ∈ edges2
                · rw [if_pos hm2]
                  refine (mem_sinsert _ _ _).2 (Or.inr ?_)
                  by_cases hm1 : x ∈ edges1
                  · rw [if_pos hm1]
                    exact (mem_sinsert _ _ _).2 (Or.inr hy4)
                  · rw [if_neg hm1]
                    exact hy4
                · rw [if_neg hm2]
                  by_cases hm1 : x ∈ edges1
                  · rw [if_pos hm1]
                    exact (mem_sinsert _ _ _).2 (Or.inr hy4)
                  · rw [if_neg hm1]
                    exact hy4
  have hone : ∀ x y,
      ((x = nM ∧ (y = nS1 ∨ y = nS2))
      ∨ (x ≠ nM ∧ x = nS2 ∧ (y ∈ edges2 ∨ y = nM))
      ∨ (x ≠ nM ∧ x ≠ nS2 ∧ x = nS1 ∧ (y ∈ edges1 ∨ y = nM))
      ∨ (x ≠ nM ∧ x ≠ nS2 ∧ x ≠ nS1 ∧
          ((x ∈ edges1 ∧ y = nS1) ∨ (x ∈ edges2 ∧ y = nS2)
            ∨ (y ∈ g.edgesOf x ∧ y ≠ element ∧ x ≠ element)))) →
      ((y = nM ∧ (x = nS1 ∨ x = nS2))
      ∨ (y ≠ nM ∧ y = nS2 ∧ (x ∈ edges2 ∨ x = nM))
      ∨ (y ≠ nM ∧ y ≠ nS2 ∧ y = nS1 ∧ (x ∈ edges1 ∨ x = nM))
      ∨ (y ≠ nM ∧ y ≠ nS2 ∧ y ≠ nS1 ∧
          ((y ∈ edges1 ∧ x = nS1) ∨ (y ∈ edges2 ∧ x = nS2)
            ∨ (x ∈ g.edgesOf y ∧ x ≠ element ∧ y ≠ element)))) := by
    intro x y hF
    rcases hF with ⟨hxM, hy⟩ | ⟨hxM, hx2, hy⟩ | ⟨hxM, hx2, hx1, hy⟩ | ⟨hxM, hx2, hx1, hy⟩
    · rcases hy with hy | hy
      · refine Or.inr (Or.inr (Or.inl ⟨?_, ?_, hy, Or.inr hxM⟩))
        · rw [hy]
          exact h1M
        · rw [hy]
          exact h12
      · refine Or.inr (Or.inl ⟨?_, hy, Or.inr hxM⟩)
        rw [hy]
        exact h2M
    · rcases hy with hy | hy
      · obtain ⟨hye, hyk, hy1, hyM, hy2⟩ := he2 y hy
        exact Or.inr (Or.inr (Or.inr ⟨hyM, hy2, hy1, Or.inr (Or.inl ⟨hy, hx2⟩)⟩))
      · exact Or.inl ⟨hy, Or.inr hx2⟩
    · rcases hy with hy | hy
      · obtain ⟨hye, hyk, hy1, hyM, hy2⟩ := he1 y hy
        exact Or.inr (Or.inr (Or.inr ⟨hyM, hy2, hy1, Or.inl ⟨hy, hx1⟩⟩))
      · exact Or.inl ⟨hy, Or.inl hx1⟩
    · rcases hy with ⟨hm1, hy⟩ | ⟨hm2, hy⟩ | ⟨hy1m, hy2m, hxe⟩
      · refine Or.inr (Or.inr (Or.inl ⟨?_, ?_, hy, Or.inl hm1⟩))
        · rw [hy]
          exact h1M
        · rw [hy]
          exact h12
      · refine Or.inr (Or.inl ⟨?_, hy, Or.inl hm2⟩)
        rw [hy]
        exact h2M
      · have hyS1 : y ≠ nS1 := fun hc => hy2m (hnotg y (Or.inl hc) x hy1m)
        have hyM : y ≠ nM := fun hc => hy2m (hnotg y (Or.inr (Or.inl hc)) x hy1m)
        have hyS2 : y ≠ nS2 := fun hc => hy2m (hnotg y (Or.inr (Or.inr hc)) x hy1m)
        exact Or.inr (Or.inr (Or.inr ⟨hyM, hyS2, hyS1,
          Or.inr (Or.inr ⟨(hs x y).1 hy1m, hxe, hy2m⟩)⟩))
  refine ⟨g9, hrun, ?_, ?_, ?_, ?_, ?_, ?_, ?_⟩
  · -- symmetry
    intro x y
    constructor
    · intro h'
      exact (hchar y x).2 (hone x y ((hchar x y).1 h'))
    · intro h'
      exact (hchar x y).2 (hone y x ((hchar y x).1 h'))
  · -- defines keys nodup
    rw [show akeys g9.defines = akeys g4.defines from by rw [hdef9], hg4]
    refine akeys_nodup_aupdate _ _ _ ?_
    rw [hg3]
    refine akeys_nodup_aupdate _ _ _ ?_
    rw [hg2]
    refine akeys_nodup_aupdate _ _ _ ?_
    rw [hg1]
    exact akeys_nodup_aerase element g.defines hndd
  · -- edges keys nodup
    rw [hg9]
    refine akeys_nodup_aupdate _ _ _ ?_
    rw [hg8]
    refine akeys_nodup_aupdate _ _ _ ?_
    rw [hg7]
    refine akeys_nodup_aupdate _ _ _ ?_
    rw [hg6]
    refine foldl_addone_keys_nodup _ _ _ ?_
    rw [hg5]
    refine foldl_addone_keys_nodup _ _ _ ?_
    rw [hg4]
    show (akeys g3.edges).Nodup
    rw [hg3]
    show (akeys g2.edges).Nodup
    rw [hg2]
    show (akeys g1.edges).Nodup
    rw [hg1]
    rw [show akeys (g.remove_vertex element).edges =
      akeys (aerase element g.edges) from
        akeys_mapval (fun _ s => serase element s) (aerase element g.edges)]
    exact akeys_nodup_aerase element g.edges hnde
  · -- keysSub
    intro p hp
    rw [hg9] at hp
    rcases mem_aupdate _ _ _ _ hp with h' | hp1
    · rw [h']
      exact (hkeys9 nM).2 (Or.inr (Or.inr (Or.inl rfl)))
    rw [hg8] at hp1
    rcases mem_aupdate _ _ _ _ hp1 with h' | hp2
    · rw [h']
      exact (hkeys9 nS2).2 (Or.inr (Or.inr (Or.inr rfl)))
    rw [hg7] at hp2
    rcases mem_aupdate _ _ _ _ hp2 with h' | hp3
    · rw [h']
      exact (hkeys9 nS1).2 (Or.inr (Or.inl rfl))
    rw [hg6] at hp3
    rcases mem_foldl_addone _ _ _ _ hp3 with h' | hp4
    · obtain ⟨hpe, hpk, _, _, _⟩ := he2 p.1 h'
      exact (hkeys9 p.1).2 (Or.inl ((hkeys1 p.1).1 hpk))
    rw [hg5] at hp4
    rcases mem_foldl_addone _ _ _ _ hp4 with h' | hp5
    · obtain ⟨hpe, hpk, _, _, _⟩ := he1 p.1 h'
      exact (hkeys9 p.1).2 (Or.inl ((hkeys1 p.1).1 hpk))
    rw [hg4] at hp5
    have hp6 : p ∈ g1.edges := hp5
    rw [hg1] at hp6
    obtain ⟨q, hq, hpq⟩ := List.mem_map.1 hp6
    obtain ⟨hql, hq1⟩ := mem_aerase_nodup q element g.edges hnde hq
    rw [← hpq]
    exact (hkeys9 q.1).2 (Or.inl ⟨hksub q hql, hq1⟩)
  · -- closedness
    intro x y hy
    rcases (hchar x y).1 hy with ⟨_, hy'⟩ | ⟨_, _, hy'⟩ | ⟨_, _, _, hy'⟩ | ⟨_, _, _, hin⟩
    · rcases hy' with hy' | hy'
      · rw [hy']
        exact (hkeys9 nS1).2 (Or.inr (Or.inl rfl))
      · rw [hy']
        exact (hkeys9 nS2).2 (Or.inr (Or.inr (Or.inr rfl)))
    · rcases hy' with hy' | hy'
      · obtain ⟨hye, hyk, _, _, _⟩ := he2 y hy'
        exact (hkeys9 y).2 (Or.inl ((hkeys1 y).1 hyk))
      · rw [hy']
        exact (hkeys9 nM).2 (Or.inr (Or.inr (Or.inl rfl)))
    · rcases hy' with hy' | hy'
      · obtain ⟨hye, hyk, _, _, _⟩ := he1 y hy'
        exact (hkeys9 y).2 (Or.inl ((hkeys1 y).1 hyk))
      · rw [hy']
        exact (hkeys9 nM).2 (Or.inr (Or.inr (Or.inl rfl)))
    · rcases hin with ⟨_, hy'⟩ | ⟨_, hy'⟩ | ⟨hy1m, hy2m, _⟩
      · rw [hy']
        exact (hkeys9 nS1).2 (Or.inr (Or.inl rfl))
      · rw [hy']
        exact (hkeys9 nS2).2 (Or.inr (Or.inr (Or.inr rfl)))
      · exact (hkeys9 y).2 (Or.inl ⟨hcl x y hy1m, hy2m⟩)
  · -- no self loops
    intro x hc
    rcases (hchar x x).1 hc with ⟨hxM, hx'⟩ | ⟨hxM, hx2, hx'⟩ |
        ⟨hxM, hx2, hx1, hx'⟩ | ⟨hxM, hx2, hx1, hin⟩
    · rcases hx' with hx' | hx'
      · exact h1M (hx'.symm.trans hxM)
      · exact h2M (hx'.symm.trans hxM)
    · rcases hx' with hx' | hx'
      · exact h2in2 (hx2 ▸ hx')
      · exact hxM hx'
    · rcases hx' with hx' | hx'
      · exact h1in1 (hx1 ▸ hx')
      · exact hxM hx'
    · rcases hin with ⟨_, hx'⟩ | ⟨_, hx'⟩ | ⟨hx', _, _⟩
      · exact hx1 hx'
      · exact hx2 hx'
      · exact hself x hx'
  · -- neighbour lists duplicate-free
    intro x
    by_cases hxM : x = nM
    · rw [hxM, hE9M]
      simp [h12]
    · by_cases hx2 : x = nS2
      · rw [hx2, hE9S2, List.nodup_append]
        refine ⟨(hvnd element).sublist hsub2, List.nodup_singleton _, ?_⟩
        intro z hz hc
        have hzM : z = nM := by simpa using hc
        exact hM2 (hzM ▸ hz)
      · by_cases hx1 : x = nS1
        · rw [hx1, hE9S1, List.nodup_append]
          refine ⟨(hvnd element).sublist hsub1, List.nodup_singleton _, ?_⟩
          intro z hz hc
          have hzM : z = nM := by simpa using hc
          exact hM1 (hzM ▸ hz)
        · rw [hE9old x hx1 hxM hx2]
          have h4nd : (g4.edgesOf x).Nodup := by
            rw [hE4 x]
            split_ifs
            · simp
            · exact serase_nodup _ _ (hvnd x)
          split_ifs
          · exact sinsert_nodup _ _ (sinsert_nodup _ _ h4nd)
          · exact sinsert_nodup _ _ h4nd
          · exact sinsert_nodup _ _ h4nd
          · exact h4nd

/-- `_split_inside_stem` preserves the data-model invariant. -/
theorem inside_stem_invariant (g : BulgeGraph) (sp : Int) (element : EName)
    (hInv : Invariant g) (g' : BulgeGraph)
    (h : g._split_inside_stem sp element = .ok g') : Invariant g' := by
  have h0 := h
  by_cases htag : element.1 = 's'
  case neg =>
    unfold _split_inside_stem at h
    rw [if_neg htag] at h
    exact Except.noConfusion h
  unfold _split_inside_stem at h
  rw [if_pos htag] at h
  rcases hdef : alookup element g.defines with _ | dl
  · rw [hdef] at h
    exact Except.noConfusion h
  rcases dl with _ | ⟨a, l1⟩
  · rw [hdef] at h
    exact Except.noConfusion h
  rcases l1 with _ | ⟨b, l2⟩
  · rw [hdef] at h
    exact Except.noConfusion h
  rcases l2 with _ | ⟨c, l3⟩
  · rw [hdef] at h
    exact Except.noConfusion h
  rcases l3 with _ | ⟨d, l4⟩
  · rw [hdef] at h
    exact Except.noConfusion h
  rcases l4 with _ | ⟨e5, l5⟩
  swap
  · rw [hdef] at h
    exact Except.noConfusion h
  rw [hdef] at h
  dsimp only at h
  by_cases hspb : sp = b
  · rw [if_pos hspb] at h
    injection h with h'
    subst h'
    exact hInv
  · rw [if_neg hspb] at h
    rcases hdefs : (if sp < b then
        match g.pairing_partner sp, g.pairing_partner (sp + 1) with
        | some p1, some p2 => some ([a, sp, p1, d], [sp + 1, b, c, p2])
        | _, _ => none
      else
        match g.pairing_partner (sp + 1), g.pairing_partner sp with
        | some p1, some p2 => some ([a, p1, sp + 1, d], [p2, b, c, sp])
        | _, _ => none) with _ | dd
    · rw [hdefs] at h
      exact Except.noConfusion h
    obtain ⟨define1, define2⟩ := dd
    rcases hcls : classifyEdges g (define1.headD 0) (define1.getD 3 0)
        (define2.getD 2 0) (define2.getD 1 0) (g.edgesOf element) with _ | ee
    · rw [hdefs] at h
      dsimp only at h
      rw [hcls] at h
      exact Except.noConfusion h
    obtain ⟨edges1, edges2⟩ := ee
    obtain ⟨g9, hrun, hI⟩ := inside_stem_run_invariant g sp element a b c d
      define1 define2 edges1 edges2 hInv htag hdef hspb hdefs hcls
    have heq : Except.ok (ε := SplitError) g9 = Except.ok g' := hrun.symm.trans h0
    injection heq with heq'
    rw [← heq']
    exact hI

/-- The guard-and-dispatch body of the cutpoint loop preserves the
data-model invariant. -/
theorem body_invariant (g : BulgeGraph) (sp : Int) (el er : EName)
    (hInv : Invariant g) (hel : el ∈ g.keys) (her : er ∈ g.keys) (g' : BulgeGraph)
    (h : processCutpointBody g sp el er = .ok g') : Invariant g' := by
  unfold processCutpointBody at h
  by_cases h1 : el.1 = 'f' ∨ el.1 = 't' ∨ er.1 = 'f' ∨ er.1 = 't'
  · rw [if_pos h1] at h
    by_cases h2 : el.1 = 't' ∧ el.1 ≠ 't'
    · rw [if_pos h2] at h
      injection h with h'
      subst h'
      exact hInv
    · rw [if_neg h2] at h
      by_cases h3 : er.1 = 'f' ∧ el.1 ≠ 'f'
      · rw [if_pos h3] at h
        injection h with h'
        subst h'
        exact hInv
      · rw [if_neg h3] at h
        exact Except.noConfusion h
  · rw [if_neg h1] at h
    by_cases h4 : el.1 = 'i' ∨ er.1 = 'i'
    · rw [if_pos h4] at h
      exact interior_invariant g sp el er hInv g' h
    · rw [if_neg h4] at h
      by_cases h5 : el ≠ er
      · rw [if_pos h5] at h
        exact between_invariant g sp el er hInv hel her h5 g' h
      · rw [if_neg h5] at h
        by_cases h6 : el.1 = 's'
        · rw [if_pos h6] at h
          exact inside_stem_invariant g sp el hInv g' h
        · rw [if_neg h6] at h
          exact inside_loop_invariant g sp el hInv g' h

theorem processCutpoint_invariant (g : BulgeGraph) (sp : Int)
    (hInv : Invariant g) (g' : BulgeGraph)
    (h : processCutpoint g sp = .ok g') : Invariant g' := by
  unfold processCutpoint at h
  rcases hL : g.get_node_from_residue_num sp with _ | el
  · rw [hL] at h
    exact Except.noConfusion h
  rcases hR : g.get_node_from_residue_num (sp + 1) with _ | er
  · rw [hL, hR] at h
    exact Except.noConfusion h
  rw [hL, hR] at h
  exact body_invariant g sp el er hInv (get_node_mem g sp el hL)
    (get_node_mem g (sp + 1) er hR) g' h

theorem foldCutpoints_invariant (cuts : List Int) :
    ∀ g : BulgeGraph, Invariant g → ∀ g' : BulgeGraph,
    foldCutpoints g cuts = .ok g' → Invariant g' := by
  induction cuts with
  | nil =>
    intro g hInv g' h
    have h2 : Except.ok (ε := SplitError) g = .ok g' := h
    injection h2 with h'
    rw [← h']
    exact hInv
  | cons sp rest ih =>
    intro g hInv g' h
    simp only [foldCutpoints] at h
    cases hp : processCutpoint g sp with
    | error e =>
      rw [hp] at h
      exact Except.noConfusion h
    | ok gm =>
      rw [hp] at h
      exact ih gm (processCutpoint_invariant g sp hInv gm hp) g' h

/-- A successful `split_at_cofold_cutpoints` run preserves the data-model
invariant. -/
theorem split_invariant (g : BulgeGraph) (cuts : List Int) (hInv : Invariant g)
    (g' : BulgeGraph) (h : g.split_at_cofold_cutpoints cuts = .ok g') :
    Invariant g' := by
  unfold split_at_cofold_cutpoints at h
  cases hf : foldCutpoints g cuts with
  | error e =>
    rw [hf] at h
    exact Except.noConfusion h
  | ok gm =>
    rw [hf] at h
    dsimp only at h
    have hI := foldCutpoints_invariant cuts g hInv gm hf
    cases hc : _is_connected gm with
    | none =>
      rw [hc] at h
      exact Except.noConfusion h
    | some bv =>
      cases bv
      · rw [hc] at h
        exact Except.noConfusion h
      · rw [hc] at h
        injection h with h'
        rw [← h']
        exact hI

end BulgeGraph

/-! ## Claim C6 -/

/-- Claim C6: on a graph satisfying the spec §3 data model (symmetric
`edges` together with the dict/set well-formedness of `defines` and
`edges`), each cofold splitting operation — `_split_between_elements` under
its calling contract (two distinct defined flanking elements),
`_split_interior_loop`, `_split_inside_stem`, `_split_inside_loop` — and
hence every successful `split_at_cofold_cutpoints` run, preserves the
symmetry of the edge relation over the elements of the resulting graph. -/
theorem claim_C6_symmetry_preserved (g : BulgeGraph) (hInv : Invariant g)
    (sp : Int) (l r el : EName) (cuts : List Int) (g' : BulgeGraph) :
    (l ∈ g.keys → r ∈ g.keys → l ≠ r →
      g._split_between_elements sp l r = .ok g' → symmE g')
    ∧ (g._split_interior_loop sp l r = .ok g' → symmE g')
    ∧ (g._split_inside_stem sp el = .ok g' → symmE g')
    ∧ (g._split_inside_loop sp el = .ok g' → symmE g')
    ∧ (g.split_at_cofold_cutpoints cuts = .ok g' → symmE g') := by
  refine ⟨?_, ?_, ?_, ?_, ?_⟩
  · intro hl hr hlr h
    exact (between_invariant g sp l r hInv hl hr hlr g' h).1
  · intro h
    exact (interior_invariant g sp l r hInv g' h).1
  · intro h
    exact (inside_stem_invariant g sp el hInv g' h).1
  · intro h
    exact (inside_loop_invariant g sp el hInv g' h).1
  · intro h
    exact (split_invariant g cuts hInv g' h).1

/-- Witness for Claim C6's theorem at a concrete graph: `gILoop` satisfies
the data-model invariant, its interior-loop split at cutpoint 3 succeeds,
and the resulting graph's edge relation is again symmetric. -/
theorem claim_C6_witness :
    Invariant gILoop
    ∧ gILoop._split_interior_loop 3 ('i', 0) ('i', 0) = .ok gILoopAfter
    ∧ symmE gILoopAfter :=
  ⟨invariant_of_check gILoop (by decide), rfl,
   (claim_C6_symmetry_preserved gILoop (invariant_of_check gILoop (by decide)) 3
     ('i', 0) ('i', 0) ('i', 0) [] gILoopAfter).2.1 rfl⟩

end Forgi
